import Mathlib

/-!
# kv-vs: a shallow embedding of the commit engine, with proofs

This file embeds the core of the `kv-vs` repository (a Git-like versioning
engine over a key-value store) into Lean 4 and proves properties of it.

Embedded components, translated from the Go source:
* `internal/storage/hashutil.go` — content fingerprint and commit-hash
  derivation (SHA-256 is the `crypto/sha256` primitive, implemented here
  bit-faithfully over `Nat` with explicit `% 2^32` arithmetic);
* `internal/storage/diff.go` together with the pinned external library
  `github.com/pmezard/go-difflib v1.0.0` (a line-by-line port of Python's
  `difflib`) — unified-diff generation;
* the shared data model (`internal/types`, storage requests/results);
* the in-memory backend `memoryStore` and the KeyDB backend `keydbStore`
  (`internal/storage/keydb_store.go`), including retention enforcement and
  the archive (`MemoryArchive`).

Modelling conventions:
* Go `time.Time` values are UTC instants represented as nanoseconds since
  the Unix epoch (`Nat`); `time.Duration` is `Int` nanoseconds. Each store
  operation takes the value of the store's `clock()` as an explicit `now`
  argument (the Go code reads the clock at most twice per operation, from a
  monotone wall clock; we model one instant per operation).
* Redis keys `family:<repo>:<name>` are modelled as per-family maps keyed
  by the `(repo, name)` pair; the key families are prefix-disjoint in the
  Go code. JSON marshal/unmarshal of the record types is the identity on
  the modelled fields and cannot fail, so it is elided. The redis ZSET is a
  member→score map whose range queries sort by score and then member.
* Byte strings (`[]byte`) round-trip with Go `string` conversions, so blob
  payloads are kept as `String`.
* The sequential semantics of the KeyDB backend is modelled: with no
  concurrent writer a `WATCH` transaction never fails, so the retry loop in
  `PutBlobAndCommit` runs its body exactly once.
* Go map iteration order is unspecified; wherever the Go code iterates a
  map (the retention `toArchive` set, sorted listings), the model iterates
  in a fixed order that yields the same final state/output as any order.
-/

set_option maxRecDepth 4000

namespace KvVs

/-! ## Association-list maps -/

/-- Lookup in an association list (the model of Go maps / redis key lookup). -/
def alGet {κ α : Type} [DecidableEq κ] : List (κ × α) → κ → Option α
  | [], _ => none
  | (k', v) :: rest, k => if k' = k then some v else alGet rest k

/-- Insert or overwrite a binding (Go `m[k] = v` / redis `SET`). -/
def alSet {κ α : Type} [DecidableEq κ] : List (κ × α) → κ → α → List (κ × α)
  | [], k, v => [(k, v)]
  | (k', v') :: rest, k, v =>
    if k' = k then (k, v) :: rest else (k', v') :: alSet rest k v

/-- Delete a binding (Go `delete(m, k)` / redis `DEL`). -/
def alDel {κ α : Type} [DecidableEq κ] : List (κ × α) → κ → List (κ × α)
  | [], _ => []
  | (k', v') :: rest, k =>
    if k' = k then alDel rest k else (k', v') :: alDel rest k

/-! ## 32-bit arithmetic over `Nat` and SHA-256 (`crypto/sha256`)

The Go code fingerprints content and derives commit hashes with
`crypto/sha256`; the function below is the FIPS 180-4 SHA-256 compression
pipeline over byte lists, with 32-bit words carried as `Nat` reduced
modulo `2^32`. -/

def mask32 (n : Nat) : Nat := n % 4294967296

def add32 (a b : Nat) : Nat := (a + b) % 4294967296

def rotr32 (x n : Nat) : Nat := ((x >>> n) ||| (x <<< (32 - n))) % 4294967296

def xor3 (a b c : Nat) : Nat := Nat.xor (Nat.xor a b) c

def shaCh (x y z : Nat) : Nat :=
  Nat.xor (Nat.land x y) (Nat.land (Nat.xor x 4294967295) z)

def shaMaj (x y z : Nat) : Nat :=
  xor3 (Nat.land x y) (Nat.land x z) (Nat.land y z)

def bigSigma0 (x : Nat) : Nat := xor3 (rotr32 x 2) (rotr32 x 13) (rotr32 x 22)

def bigSigma1 (x : Nat) : Nat := xor3 (rotr32 x 6) (rotr32 x 11) (rotr32 x 25)

def smallSigma0 (x : Nat) : Nat := xor3 (rotr32 x 7) (rotr32 x 18) (x >>> 3)

def smallSigma1 (x : Nat) : Nat := xor3 (rotr32 x 17) (rotr32 x 19) (x >>> 10)

/-- The SHA-256 round constants. -/
def shaK : List Nat :=
  [1116352408, 1899447441, 3049323471, 3921009573, 961987163, 1508970993,
   2453635748, 2870763221, 3624381080, 310598401, 607225278, 1426881987,
   1925078388, 2162078206, 2614888103, 3248222580, 3835390401, 4022224774,
   264347078, 604807628, 770255983, 1249150122, 1555081692, 1996064986,
   2554220882, 2821834349, 2952996808, 3210313671, 3336571891, 3584528711,
   113926993, 338241895, 666307205, 773529912, 1294757372, 1396182291,
   1695183700, 1986661051, 2177026350, 2456956037, 2730485921, 2820302411,
   3259730800, 3345764771, 3516065817, 3600352804, 4094571909, 275423344,
   430227734, 506948616, 659060556, 883997877, 958139571, 1322822218,
   1537002063, 1747873779, 1955562222, 2024104815, 2227730452, 2361852424,
   2428436474, 2756734187, 3204031479, 3329325298]

/-- The SHA-256 initial hash value. -/
def shaIV : List Nat :=
  [1779033703, 3144134277, 1013904242, 2773480762, 1359893119, 2600822924,
   528734635, 1541459225]

/-- Next word of the message schedule, given the schedule so far reversed
(most recent word first). -/
def shaNextW (rw : List Nat) : Nat :=
  add32 (add32 (smallSigma1 (rw.getD 1 0)) (rw.getD 6 0))
    (add32 (smallSigma0 (rw.getD 14 0)) (rw.getD 15 0))

/-- Extend the (reversed) message schedule by `n` words. -/
def shaExtend : Nat → List Nat → List Nat
  | 0, rw => rw
  | n + 1, rw => shaExtend n (shaNextW rw :: rw)

/-- One SHA-256 round: state is the list `[a,b,c,d,e,f,g,h]`, `kw` is the
round constant added to the scheduled word. -/
def shaRound (st : List Nat) (kw : Nat) : List Nat :=
  match st with
  | [a, b, c, d, e, f, g, h] =>
    let t1 := add32 (add32 h (bigSigma1 e)) (add32 (shaCh e f g) kw)
    let t2 := add32 (bigSigma0 a) (shaMaj a b c)
    [add32 t1 t2, a, b, c, add32 d t1, e, f, g]
  | other => other

/-- Process one 16-word block into the running 8-word hash state. -/
def shaBlock (h : List Nat) (block : List Nat) : List Nat :=
  let sched := (shaExtend 48 block.reverse).reverse
  let kw := List.zipWith add32 shaK sched
  let st := kw.foldl shaRound h
  List.zipWith add32 h st

/-- Split a list into chunks of `sz + 1` elements (structurally recursive so
that it reduces in the kernel). -/
def chunksAux {α : Type} (sz : Nat) : List α → List α → Nat → List (List α)
  | cur, [], _ => if cur.isEmpty then [] else [cur.reverse]
  | cur, x :: rest, n =>
    if n = sz then (x :: cur).reverse :: chunksAux sz [] rest 0
    else chunksAux sz (x :: cur) rest (n + 1)

def chunks {α : Type} (sz : Nat) (l : List α) : List (List α) :=
  chunksAux (sz - 1) [] l 0

/-- Big-endian bytes of `n`, `k` bytes wide. -/
def beBytes : Nat → Nat → List Nat
  | 0, _ => []
  | k + 1, n => beBytes k (n / 256) ++ [n % 256]

/-- SHA-256 padding of a byte message. -/
def shaPad (msg : List Nat) : List Nat :=
  let r := (msg.length + 1) % 64
  let zeros := if r ≤ 56 then 56 - r else 120 - r
  msg ++ [128] ++ List.replicate zeros 0 ++ beBytes 8 (msg.length * 8)

/-- Four big-endian bytes to one 32-bit word. -/
def wordOfBytes (bs : List Nat) : Nat :=
  bs.foldl (fun acc b => acc * 256 + b) 0

/-- SHA-256 of a byte list, as a 32-byte list. -/
def sha256 (msg : List Nat) : List Nat :=
  let blocks := chunks 64 (shaPad msg)
  let final := blocks.foldl (fun h blk => shaBlock h ((chunks 4 blk).map wordOfBytes)) shaIV
  (final.map (beBytes 4)).flatten

def hexChars : List Char :=
  ['0', '1', '2', '3', '4', '5', '6', '7'] ++ ['8', '9', 'a', 'b', 'c', 'd', 'e', 'f']

def hexOfByte (b : Nat) : List Char :=
  [hexChars.getD (b / 16) '0', hexChars.getD (b % 16) '0']

def hexOfBytes (bs : List Nat) : String :=
  String.mk (bs.map hexOfByte).flatten

/-- UTF-8 encoding of one character (Go strings are UTF-8 byte strings). -/
def utf8EncodeChar (c : Char) : List Nat :=
  let n := c.toNat
  if n < 128 then [n]
  else if n < 2048 then [192 + n / 64, 128 + n % 64]
  else if n < 65536 then [224 + n / 4096, 128 + (n / 64) % 64, 128 + n % 64]
  else [240 + n / 262144, 128 + (n / 4096) % 64, 128 + (n / 64) % 64, 128 + n % 64]

def strBytes (s : String) : List Nat :=
  (s.data.map utf8EncodeChar).flatten

/-- Hex-encoded SHA-256 of a string: `hex.EncodeToString(sha256.Sum256([]byte(s)))`. -/
def sha256hex (s : String) : String := hexOfBytes (sha256 (strBytes s))

/-! ## Decimal printing and `time.RFC3339Nano` formatting

`computeCommitHash` feeds `ts.Format(time.RFC3339Nano)` of a UTC instant
into the digest, and the unified-diff hunk headers print line numbers.
Decimal printing is fuel-based so that it reduces in the kernel. -/

def digitChar (n : Nat) : Char := hexChars.getD n '0'

def natDigsAux : Nat → Nat → List Char
  | 0, _ => []
  | fuel + 1, n =>
    if n < 10 then [digitChar n]
    else natDigsAux fuel (n / 10) ++ [digitChar (n % 10)]

/-- Decimal digits of `n` (most significant first). -/
def natDigs (n : Nat) : List Char := natDigsAux (n + 1) n

def natStr (n : Nat) : String := String.mk (natDigs n)

/-- Zero-pad a digit list on the left to width `w`. -/
def padZeros (w : Nat) (cs : List Char) : List Char :=
  List.replicate (w - cs.length) '0' ++ cs

/-- Civil date from days since 1970-01-01 (Howard Hinnant's algorithm, the
standard days-to-civil conversion used by Go's `time` package semantics).
Returns `(year, month, day)`. -/
def civilFromDays (days : Nat) : Nat × Nat × Nat :=
  let z := days + 719468
  let era := z / 146097
  let doe := z % 146097
  let yoe := (doe - doe / 1460 + doe / 36524 - doe / 146096) / 365
  let y := yoe + era * 400
  let doy := doe - (365 * yoe + yoe / 4 - yoe / 100)
  let mp := (5 * doy + 2) / 153
  let d := doy - (153 * mp + 2) / 5 + 1
  let m := if mp < 10 then mp + 3 else mp - 9
  (if m ≤ 2 then y + 1 else y, m, d)

/-- Drop trailing `'0'` characters. -/
def dropTrailingZeros (cs : List Char) : List Char :=
  (cs.reverse.dropWhile (fun c => c = '0')).reverse

/-- `time.RFC3339Nano` rendering of a UTC instant given as nanoseconds since
the Unix epoch: `2006-01-02T15:04:05.999999999Z` with trailing zeros (and an
all-zero fraction) removed. -/
def formatRFC3339Nano (t : Nat) : String :=
  let secs := t / 1000000000
  let ns := t % 1000000000
  let days := secs / 86400
  let rem := secs % 86400
  let ymd := civilFromDays days
  let frac :=
    if ns = 0 then []
    else '.' :: dropTrailingZeros (padZeros 9 (natDigs ns))
  String.mk
    (padZeros 4 (natDigs ymd.1) ++ '-' :: padZeros 2 (natDigs ymd.2.1) ++
     '-' :: padZeros 2 (natDigs ymd.2.2) ++ 'T' :: padZeros 2 (natDigs (rem / 3600)) ++
     ':' :: padZeros 2 (natDigs (rem % 3600 / 60)) ++ ':' :: padZeros 2 (natDigs (rem % 60)) ++
     frac ++ ['Z'])

/-! ## `internal/storage/hashutil.go` -/

/-- `computeContentHash`: SHA-256 fingerprint of the raw content. -/
def computeContentHash (content : String) : String := sha256hex content

/-- `computeCommitHash`: SHA-256 over the newline-joined tuple
`[repo, branch, parent, content, ts.Format(RFC3339Nano)]`. -/
def computeCommitHash (repo branch content parent : String) (ts : Nat) : String :=
  sha256hex (String.intercalate "\n" [repo, branch, parent, content, formatRFC3339Nano ts])

/-! ## go-difflib v1.0.0 (`github.com/pmezard/go-difflib/difflib`)

`internal/storage/diff.go` builds a `difflib.UnifiedDiff` with
`A = SplitLines(previous)`, `B = SplitLines(current)`,
`FromFile = "previous"`, `ToFile = "current"`, `Context = 3` and renders it
with `GetUnifiedDiffString`. The library is a line-by-line port of Python's
`difflib`; it is embedded below. The `UnifiedDiff` value carries no `IsJunk`
function, so the junk set `bJunk` is empty; `NewMatcher` enables autojunk,
which only prunes over-popular entries from the `b2j` index. Loop recursions
are fuel-based (with fuel bounds that always suffice, see the comments) so
that every function reduces in the kernel. -/

/-- `difflib.SplitLines`: `strings.SplitAfter(s, "\n")` with `"\n"` appended
to the final element, on character lists. -/
def splitAfterNlAux (cur : List Char) : List Char → List (List Char)
  | [] => [cur.reverse]
  | c :: rest =>
    if c = '\n' then (c :: cur).reverse :: splitAfterNlAux [] rest
    else splitAfterNlAux (c :: cur) rest

def splitLines (s : String) : List String :=
  let parts := (splitAfterNlAux [] s.data).map String.mk
  match parts.reverse with
  | [] => []
  | lastPart :: revFront => revFront.reverse ++ [lastPart ++ "\n"]

/-- `SequenceMatcher.chainB`'s `b2j` index: element → ascending indices. -/
def b2jBuild (b : List String) : List (String × List Nat) :=
  b.enum.foldl (fun m p => alSet m p.2 ((alGet m p.2).getD [] ++ [p.1])) []

/-- `chainB` with `IsJunk == nil` (so `bJunk = ∅`) and `autoJunk = true`:
for `len(b) >= 200`, entries occurring more than `len(b)/100 + 1` times are
dropped from `b2j` (the "popular" heuristic). -/
def chainB (b : List String) : List (String × List Nat) :=
  let b2j := b2jBuild b
  if 200 ≤ b.length then
    let ntest := b.length / 100 + 1
    b2j.filter (fun p => Nat.ble p.2.length ntest)
  else b2j

/-- `bJunk` is empty because `UnifiedDiff` carries no junk predicate. -/
def isBJunk (_ : String) : Bool := false

/-- Inner loop of `findLongestMatch`: scan the `b2j` indices of `a[i]`,
skipping `j < blo` and breaking at `j >= bhi`; `j2len`/`newj2len` map `j`
to the length of the longest match ending at `(i, j)`. The Go code reads
`j2len[j-1]` from an `int`-keyed map, which misses when `j = 0` (key `-1`),
hence the explicit guard. -/
def flmScanJ (j2len : List (Nat × Nat)) (blo bhi i : Nat) :
    List Nat → List (Nat × Nat) → Nat × Nat × Nat → List (Nat × Nat) × (Nat × Nat × Nat)
  | [], newj2len, best => (newj2len, best)
  | j :: js, newj2len, best =>
    if j < blo then flmScanJ j2len blo bhi i js newj2len best
    else if bhi ≤ j then (newj2len, best)
    else
      let k := (if j = 0 then 0 else (alGet j2len (j - 1)).getD 0) + 1
      let best' := if best.2.2 < k then (i + 1 - k, j + 1 - k, k) else best
      flmScanJ j2len blo bhi i js (alSet newj2len j k) best'

/-- Outer loop of `findLongestMatch` over `i ∈ [alo, ahi)`; the fuel is
`ahi - alo`, which is exactly the number of iterations. -/
def flmOuter (a : List String) (b2j : List (String × List Nat)) (blo bhi : Nat) :
    Nat → Nat → List (Nat × Nat) → Nat × Nat × Nat → Nat × Nat × Nat
  | 0, _, _, best => best
  | fuel + 1, i, j2len, best =>
    let js := (alGet b2j (a.getD i "")).getD []
    let (newj2len, best') := flmScanJ j2len blo bhi i js [] best
    flmOuter a b2j blo bhi fuel (i + 1) newj2len best'

/-- Leftward extension loops of `findLongestMatch`; `junkSide` selects the
junk-only or the non-junk loop. The fuel `besti` bounds the iterations. -/
def flmExtendLo (a b : List String) (alo blo : Nat) (junkSide : Bool) :
    Nat → Nat × Nat × Nat → Nat × Nat × Nat
  | 0, best => best
  | fuel + 1, (besti, bestj, bestsize) =>
    if alo < besti ∧ blo < bestj ∧ isBJunk (b.getD (bestj - 1) "") = junkSide ∧
        a.getD (besti - 1) "" = b.getD (bestj - 1) "" then
      flmExtendLo a b alo blo junkSide fuel (besti - 1, bestj - 1, bestsize + 1)
    else (besti, bestj, bestsize)

/-- Rightward extension loops of `findLongestMatch`; fuel `ahi` suffices. -/
def flmExtendHi (a b : List String) (ahi bhi : Nat) (junkSide : Bool) :
    Nat → Nat × Nat × Nat → Nat × Nat × Nat
  | 0, best => best
  | fuel + 1, (besti, bestj, bestsize) =>
    if besti + bestsize < ahi ∧ bestj + bestsize < bhi ∧
        isBJunk (b.getD (bestj + bestsize) "") = junkSide ∧
        a.getD (besti + bestsize) "" = b.getD (bestj + bestsize) "" then
      flmExtendHi a b ahi bhi junkSide fuel (besti, bestj, bestsize + 1)
    else (besti, bestj, bestsize)

/-- `SequenceMatcher.findLongestMatch(alo, ahi, blo, bhi)`. -/
def findLongestMatch (a b : List String) (b2j : List (String × List Nat))
    (alo ahi blo bhi : Nat) : Nat × Nat × Nat :=
  let best := flmOuter a b2j blo bhi (ahi - alo) alo [] (alo, blo, 0)
  let best := flmExtendLo a b alo blo false best.1 best
  let best := flmExtendHi a b ahi bhi false (ahi + bhi) best
  let best := flmExtendLo a b alo blo true best.1 best
  flmExtendHi a b ahi bhi true (ahi + bhi) best

/-- The recursive `matchBlocks` closure inside `GetMatchingBlocks`: recurse
left of the longest match, emit it, recurse right. Both recursive calls
shrink the `a`-range strictly (the match has size ≥ 1), so fuel
`ahi - alo + 1` always suffices. -/
def matchBlocksRec (a b : List String) (b2j : List (String × List Nat)) :
    Nat → Nat → Nat → Nat → Nat → List (Nat × Nat × Nat) → List (Nat × Nat × Nat)
  | 0, _, _, _, _, matched => matched
  | fuel + 1, alo, ahi, blo, bhi, matched =>
    let m := findLongestMatch a b b2j alo ahi blo bhi
    let i := m.1
    let j := m.2.1
    let k := m.2.2
    if 0 < k then
      let matched :=
        if alo < i ∧ blo < j then matchBlocksRec a b b2j fuel alo i blo j matched
        else matched
      let matched := matched ++ [m]
      if i + k < ahi ∧ j + k < bhi then matchBlocksRec a b b2j fuel (i + k) ahi (j + k) bhi matched
      else matched
    else matched

/-- The adjacent-block collapse at the end of `GetMatchingBlocks`. -/
def collapseBlocks (i1 j1 k1 : Nat) : List (Nat × Nat × Nat) → List (Nat × Nat × Nat)
  | [] => if k1 ≠ 0 then [(i1, j1, k1)] else []
  | (i2, j2, k2) :: rest =>
    if i1 + k1 = i2 ∧ j1 + k1 = j2 then collapseBlocks i1 j1 (k1 + k2) rest
    else if k1 ≠ 0 then (i1, j1, k1) :: collapseBlocks i2 j2 k2 rest
    else collapseBlocks i2 j2 k2 rest

/-- `SequenceMatcher.GetMatchingBlocks`: recursive split + collapse + sentinel. -/
def getMatchingBlocks (a b : List String) : List (Nat × Nat × Nat) :=
  let b2j := chainB b
  let matched := matchBlocksRec a b b2j (a.length + 1) 0 a.length 0 b.length []
  collapseBlocks 0 0 0 matched ++ [(a.length, b.length, 0)]

/-- An opcode `(tag, i1, i2, j1, j2)`; tags are `'r'`, `'d'`, `'i'`, `'e'`. -/
structure OpCode where
  tag : Char
  i1 : Nat
  i2 : Nat
  j1 : Nat
  j2 : Nat
deriving DecidableEq, Repr, Inhabited

/-- `SequenceMatcher.GetOpCodes`. -/
def opCodesAux : Nat → Nat → List (Nat × Nat × Nat) → List OpCode
  | _, _, [] => []
  | i, j, (ai, bj, sz) :: rest =>
    let tagOps : List OpCode :=
      if i < ai ∧ j < bj then [⟨'r', i, ai, j, bj⟩]
      else if i < ai then [⟨'d', i, ai, j, bj⟩]
      else if j < bj then [⟨'i', i, ai, j, bj⟩]
      else []
    let eqOps : List OpCode := if 0 < sz then [⟨'e', ai, ai + sz, bj, bj + sz⟩] else []
    tagOps ++ eqOps ++ opCodesAux (ai + sz) (bj + sz) rest

def getOpCodes (a b : List String) : List OpCode :=
  opCodesAux 0 0 (getMatchingBlocks a b)

/-- The grouping loop of `GetGroupedOpCodes`: split on equal runs longer
than `nn = 2n`, trimming context to `n` lines on each side. -/
def groupLoop (n nn : Nat) :
    List OpCode → List OpCode → List (List OpCode) → List (List OpCode)
  | [], group, groups =>
    if group ≠ [] ∧ ¬(group.length = 1 ∧ (group.headD default).tag = 'e') then
      groups ++ [group]
    else groups
  | c :: rest, group, groups =>
    if c.tag = 'e' ∧ nn < c.i2 - c.i1 then
      let cut : OpCode := ⟨c.tag, c.i1, min c.i2 (c.i1 + n), c.j1, min c.j2 (c.j1 + n)⟩
      let cont : OpCode := ⟨c.tag, max c.i1 (c.i2 - n), c.i2, max c.j1 (c.j2 - n), c.j2⟩
      groupLoop n nn rest [cont] (groups ++ [group ++ [cut]])
    else groupLoop n nn rest (group ++ [c]) groups

/-- `SequenceMatcher.GetGroupedOpCodes(n)`. -/
def getGroupedOpCodes (a b : List String) (n : Nat) : List (List OpCode) :=
  let codes := getOpCodes a b
  let codes := if codes = [] then [⟨'e', 0, 1, 0, 1⟩] else codes
  let codes :=
    match codes with
    | c :: rest =>
      if c.tag = 'e' then
        (⟨c.tag, max c.i1 (c.i2 - n), c.i2, max c.j1 (c.j2 - n), c.j2⟩ : OpCode) :: rest
      else c :: rest
    | [] => []
  let codes :=
    match codes.reverse with
    | c :: revFront =>
      if c.tag = 'e' then
        (revFront.reverse) ++ [(⟨c.tag, c.i1, min c.i2 (c.i1 + n), c.j1, min c.j2 (c.j1 + n)⟩ : OpCode)]
      else revFront.reverse ++ [c]
    | [] => []
  groupLoop n (n + n) codes [] []

/-- `a[i:j]` on line lists. -/
def sliceL {α : Type} (l : List α) (i j : Nat) : List α := (l.drop i).take (j - i)

/-- `formatRangeUnified(start, stop)`. -/
def formatRangeUnified (start stop : Nat) : String :=
  let beginning := start + 1
  let length := stop - start
  if length = 1 then natStr beginning
  else natStr (if length = 0 then beginning - 1 else beginning) ++ "," ++ natStr length

/-- The lines `WriteUnifiedDiff` emits for one group (hunk header + body). -/
def renderGroup (a b : List String) (g : List OpCode) : List String :=
  match g with
  | [] => []
  | first :: _ =>
    let last := g.getLastD default
    ("@@ -" ++ formatRangeUnified first.i1 last.i2 ++ " +" ++
       formatRangeUnified first.j1 last.j2 ++ " @@" ++ "\n") ::
    (g.map (fun c =>
      if c.tag = 'e' then (sliceL a c.i1 c.i2).map (fun ln => " " ++ ln)
      else
        (if c.tag = 'r' ∨ c.tag = 'd' then (sliceL a c.i1 c.i2).map (fun ln => "-" ++ ln) else []) ++
        (if c.tag = 'r' ∨ c.tag = 'i' then (sliceL b c.j1 c.j2).map (fun ln => "+" ++ ln) else []))).flatten

/-- The full line sequence of `WriteUnifiedDiff` for
`UnifiedDiff{A: a, B: b, FromFile: "previous", ToFile: "current", Context: n}`
(header lines are only written when there is at least one group). -/
def unifiedDiffLines (a b : List String) (n : Nat) : List String :=
  match getGroupedOpCodes a b n with
  | [] => []
  | groups => ("--- previous" ++ "\n") :: ("+++ current" ++ "\n") ::
      (groups.map (renderGroup a b)).flatten

/-- `difflib.GetUnifiedDiffString` of the `UnifiedDiff` built by `computeDiff`. -/
def getUnifiedDiffString (previous current : String) : String :=
  String.join (unifiedDiffLines (splitLines previous) (splitLines current) 3)

/-! ## `internal/storage/diff.go` -/

/-- Go `unicode.IsSpace` (the White_Space property). -/
def isGoSpace (c : Char) : Bool :=
  c = ' ' ∨ c = '\t' ∨ c = '\n' ∨ c.toNat = 11 ∨ c.toNat = 12 ∨ c = '\r' ∨
  c.toNat = 133 ∨ c.toNat = 160 ∨ c.toNat = 5760 ∨
  (8192 ≤ c.toNat ∧ c.toNat ≤ 8202) ∨ c.toNat = 8232 ∨ c.toNat = 8233 ∨
  c.toNat = 8239 ∨ c.toNat = 8287 ∨ c.toNat = 12288

/-- Go `strings.TrimSpace`. -/
def trimSpace (s : String) : String :=
  String.mk (((s.data.dropWhile isGoSpace).reverse.dropWhile isGoSpace).reverse)

/-- `computeDiff(previous, current)`: empty for equal inputs, otherwise the
trimmed unified diff with 3 lines of context. (`GetUnifiedDiffString`
writes to an in-memory buffer and never fails, so the Go fallback branch
returning `strings.TrimSpace(current)` is dead code.) -/
def computeDiff (previous current : String) : String :=
  if previous = current then ""
  else trimSpace (getUnifiedDiffString previous current)

/-! ## Data model (`internal/types`, storage requests and results) -/

/-- `types.Commit`. -/
structure Commit where
  repo : String
  branch : String
  hash : String
  parent : String
  authorName : String
  authorID : String
  message : String
  contentHash : String
  timestamp : Nat
  archived : Bool
deriving DecidableEq, Repr, Inhabited

/-- `types.Branch`. -/
structure Branch where
  repo : String
  name : String
  commit : String
  updatedAt : Nat
deriving DecidableEq, Repr, Inhabited

/-- `types.Tag`. -/
structure Tag where
  repo : String
  name : String
  commit : String
  note : String
  createdAt : Nat
deriving DecidableEq, Repr, Inhabited

/-- `storage.RetentionPolicy` (duration in nanoseconds, as Go `time.Duration`). -/
structure RetentionPolicy where
  repo : String
  hotCommitLimit : Int
  hotDuration : Int
  locked : Bool
deriving DecidableEq, Repr, Inhabited

/-- `RetentionPolicy.WithRepo`. -/
def RetentionPolicy.withRepo (p : RetentionPolicy) (repo : String) : RetentionPolicy :=
  { p with repo := repo }

/-- `RetentionPolicy.Copy` (a value copy; the identity in the model). -/
def RetentionPolicy.copy (p : RetentionPolicy) : RetentionPolicy := p

/-- The zero `RetentionPolicy{}` value returned on errors. -/
def RetentionPolicy.zero : RetentionPolicy := ⟨"", 0, 0, false⟩

/-- `storage.RetentionDefaults`. -/
structure RetentionDefaults where
  hotCommitLimit : Int
  hotDuration : Int
deriving DecidableEq, Repr, Inhabited

/-- `keydb_store.go`'s `retentionRecord` (the JSON-persisted policy: the
duration is stored in whole seconds). -/
structure RetentionRecord where
  hotCommitLimit : Int
  hotDurationSeconds : Int
  locked : Bool
deriving DecidableEq, Repr, Inhabited

/-- `retentionRecord.toPolicy`. -/
def RetentionRecord.toPolicy (r : RetentionRecord) (repo : String) : RetentionPolicy :=
  ⟨repo, r.hotCommitLimit, r.hotDurationSeconds * 1000000000, r.locked⟩

/-- `storage.BlobWriteRequest`. -/
structure BlobWriteRequest where
  name : String
  branch : String
  content : String
  authorName : String
  authorID : String
deriving DecidableEq, Repr, Inhabited

/-- `storage.BlobCommitResult`. -/
structure BlobCommitResult where
  commitHash : String
  branch : String
  createdAt : Nat
  diff : String
deriving DecidableEq, Repr, Inhabited

/-- `storage.ListCommitsOptions`. -/
structure ListCommitsOptions where
  repo : String
  descending : Bool
  limit : Int
deriving DecidableEq, Repr, Inhabited

/-- `storage.BranchRequest`. -/
structure BranchRequest where
  repo : String
  name : String
  commit : String
deriving DecidableEq, Repr, Inhabited

/-- `storage.TagRequest`. -/
structure TagRequest where
  repo : String
  name : String
  commit : String
  note : String
deriving DecidableEq, Repr, Inhabited

/-- `const defaultBranch = "main"`. -/
def defaultBranch : String := "main"

/-- The storage error taxonomy: `ValidationError`, `NotFoundError` (resource,
key), `ConflictError` (resource, key). -/
inductive StoreError where
  | validation (message : String)
  | notFound (resource key : String)
  | conflict (resource key : String)
deriving DecidableEq, Repr

/-- The class of an error, used to compare "error classes" across backends. -/
inductive ErrClass where
  | validation
  | notFound
  | conflict
deriving DecidableEq, Repr

def StoreError.cls : StoreError → ErrClass
  | .validation _ => .validation
  | .notFound _ _ => .notFound
  | .conflict _ _ => .conflict

/-! ## `MemoryArchive` (map-backed archive; `repo -> hash -> payload`) -/

/-- `storage.MemoryArchive`; payloads round-trip `[]byte(s)`/`string(b)` and
are kept as `String`. -/
structure MemoryArchive where
  data : List (String × List (String × String))
deriving DecidableEq, Repr

def MemoryArchive.empty : MemoryArchive := ⟨[]⟩

/-- `MemoryArchive.Store` (never fails). -/
def MemoryArchive.store (m : MemoryArchive) (repo hash payload : String) : MemoryArchive :=
  ⟨alSet m.data repo (alSet ((alGet m.data repo).getD []) hash payload)⟩

/-- `MemoryArchive.Fetch`. -/
def MemoryArchive.fetch (m : MemoryArchive) (repo hash : String) : Except StoreError String :=
  match alGet m.data repo with
  | none => .error (.notFound "archive" hash)
  | some repoData =>
    match alGet repoData hash with
    | none => .error (.notFound "archive" hash)
    | some payload => .ok payload

/-! ## The in-memory backend (`memoryStore`)

`commits` and `contents` are keyed by hash alone (as in the Go code);
`branches`/`tags`/`authors` are repo-keyed maps of per-repo maps. -/

structure MemoryStore where
  commits : List (String × Commit)
  contents : List (String × String)
  repoCommits : List (String × List String)
  branches : List (String × List (String × Branch))
  tags : List (String × List (String × Tag))
  authors : List (String × List (String × String))
  policies : List (String × RetentionPolicy)
  defaultPolicy : RetentionPolicy
  archive : Option MemoryArchive
deriving DecidableEq, Repr

/-- `NewMemoryStore(opts)`. -/
def MemoryStore.new (archive : Option MemoryArchive) (retention : RetentionDefaults) :
    MemoryStore :=
  ⟨[], [], [], [], [], [], [], ⟨"", retention.hotCommitLimit, retention.hotDuration, false⟩,
   archive⟩

/-- The zero `types.Commit{}` value (Go map access for a missing key). -/
def Commit.zero : Commit := ⟨"", "", "", "", "", "", "", "", 0, false⟩

/-- `memoryStore.getPolicyLocked`. -/
def MemoryStore.getPolicyLocked (m : MemoryStore) (repo : String) : RetentionPolicy :=
  match alGet m.policies repo with
  | some policy => policy.copy
  | none => m.defaultPolicy.withRepo repo

/-- `memoryStore.flushCommitLocked`: archive one commit's content and flip
its `archived` flag. -/
def MemoryStore.flushCommitLocked (m : MemoryStore) (repo hash : String) : MemoryStore :=
  match m.archive with
  | none => m
  | some ar =>
    match alGet m.commits hash with
    | none => m
    | some commit =>
      if commit.archived then m
      else
        match alGet m.contents hash with
        | none => { m with commits := alSet m.commits hash { commit with archived := true } }
        | some content =>
          { m with
            archive := some (ar.store repo hash content),
            contents := alDel m.contents hash,
            commits := alSet m.commits hash { commit with archived := true } }

/-- `memoryStore.applyRetentionLocked`. The Go `toArchive` set is a map
iterated in unspecified order; the model iterates age-marked then
count-marked hashes, which yields the same final state as any order
(per-hash flushes commute and repeats are no-ops). -/
def MemoryStore.applyRetentionLocked (m : MemoryStore) (repo : String) (now : Nat) :
    MemoryStore :=
  match m.archive with
  | none => m
  | some _ =>
    let policy := m.getPolicyLocked repo
    if policy.hotCommitLimit ≤ 0 ∧ policy.hotDuration ≤ 0 then m
    else
      let hashes := (alGet m.repoCommits repo).getD []
      if hashes.isEmpty then m
      else
        let active := (hashes.map (fun h => (alGet m.commits h).getD Commit.zero)).filter
          (fun c => !c.archived)
        let toArchive : List String :=
          if 0 < policy.hotDuration then
            active.filterMap (fun c =>
              if (c.timestamp : Int) < (now : Int) - policy.hotDuration then some c.hash
              else none)
          else []
        let remaining := active.filter (fun c => !(toArchive.contains c.hash))
        let toArchive :=
          if 0 < policy.hotCommitLimit then
            toArchive ++
              ((remaining.take ((remaining.length : Int) - policy.hotCommitLimit).toNat).map
                (fun c => c.hash))
          else toArchive
        toArchive.foldl (fun acc h => acc.flushCommitLocked repo h) m

/-- `memoryStore.PutBlobAndCommit`. Mutation order matters and follows the
Go code: the per-repo branch and author maps are ensured and the author is
registered *before* parent-content resolution and the hash-collision
check. -/
def MemoryStore.putBlobAndCommit (m : MemoryStore) (req : BlobWriteRequest) (now : Nat) :
    Except StoreError BlobCommitResult × MemoryStore :=
  if req.name = "" then (.error (.validation "name is required"), m)
  else if req.content = "" then (.error (.validation "content is required"), m)
  else if req.authorName = "" ∨ req.authorID = "" then
    (.error (.validation "author name and id are required"), m)
  else
    let branch := if req.branch = "" then defaultBranch else req.branch
    let repoBranches : List (String × Branch) := (alGet m.branches req.name).getD []
    let m1 := { m with branches := alSet m.branches req.name repoBranches }
    let repoAuthors : List (String × String) := (alGet m1.authors req.name).getD []
    let m2 := { m1 with authors := alSet m1.authors req.name repoAuthors }
    let authorClash : Bool :=
      match alGet repoAuthors req.authorID with
      | some existingName => existingName != req.authorName
      | none => false
    if authorClash = true then (.error (.conflict "author" req.authorID), m2)
    else
      let m3 := { m2 with
        authors := alSet m2.authors req.name (alSet repoAuthors req.authorID req.authorName) }
      let parent :=
        match alGet repoBranches branch with
        | some existing => existing.commit
        | none => ""
      let previousContent? : Except StoreError String :=
        if parent = "" then .ok ""
        else
          match alGet m3.contents parent with
          | some content => .ok content
          | none => .error (.notFound "commit" parent)
      match previousContent? with
      | .error e => (.error e, m3)
      | .ok previousContent =>
        let diff := computeDiff previousContent req.content
        let contentHash := computeContentHash req.content
        let commitHash := computeCommitHash req.name branch req.content parent now
        if (alGet m3.commits commitHash).isSome then
          (.error (.conflict "commit" commitHash), m3)
        else
          let commit : Commit :=
            ⟨req.name, branch, commitHash, parent, req.authorName, req.authorID,
             "auto commit", contentHash, now, false⟩
          let m4 := { m3 with
            commits := alSet m3.commits commitHash commit,
            contents := alSet m3.contents commitHash req.content,
            branches := alSet m3.branches req.name
              (alSet repoBranches branch ⟨req.name, branch, commitHash, now⟩),
            repoCommits := alSet m3.repoCommits req.name
              ((alGet m3.repoCommits req.name).getD [] ++ [commitHash]) }
          let m5 := m4.applyRetentionLocked req.name now
          (.ok ⟨commitHash, branch, now, diff⟩, m5)

/-- The `appendCommit`/limit loop of `memoryStore.ListCommits`. -/
def memListAppend (commits : List (String × Commit)) (limit : Int) :
    List String → List Commit → List Commit
  | [], acc => acc
  | h :: rest, acc =>
    let acc :=
      match alGet commits h with
      | some c => acc ++ [c]
      | none => acc
    if 0 < limit ∧ limit ≤ (acc.length : Int) then acc
    else memListAppend commits limit rest acc

/-- `memoryStore.ListCommits`. -/
def MemoryStore.listCommits (m : MemoryStore) (opts : ListCommitsOptions) : List Commit :=
  match alGet m.repoCommits opts.repo with
  | none => []
  | some hashes =>
    memListAppend m.commits opts.limit (if opts.descending then hashes.reverse else hashes) []

/-- `memoryStore.GetCommit`. -/
def MemoryStore.getCommit (m : MemoryStore) (repo hash : String) :
    Except StoreError (Commit × String) :=
  match alGet m.commits hash with
  | none => .error (.notFound "commit" hash)
  | some commit =>
    if commit.repo ≠ repo then .error (.notFound "commit" hash)
    else
      match alGet m.contents hash with
      | some content => .ok (commit, content)
      | none =>
        match m.archive with
        | none => .error (.notFound "content" hash)
        | some ar => (ar.fetch repo hash).map (fun data => (commit, data))

/-- `memoryStore.SetPolicy`. -/
def MemoryStore.setPolicy (m : MemoryStore) (policy : RetentionPolicy) (now : Nat) :
    (RetentionPolicy × Option StoreError) × MemoryStore :=
  if policy.repo = "" then
    ((RetentionPolicy.zero, some (.validation "repository name is required")), m)
  else if policy.hotCommitLimit < 0 then
    ((RetentionPolicy.zero, some (.validation "hotCommitLimit must be >= 0")), m)
  else if policy.hotDuration < 0 then
    ((RetentionPolicy.zero, some (.validation "hotDuration must be >= 0")), m)
  else
    let clash : Bool :=
      match alGet m.policies policy.repo with
      | some existing =>
        existing.locked && (existing.hotCommitLimit != policy.hotCommitLimit ||
          existing.hotDuration != policy.hotDuration)
      | none => false
    if clash then
      match alGet m.policies policy.repo with
      | some existing => ((existing.copy, some (.conflict "policy" policy.repo)), m)
      | none => ((RetentionPolicy.zero, none), m)
    else
      let lockedPolicy := { policy with locked := true }
      let m1 := { m with policies := alSet m.policies policy.repo lockedPolicy }
      let m2 := m1.applyRetentionLocked policy.repo now
      ((lockedPolicy.copy, none), m2)

/-- `memoryStore.GetPolicy`. -/
def MemoryStore.getPolicy (m : MemoryStore) (repo : String) :
    RetentionPolicy × Option StoreError :=
  if repo = "" then (RetentionPolicy.zero, some (.validation "name query parameter required"))
  else ((m.getPolicyLocked repo).copy, none)

/-- `memoryStore.UpsertBranch`. -/
def MemoryStore.upsertBranch (m : MemoryStore) (req : BranchRequest) (now : Nat) :
    Except StoreError Branch × MemoryStore :=
  if req.repo = "" ∨ req.name = "" ∨ req.commit = "" then
    (.error (.validation "repo, name, and commit are required"), m)
  else
    let found : Bool :=
      match alGet m.commits req.commit with
      | some commit => commit.repo == req.repo
      | none => false
    if found then
      let repoBranches := (alGet m.branches req.repo).getD []
      let branch : Branch := ⟨req.repo, req.name, req.commit, now⟩
      (.ok branch,
       { m with branches := alSet m.branches req.repo (alSet repoBranches req.name branch) })
    else (.error (.notFound "commit" req.commit), m)

/-- Byte-wise (= code-point-wise, for UTF-8) string order, as Go
`slices.Sort` on `[]string` compares. -/
def charListLe : List Char → List Char → Bool
  | [], _ => true
  | _ :: _, [] => false
  | c :: cs, d :: ds => if c = d then charListLe cs ds else Nat.blt c.toNat d.toNat

def strLeB (s t : String) : Bool := charListLe s.data t.data

def insertSorted {α : Type} (le : α → α → Bool) (x : α) : List α → List α
  | [] => [x]
  | y :: ys => if le x y then x :: y :: ys else y :: insertSorted le x ys

def sortStrings (l : List String) : List String :=
  l.foldl (fun acc x => insertSorted strLeB x acc) []

/-- `memoryStore.ListBranches`. -/
def MemoryStore.listBranches (m : MemoryStore) (repo : String) : List Branch :=
  match alGet m.branches repo with
  | none => []
  | some repoBranches =>
    (sortStrings (repoBranches.map Prod.fst)).filterMap (fun n => alGet repoBranches n)

/-- `memoryStore.GetBranch` (note: no argument validation in the Go code). -/
def MemoryStore.getBranch (m : MemoryStore) (repo name : String) : Except StoreError Branch :=
  match alGet m.branches repo with
  | none => .error (.notFound "branch" name)
  | some repoBranches =>
    match alGet repoBranches name with
    | none => .error (.notFound "branch" name)
    | some branch => .ok branch

/-- `memoryStore.CreateTag`. As in the Go code, the per-repo tag map is
ensured before the duplicate check. -/
def MemoryStore.createTag (m : MemoryStore) (req : TagRequest) (now : Nat) :
    Except StoreError Tag × MemoryStore :=
  if req.repo = "" ∨ req.name = "" ∨ req.commit = "" then
    (.error (.validation "repo, name, and commit are required"), m)
  else
    let found : Bool :=
      match alGet m.commits req.commit with
      | some commit => commit.repo == req.repo
      | none => false
    if found then
      let repoTags := (alGet m.tags req.repo).getD []
      let m1 := { m with tags := alSet m.tags req.repo repoTags }
      if (alGet repoTags req.name).isSome then (.error (.conflict "tag" req.name), m1)
      else
        let tag : Tag := ⟨req.repo, req.name, req.commit, req.note, now⟩
        (.ok tag, { m1 with tags := alSet m1.tags req.repo (alSet repoTags req.name tag) })
    else (.error (.notFound "commit" req.commit), m)

/-- `memoryStore.ListTags`. -/
def MemoryStore.listTags (m : MemoryStore) (repo : String) : List Tag :=
  match alGet m.tags repo with
  | none => []
  | some repoTags =>
    (sortStrings (repoTags.map Prod.fst)).filterMap (fun n => alGet repoTags n)

/-- `memoryStore.GetTag` (no argument validation, mirroring `GetBranch`). -/
def MemoryStore.getTag (m : MemoryStore) (repo name : String) : Except StoreError Tag :=
  match alGet m.tags repo with
  | none => .error (.notFound "tag" name)
  | some repoTags =>
    match alGet repoTags name with
    | none => .error (.notFound "tag" name)
    | some tag => .ok tag

/-! ## The KeyDB backend (`keydbStore`, `internal/storage/keydb_store.go`)

Redis state: the key families `commit:`, `content:`, `branch:`, `tag:`,
`author:` are maps keyed by the `(repo, name)` pair embedded in the key;
`branchset:`/`tagset:` are repo-keyed SETs; `repo:commits:` is a repo-keyed
ZSET (member/score pairs, score = `UnixNano`); `policy:` is repo-keyed.
Reads of absent keys are `redis.Nil`. -/

structure KeydbStore where
  commits : List ((String × String) × Commit)
  contents : List ((String × String) × String)
  branches : List ((String × String) × Branch)
  branchSets : List (String × List String)
  tags : List ((String × String) × Tag)
  tagSets : List (String × List String)
  zsets : List (String × List (String × Nat))
  authors : List ((String × String) × String)
  policies : List (String × RetentionRecord)
  defaultPolicy : RetentionPolicy
  archive : Option MemoryArchive
deriving DecidableEq, Repr

/-- A `keydbStore` as `NewKeyDBStore` builds it (connection setup elided). -/
def KeydbStore.new (archive : Option MemoryArchive) (retention : RetentionDefaults) :
    KeydbStore :=
  ⟨[], [], [], [], [], [], [], [], [],
   ⟨"", retention.hotCommitLimit, retention.hotDuration, false⟩, archive⟩

/-- Redis `SADD`: insert a member into a set. -/
def setAdd (s : List String) (x : String) : List String :=
  if s.contains x then s else s ++ [x]

/-- Redis `ZADD`: add a member or update its score. -/
def zsetAdd (z : List (String × Nat)) (member : String) (score : Nat) : List (String × Nat) :=
  alSet z member score

/-- Redis ZSET order: ascending by score, ties lexicographically by member. -/
def zscoreLeB (x y : String × Nat) : Bool :=
  Nat.blt x.2 y.2 || (Nat.beq x.2 y.2 && strLeB x.1 y.1)

/-- Redis `ZRANGE key 0 -1`: all members in ZSET order. -/
def zrangeAll (z : List (String × Nat)) : List String :=
  (z.foldl (fun acc x => insertSorted zscoreLeB x acc) []).map Prod.fst

/-- `keydbStore.GetPolicy`. -/
def KeydbStore.getPolicy (s : KeydbStore) (repo : String) :
    RetentionPolicy × Option StoreError :=
  if repo = "" then (RetentionPolicy.zero, some (.validation "name query parameter required"))
  else
    match alGet s.policies repo with
    | none => (s.defaultPolicy.withRepo repo, none)
    | some r => (r.toPolicy repo, none)

/-- `keydbStore.getPolicy` (the unexported error-swallowing variant). -/
def KeydbStore.getPolicyOrDefault (s : KeydbStore) (repo : String) : RetentionPolicy :=
  let r := s.getPolicy repo
  match r.2 with
  | some _ => s.defaultPolicy.withRepo repo
  | none => r.1

/-- `keydbStore.GetCommit`: metadata, then hot content, then archive. -/
def KeydbStore.getCommit (s : KeydbStore) (repo hash : String) :
    Except StoreError (Commit × String) :=
  match alGet s.commits (repo, hash) with
  | none => .error (.notFound "commit" hash)
  | some commit =>
    match alGet s.contents (repo, hash) with
    | some content => .ok (commit, content)
    | none =>
      match s.archive with
      | none => .error (.notFound "content" hash)
      | some ar => (ar.fetch repo hash).map (fun data => (commit, data))

/-- `keydbStore.archiveCommit` (the error return is discarded by its only
caller, `enforceRetention`). -/
def KeydbStore.archiveCommit (s : KeydbStore) (repo hash : String) : KeydbStore :=
  match s.archive with
  | none => s
  | some ar =>
    match s.getCommit repo hash with
    | .error _ => s
    | .ok (commit, content) =>
      if commit.archived then s
      else
        { s with
          archive := some (ar.store repo hash content),
          commits := alSet s.commits (repo, hash) { commit with archived := true },
          contents := alDel s.contents (repo, hash) }

/-- `keydbStore.enforceRetention`. As in the memory backend, the Go
`toArchive` set iterates in unspecified order; the model uses age-marked
then count-marked order, which gives the same final state. -/
def KeydbStore.enforceRetention (s : KeydbStore) (repo : String) (policy : RetentionPolicy)
    (now : Nat) : KeydbStore :=
  match s.archive with
  | none => s
  | some _ =>
    if policy.hotCommitLimit ≤ 0 ∧ policy.hotDuration ≤ 0 then s
    else
      let hashes := zrangeAll ((alGet s.zsets repo).getD [])
      let entries := hashes.filterMap (fun h =>
        (alGet s.commits (repo, h)).map (fun c => (c.hash, c.timestamp, c.archived)))
      let toArchive : List String :=
        if 0 < policy.hotDuration then
          (entries.filter (fun e => !e.2.2)).filterMap (fun e =>
            if (e.2.1 : Int) < (now : Int) - policy.hotDuration then some e.1 else none)
        else []
      let remaining := entries.filter (fun e => !e.2.2 && !(toArchive.contains e.1))
      let toArchive :=
        if 0 < policy.hotCommitLimit then
          toArchive ++
            ((remaining.take ((remaining.length : Int) - policy.hotCommitLimit).toNat).map
              (fun e => e.1))
        else toArchive
      toArchive.foldl (fun acc h => acc.archiveCommit repo h) s

/-- Step 1 of the write algorithm: resolve the current branch head (empty
string when the branch is unseen); this becomes the parent. -/
def KeydbStore.branchHead (s : KeydbStore) (repo branch : String) : String :=
  match alGet s.branches (repo, branch) with
  | none => ""
  | some branchMeta => branchMeta.commit

/-- The body of the `WATCH` transaction in `keydbStore.PutBlobAndCommit`:
all reads and checks happen first and any failure aborts without writing
(the `TxPipeline` only executes at the end), so an error carries no new
state. On success the result and the post-pipeline state are returned. -/
def KeydbStore.putTxn (s : KeydbStore) (req : BlobWriteRequest) (branch : String) (now : Nat) :
    Except StoreError (BlobCommitResult × KeydbStore) :=
  let parent : String := s.branchHead req.name branch
  let previousContent? : Except StoreError String :=
    if parent = "" then .ok ""
    else
      match alGet s.contents (req.name, parent) with
      | some content => .ok content
      | none => .error (.notFound "content" parent)
  match previousContent? with
  | .error e => .error e
  | .ok previousContent =>
    let authorClash : Bool :=
      match alGet s.authors (req.name, req.authorID) with
      | some existingAuthorName => existingAuthorName != req.authorName
      | none => false
    if authorClash = true then .error (.conflict "author" req.authorID)
    else
      let diff := computeDiff previousContent req.content
      let contentHash := computeContentHash req.content
      let commitHash := computeCommitHash req.name branch req.content parent now
      if (alGet s.commits (req.name, commitHash)).isSome then
        .error (.conflict "commit" commitHash)
      else
        let commit : Commit :=
          ⟨req.name, branch, commitHash, parent, req.authorName, req.authorID,
           "auto commit", contentHash, now, false⟩
        let s1 := { s with
          commits := alSet s.commits (req.name, commitHash) commit,
          contents := alSet s.contents (req.name, commitHash) req.content,
          branches := alSet s.branches (req.name, branch) ⟨req.name, branch, commitHash, now⟩,
          branchSets := alSet s.branchSets req.name
            (setAdd ((alGet s.branchSets req.name).getD []) branch),
          zsets := alSet s.zsets req.name
            (zsetAdd ((alGet s.zsets req.name).getD []) commitHash now),
          authors := alSet s.authors (req.name, req.authorID) req.authorName }
        .ok (⟨commitHash, branch, now, diff⟩, s1)

/-- `keydbStore.PutBlobAndCommit`: validation, then the transaction body,
run once (sequential semantics: with no concurrent writer the `WATCH` never
fails); retention runs best-effort after a successful commit. -/
def KeydbStore.putBlobAndCommit (s : KeydbStore) (req : BlobWriteRequest) (now : Nat) :
    Except StoreError BlobCommitResult × KeydbStore :=
  if req.name = "" then (.error (.validation "name is required"), s)
  else if req.content = "" then (.error (.validation "content is required"), s)
  else if req.authorName = "" ∨ req.authorID = "" then
    (.error (.validation "author name and id are required"), s)
  else
    let branch := if req.branch = "" then defaultBranch else req.branch
    let policy := s.getPolicyOrDefault req.name
    match s.putTxn req branch now with
    | .error e => (.error e, s)
    | .ok (result, s1) => (.ok result, s1.enforceRetention req.name policy now)

/-- `keydbStore.ListCommits`: `ZRANGE`/`ZREVRANGE 0 (limit-1)`, hydrating
metadata and skipping entries that fail to load. -/
def KeydbStore.listCommits (s : KeydbStore) (opts : ListCommitsOptions) : List Commit :=
  if opts.repo = "" then []
  else
    let sorted := zrangeAll ((alGet s.zsets opts.repo).getD [])
    let ordered := if opts.descending then sorted.reverse else sorted
    let taken := if 0 < opts.limit then ordered.take opts.limit.toNat else ordered
    taken.filterMap (fun h => alGet s.commits (opts.repo, h))

/-- `keydbStore.UpsertBranch`. -/
def KeydbStore.upsertBranch (s : KeydbStore) (req : BranchRequest) (now : Nat) :
    Except StoreError Branch × KeydbStore :=
  if req.repo = "" ∨ req.name = "" ∨ req.commit = "" then
    (.error (.validation "repo, name, and commit are required"), s)
  else
    match s.getCommit req.repo req.commit with
    | .error e => (.error e, s)
    | .ok (commit, _) =>
      if commit.repo ≠ req.repo then
        (.error (.validation "commit does not belong to repository"), s)
      else
        let branch : Branch := ⟨req.repo, req.name, req.commit, now⟩
        (.ok branch,
         { s with
           branches := alSet s.branches (req.repo, req.name) branch,
           branchSets := alSet s.branchSets req.repo
             (setAdd ((alGet s.branchSets req.repo).getD []) req.name) })

/-- `keydbStore.GetBranch`. -/
def KeydbStore.getBranch (s : KeydbStore) (repo name : String) : Except StoreError Branch :=
  if repo = "" ∨ name = "" then .error (.validation "repo and name are required")
  else
    match alGet s.branches (repo, name) with
    | none => .error (.notFound "branch" name)
    | some branch => .ok branch

/-- `keydbStore.ListBranches`: `SMEMBERS`, sorted, point lookups, failures
skipped. -/
def KeydbStore.listBranches (s : KeydbStore) (repo : String) : List Branch :=
  if repo = "" then []
  else
    (sortStrings ((alGet s.branchSets repo).getD [])).filterMap (fun n =>
      match s.getBranch repo n with
      | .ok b => some b
      | .error _ => none)

/-- `keydbStore.CreateTag`. -/
def KeydbStore.createTag (s : KeydbStore) (req : TagRequest) (now : Nat) :
    Except StoreError Tag × KeydbStore :=
  if req.repo = "" ∨ req.name = "" ∨ req.commit = "" then
    (.error (.validation "repo, name, and commit are required"), s)
  else
    match s.getCommit req.repo req.commit with
    | .error e => (.error e, s)
    | .ok (commit, _) =>
      if commit.repo ≠ req.repo then
        (.error (.validation "commit does not belong to repository"), s)
      else if (alGet s.tags (req.repo, req.name)).isSome then
        (.error (.conflict "tag" req.name), s)
      else
        let tag : Tag := ⟨req.repo, req.name, req.commit, req.note, now⟩
        (.ok tag,
         { s with
           tags := alSet s.tags (req.repo, req.name) tag,
           tagSets := alSet s.tagSets req.repo
             (setAdd ((alGet s.tagSets req.repo).getD []) req.name) })

/-- `keydbStore.GetTag`. -/
def KeydbStore.getTag (s : KeydbStore) (repo name : String) : Except StoreError Tag :=
  if repo = "" ∨ name = "" then .error (.validation "repo and name are required")
  else
    match alGet s.tags (repo, name) with
    | none => .error (.notFound "tag" name)
    | some tag => .ok tag

/-- `keydbStore.ListTags`. -/
def KeydbStore.listTags (s : KeydbStore) (repo : String) : List Tag :=
  if repo = "" then []
  else
    (sortStrings ((alGet s.tagSets repo).getD [])).filterMap (fun n =>
      match s.getTag repo n with
      | .ok t => some t
      | .error _ => none)

/-- The write tail of `keydbStore.SetPolicy`: persist the record (duration
truncated to whole seconds), lock the returned policy, re-run retention. -/
def KeydbStore.setPolicyWrite (s : KeydbStore) (policy : RetentionPolicy) (seconds : Int)
    (now : Nat) : (RetentionPolicy × Option StoreError) × KeydbStore :=
  let s1 := { s with
    policies := alSet s.policies policy.repo ⟨policy.hotCommitLimit, seconds, true⟩ }
  let lockedPolicy := { policy with locked := true }
  let s2 := s1.enforceRetention policy.repo lockedPolicy now
  ((lockedPolicy, none), s2)

/-- `keydbStore.SetPolicy`: validation, locked-record conflict check at
second granularity, then write. -/
def KeydbStore.setPolicy (s : KeydbStore) (policy : RetentionPolicy) (now : Nat) :
    (RetentionPolicy × Option StoreError) × KeydbStore :=
  if policy.repo = "" then
    ((RetentionPolicy.zero, some (.validation "repository name is required")), s)
  else if policy.hotCommitLimit < 0 then
    ((RetentionPolicy.zero, some (.validation "hotCommitLimit must be >= 0")), s)
  else if policy.hotDuration < 0 then
    ((RetentionPolicy.zero, some (.validation "hotDuration must be >= 0")), s)
  else
    let seconds := policy.hotDuration.tdiv 1000000000
    match alGet s.policies policy.repo with
    | some r =>
      if r.locked ∧ (r.hotCommitLimit ≠ policy.hotCommitLimit ∨
          r.hotDurationSeconds ≠ seconds) then
        ((r.toPolicy policy.repo, some (.conflict "policy" policy.repo)), s)
      else s.setPolicyWrite policy seconds now
    | none => s.setPolicyWrite policy seconds now

/-! ## The `Store` interface: operations and observations -/

/-- One invocation of a `storage.Store` interface method (§6 of the spec),
with its arguments. -/
inductive StoreOp where
  | putBlobAndCommit (req : BlobWriteRequest)
  | listCommits (opts : ListCommitsOptions)
  | getCommit (repo hash : String)
  | upsertBranch (req : BranchRequest)
  | listBranches (repo : String)
  | getBranch (repo name : String)
  | createTag (req : TagRequest)
  | listTags (repo : String)
  | getTag (repo name : String)
  | setPolicy (policy : RetentionPolicy)
  | getPolicy (repo : String)
deriving DecidableEq, Repr

deriving instance DecidableEq for Except

/-- The observable outcome of one operation: returned values and errors. -/
inductive Obs where
  | blob (r : Except StoreError BlobCommitResult)
  | commits (l : List Commit)
  | commitContent (r : Except StoreError (Commit × String))
  | branch (r : Except StoreError Branch)
  | branches (l : List Branch)
  | tag (r : Except StoreError Tag)
  | tags (l : List Tag)
  | policy (r : RetentionPolicy × Option StoreError)
deriving DecidableEq, Repr

/-- State effect of one operation on the KeyDB backend (reads leave the
state unchanged). -/
def KeydbStore.applyOp (s : KeydbStore) (op : StoreOp) (now : Nat) : KeydbStore :=
  match op with
  | .putBlobAndCommit req => (s.putBlobAndCommit req now).2
  | .listCommits _ => s
  | .getCommit _ _ => s
  | .upsertBranch req => (s.upsertBranch req now).2
  | .listBranches _ => s
  | .getBranch _ _ => s
  | .createTag req => (s.createTag req now).2
  | .listTags _ => s
  | .getTag _ _ => s
  | .setPolicy policy => (s.setPolicy policy now).2
  | .getPolicy _ => s

/-- Observable outcome of one operation on the KeyDB backend. -/
def KeydbStore.obsOp (s : KeydbStore) (op : StoreOp) (now : Nat) : Obs :=
  match op with
  | .putBlobAndCommit req => .blob (s.putBlobAndCommit req now).1
  | .listCommits opts => .commits (s.listCommits opts)
  | .getCommit repo hash => .commitContent (s.getCommit repo hash)
  | .upsertBranch req => .branch (s.upsertBranch req now).1
  | .listBranches repo => .branches (s.listBranches repo)
  | .getBranch repo name => .branch (s.getBranch repo name)
  | .createTag req => .tag (s.createTag req now).1
  | .listTags repo => .tags (s.listTags repo)
  | .getTag repo name => .tag (s.getTag repo name)
  | .setPolicy policy => .policy (s.setPolicy policy now).1
  | .getPolicy repo => .policy (s.getPolicy repo)

/-- State effect of one operation on the memory backend. -/
def MemoryStore.applyOp (m : MemoryStore) (op : StoreOp) (now : Nat) : MemoryStore :=
  match op with
  | .putBlobAndCommit req => (m.putBlobAndCommit req now).2
  | .listCommits _ => m
  | .getCommit _ _ => m
  | .upsertBranch req => (m.upsertBranch req now).2
  | .listBranches _ => m
  | .getBranch _ _ => m
  | .createTag req => (m.createTag req now).2
  | .listTags _ => m
  | .getTag _ _ => m
  | .setPolicy policy => (m.setPolicy policy now).2
  | .getPolicy _ => m

/-- Observable outcome of one operation on the memory backend. -/
def MemoryStore.obsOp (m : MemoryStore) (op : StoreOp) (now : Nat) : Obs :=
  match op with
  | .putBlobAndCommit req => .blob (m.putBlobAndCommit req now).1
  | .listCommits opts => .commits (m.listCommits opts)
  | .getCommit repo hash => .commitContent (m.getCommit repo hash)
  | .upsertBranch req => .branch (m.upsertBranch req now).1
  | .listBranches repo => .branches (m.listBranches repo)
  | .getBranch repo name => .branch (m.getBranch repo name)
  | .createTag req => .tag (m.createTag req now).1
  | .listTags repo => .tags (m.listTags repo)
  | .getTag repo name => .tag (m.getTag repo name)
  | .setPolicy policy => .policy (m.setPolicy policy now).1
  | .getPolicy repo => .policy (m.getPolicy repo)

/-- Required name arguments of the operation are non-empty (only
`getBranch`/`getTag` need this for backend agreement on the empty store). -/
def StoreOp.argsOK : StoreOp → Prop
  | .getBranch repo name => repo ≠ "" ∧ name ≠ ""
  | .getTag repo name => repo ≠ "" ∧ name ≠ ""
  | _ => True

/-- Content of a commit as served from the archive, if present. -/
def KeydbStore.archiveContent (s : KeydbStore) (repo hash : String) : Option String :=
  match s.archive with
  | none => none
  | some ar =>
    match ar.fetch repo hash with
    | .ok d => some d
    | .error _ => none

/-- Content of a commit along the `GetCommit` read path: hot storage first,
then the archive. -/
def KeydbStore.readContent (s : KeydbStore) (repo hash : String) : Option String :=
  match alGet s.contents (repo, hash) with
  | some c => some c
  | none => s.archiveContent repo hash

/-- The commit `hash` of repository `repo` exists and `GetCommit` returns
it together with content `content` (KeyDB backend). -/
def CommitReadable (s : KeydbStore) (repo hash content : String) : Prop :=
  ∃ c, alGet s.commits (repo, hash) = some c ∧ s.getCommit repo hash = .ok (c, content)

/-- All commit fields except the `archived` flag agree, and `archived` only
moves `false → true` from `c` to `c'`. -/
def CommitEvolves (c c' : Commit) : Prop :=
  c'.repo = c.repo ∧ c'.branch = c.branch ∧ c'.hash = c.hash ∧ c'.parent = c.parent ∧
  c'.authorName = c.authorName ∧ c'.authorID = c.authorID ∧ c'.message = c.message ∧
  c'.contentHash = c.contentHash ∧ c'.timestamp = c.timestamp ∧
  (c.archived = true → c'.archived = true)


/-- `k` lines of `a` from `i` equal `k` lines of `b` from `j` (with the
`getD` default used by the matcher). -/
def MatchSpan (a b : List String) (i j k : Nat) : Prop :=
  ∀ d, d < k → a.getD (i + d) "" = b.getD (j + d) ""

/-- A matching-block triple `(i, j, size)` names equal spans. -/
def BlockSound (a b : List String) (t : Nat × Nat × Nat) : Prop :=
  MatchSpan a b t.1 t.2.1 t.2.2

/-- The candidate `(besti, bestj, bestsize)` lies in the current window and
names equal spans. -/
def BestProp (a b : List String) (alo ahi blo bhi : Nat) (t : Nat × Nat × Nat) : Prop :=
  alo ≤ t.1 ∧ blo ≤ t.2.1 ∧ t.1 + t.2.2 ≤ ahi ∧ t.2.1 + t.2.2 ≤ bhi ∧ BlockSound a b t

/-- Invariant of the `j2len` rows: an entry `j ↦ k` names a match of length
`k` ending at `(i - 1, j)` inclusive, inside the window. -/
def J2LProp (a b : List String) (alo blo bhi i : Nat) (j2len : List (Nat × Nat)) : Prop :=
  ∀ j k, alGet j2len j = some k → blo ≤ j ∧ j < bhi ∧ 1 ≤ k ∧ k ≤ i - alo ∧
    k ≤ j + 1 - blo ∧ MatchSpan a b (i - k) (j + 1 - k) k


/-- Blocks chained left to right: each starts at or after the running
position, and the final position stays within the upper bounds. -/
def ChainBW : Nat → Nat → Nat → Nat → List (Nat × Nat × Nat) → Prop
  | lo1, lo2, hi1, hi2, [] => lo1 ≤ hi1 ∧ lo2 ≤ hi2
  | lo1, lo2, hi1, hi2, (ai, bj, sz) :: rest =>
    lo1 ≤ ai ∧ lo2 ≤ bj ∧ ChainBW (ai + sz) (bj + sz) hi1 hi2 rest



/-- Opcodes tile the index ranges: consecutive, starting at `(i, j)` and
ending exactly at `(I, J)`. -/
def OpsTile : Nat → Nat → Nat → Nat → List OpCode → Prop
  | i, j, I, J, [] => i = I ∧ j = J
  | i, j, I, J, c :: cs =>
    c.i1 = i ∧ c.j1 = j ∧ i ≤ c.i2 ∧ j ≤ c.j2 ∧ OpsTile c.i2 c.j2 I J cs

/-- Per-opcode wellformedness: tags are the four known ones, `'e'` spans
are equal-length matches, `'d'`/`'i'` spans are one-sided. -/
def OpOK (a b : List String) (c : OpCode) : Prop :=
  (c.tag = 'e' → c.i2 - c.i1 = c.j2 - c.j1 ∧ MatchSpan a b c.i1 c.j1 (c.i2 - c.i1)) ∧
  (c.tag = 'd' → c.j1 = c.j2) ∧
  (c.tag = 'i' → c.i1 = c.i2) ∧
  (c.tag = 'r' ∨ c.tag = 'd' ∨ c.tag = 'i' ∨ c.tag = 'e') ∧
  (c.i1 < c.i2 ∨ c.j1 < c.j2)



/-! ## A strict unified-diff reader (the spec's validity wording)

Modelled from the spec: the spec calls the diff "a valid unified diff
against the two inputs". The definitions below spell that claim out as a
strict reader that parses a rendered unified diff and replays it against
the `previous` content, returning the reconstructed `current` content.
They are written from the spec's words, not from repository code. -/

def digitVal (c : Char) : Option Nat :=
  if '0' ≤ c ∧ c ≤ '9' then some (c.toNat - 48) else none

def parseNatLoop : List Char → Nat → Nat × List Char
  | [], acc => (acc, [])
  | c :: cs, acc =>
    match digitVal c with
    | some d => parseNatLoop cs (acc * 10 + d)
    | none => (acc, c :: cs)

def parseNat (l : List Char) : Option (Nat × List Char) :=
  match l with
  | [] => none
  | c :: _ =>
    match digitVal c with
    | some _ => some (parseNatLoop l 0)
    | none => none

/-- Read one `start,length` (or bare `start`) range back into the
half-open index interval printed by `formatRangeUnified`. -/
def parseRange (l : List Char) : Option (Nat × Nat × List Char) :=
  match parseNat l with
  | none => none
  | some (beg, rest) =>
    if rest.head? = some ',' then
      match parseNat rest.tail with
      | none => none
      | some (len, rest3) =>
        some (if len = 0 then beg else beg - 1,
          (if len = 0 then beg else beg - 1) + len, rest3)
    else some (beg - 1, beg, rest)

def parseHunkHeader (s : String) : Option (Nat × Nat × Nat × Nat) :=
  match s.data with
  | c1 :: c2 :: c3 :: c4 :: rest =>
    if c1 = '@' ∧ c2 = '@' ∧ c3 = ' ' ∧ c4 = '-' then
      match parseRange rest with
      | none => none
      | some (a1, a2, rest2) =>
        match rest2 with
        | d1 :: d2 :: rest3 =>
          if d1 = ' ' ∧ d2 = '+' then
            match parseRange rest3 with
            | none => none
            | some (b1, b2, rest4) =>
              if rest4 = [' ', '@', '@', '\n'] then some (a1, a2, b1, b2) else none
          else none
        | _ => none
    else none
  | _ => none

/-- Replay one hunk body: context lines must match and are copied, `-`
lines must match and are dropped, `+` lines are inserted; the body ends
exactly when both line budgets are used up. -/
def applyHunkBody : List String → List String → Nat → Nat → List String →
    Option (List String × List String × List String)
  | dls, file, ar, br, out =>
    if ar = 0 ∧ br = 0 then some (dls, file, out)
    else
      match dls with
      | [] => none
      | dl :: dls' =>
        match dl.data with
        | [] => none
        | c :: content =>
          if c = ' ' then
            match ar, br, file with
            | ar' + 1, br' + 1, f :: file' =>
              if f.data = content then applyHunkBody dls' file' ar' br' (out ++ [f]) else none
            | _, _, _ => none
          else if c = '-' then
            match ar, file with
            | ar' + 1, f :: file' =>
              if f.data = content then applyHunkBody dls' file' ar' br out else none
            | _, _ => none
          else if c = '+' then
            match br with
            | br' + 1 => applyHunkBody dls' file ar br' (out ++ [String.mk content])
            | 0 => none
          else none

/-- Replay all hunks in order; unchanged regions between hunks are copied
from the input. A single trailing empty fragment (from splitting a
newline-terminated diff) is accepted as the end. -/
def applyHunks : Nat → List String → List String → Nat → List String → Option (List String)
  | fuel, dls, file, pos, out =>
    match dls with
    | [] => some (out ++ file)
    | dl :: dls' =>
      if dl = "" ∧ dls' = [] then some (out ++ file)
      else
        match fuel with
        | 0 => none
        | fuel' + 1 =>
          match parseHunkHeader dl with
          | none => none
          | some (a1, a2, b1, b2) =>
            if a1 < pos ∨ file.length < a1 - pos then none
            else
              match applyHunkBody dls' (file.drop (a1 - pos)) (a2 - a1) (b2 - b1) [] with
              | none => none
              | some (dls2, file2, body) =>
                applyHunks fuel' dls2 file2 a2 (out ++ file.take (a1 - pos) ++ body)

/-- Undo `splitLines`: concatenate and drop the one appended newline. -/
def unSplitLines (ls : List String) : String :=
  String.mk ((ls.map String.data).flatten.dropLast)

/-- Split a diff string after every newline (a trailing fragment without a
newline becomes a final line; a newline-terminated string yields a final
empty fragment). -/
def diffLines (s : String) : List String :=
  (splitAfterNlAux [] s.data).map String.mk

/-- The strict reader: require the two file headers, then replay the
hunks against the split `previous` content. -/
def applyUnified (file diff : String) : Option String :=
  match diffLines diff with
  | f1 :: f2 :: rest =>
    if f1 = "--- previous\n" ∧ f2 = "+++ current\n" then
      match applyHunks (rest.length + 1) rest (splitLines file) 0 [] with
      | none => none
      | some lines => some (unSplitLines lines)
    else none
  | _ => none



/-- A proper text line: ends with exactly one newline, at the end. -/
def LineShape (s : String) : Prop := ∃ pre, s.data = pre ++ ['\n'] ∧ '\n' ∉ pre


/-- The body lines `WriteUnifiedDiff` emits for one opcode inside a group. -/
def opBody (a b : List String) (c : OpCode) : List String :=
  if c.tag = 'e' then (sliceL a c.i1 c.i2).map (fun ln => " " ++ ln)
  else
    (if c.tag = 'r' ∨ c.tag = 'd' then (sliceL a c.i1 c.i2).map (fun ln => "-" ++ ln) else []) ++
    (if c.tag = 'r' ∨ c.tag = 'i' then (sliceL b c.j1 c.j2).map (fun ln => "+" ++ ln) else [])

/-- The groups produced by `GetGroupedOpCodes` in order: each group is a
nonempty run of wellformed opcodes tiling `[i1,i2) × [j1,j2)`, the gap
before each group (and after the last) is an equal-length matching
region, and everything stays within the two line lists. -/
def GroupsOK (a b : List String) : Nat → Nat → List (List OpCode) → Prop
  | p, q, [] => a.length - p = b.length - q ∧ p ≤ a.length ∧ q ≤ b.length ∧
      MatchSpan a b p q (a.length - p)
  | p, q, g :: gs => ∃ i1 j1 i2 j2,
      g ≠ [] ∧ (∀ c ∈ g, OpOK a b c) ∧ OpsTile i1 j1 i2 j2 g ∧
      p ≤ i1 ∧ q ≤ j1 ∧ i1 - p = j1 - q ∧ MatchSpan a b p q (i1 - p) ∧
      i2 ≤ a.length ∧ j2 ≤ b.length ∧ GroupsOK a b i2 j2 gs

end KvVs

/-! # Theorems -/

namespace KvVs

theorem alGet_alSet_self {κ α : Type} [DecidableEq κ] (l : List (κ × α)) (k : κ) (v : α) :
    alGet (alSet l k v) k = some v := by
  induction l with
  | nil => simp [alGet, alSet]
  | cons p rest ih =>
    obtain ⟨k', v'⟩ := p
    by_cases h : k' = k
    · simp [alGet, alSet, h]
    · simp [alGet, alSet, h, ih]

theorem alGet_alSet_ne {κ α : Type} [DecidableEq κ] (l : List (κ × α)) (k k' : κ) (v : α)
    (h : k' ≠ k) : alGet (alSet l k v) k' = alGet l k' := by
  induction l with
  | nil => simp [alGet, alSet, Ne.symm h]
  | cons p rest ih =>
    obtain ⟨k0, v0⟩ := p
    by_cases h0 : k0 = k
    · subst h0
      simp [alGet, alSet, Ne.symm h]
    · simp only [alSet, if_neg h0, alGet]
      by_cases h1 : k0 = k'
      · simp [h1]
      · simp [h1, ih]

theorem alGet_alDel_self {κ α : Type} [DecidableEq κ] (l : List (κ × α)) (k : κ) :
    alGet (alDel l k) k = none := by
  induction l with
  | nil => simp [alGet, alDel]
  | cons p rest ih =>
    obtain ⟨k', v'⟩ := p
    by_cases h : k' = k
    · simp [alDel, h, ih]
    · simp [alDel, alGet, h, ih]

theorem alGet_alDel_ne {κ α : Type} [DecidableEq κ] (l : List (κ × α)) (k k' : κ)
    (h : k' ≠ k) : alGet (alDel l k) k' = alGet l k' := by
  induction l with
  | nil => simp [alGet, alDel]
  | cons p rest ih =>
    obtain ⟨k0, v0⟩ := p
    by_cases h0 : k0 = k
    · subst h0
      simp [alDel, alGet, ih, Ne.symm h]
    · simp only [alDel, if_neg h0, alGet]
      by_cases h1 : k0 = k'
      · simp [h1]
      · simp [h1, ih]


theorem fetch_store_self (ar : MemoryArchive) (repo hash payload : String) :
    (ar.store repo hash payload).fetch repo hash = .ok payload := by
  simp [MemoryArchive.store, MemoryArchive.fetch, alGet_alSet_self]

theorem fetch_store_ne (ar : MemoryArchive) (repo' x repo hash payload : String)
    (h : (repo, hash) ≠ (repo', x)) :
    (ar.store repo' x payload).fetch repo hash = ar.fetch repo hash := by
  by_cases hr : repo = repo'
  · subst hr
    have hx : hash ≠ x := by simpa using h
    simp only [MemoryArchive.store, MemoryArchive.fetch, alGet_alSet_self,
      alGet_alSet_ne _ _ _ _ hx]
    cases hd : alGet ar.data repo with
    | none => simp [alGet]
    | some rd => simp
  · simp [MemoryArchive.store, MemoryArchive.fetch, alGet_alSet_ne _ _ _ _ hr]

theorem kvGetCommit_ok_commits (s : KeydbStore) (repo hash : String) (c : Commit) (ct : String)
    (h : s.getCommit repo hash = .ok (c, ct)) : alGet s.commits (repo, hash) = some c := by
  unfold KeydbStore.getCommit at h
  cases hc : alGet s.commits (repo, hash) with
  | none => simp [hc] at h
  | some c0 =>
    simp only [hc] at h
    cases hct : alGet s.contents (repo, hash) with
    | some content => simp [hct] at h; simp [h.1]
    | none =>
      simp only [hct] at h
      cases har : s.archive with
      | none => simp [har] at h
      | some ar =>
        simp only [har] at h
        cases hf : ar.fetch repo hash with
        | error e => simp [hf, Except.map] at h
        | ok d => simp [hf, Except.map] at h; simp [h.1]

theorem commitEvolves_refl (c : Commit) : CommitEvolves c c := by
  simp [CommitEvolves]

theorem commitEvolves_trans {a b c : Commit} (h1 : CommitEvolves a b) (h2 : CommitEvolves b c) :
    CommitEvolves a c := by
  obtain ⟨p1, p2, p3, p4, p5, p6, p7, p8, p9, p10⟩ := h1
  obtain ⟨q1, q2, q3, q4, q5, q6, q7, q8, q9, q10⟩ := h2
  refine ⟨?_, ?_, ?_, ?_, ?_, ?_, ?_, ?_, ?_, ?_⟩ <;> simp_all

/-- `archiveCommit` touches only the commit map, the hot content map and the
archive. -/
theorem archiveCommit_frame (s : KeydbStore) (repo hash : String) :
    (s.archiveCommit repo hash).branches = s.branches ∧
    (s.archiveCommit repo hash).branchSets = s.branchSets ∧
    (s.archiveCommit repo hash).tags = s.tags ∧
    (s.archiveCommit repo hash).tagSets = s.tagSets ∧
    (s.archiveCommit repo hash).zsets = s.zsets ∧
    (s.archiveCommit repo hash).authors = s.authors ∧
    (s.archiveCommit repo hash).policies = s.policies ∧
    (s.archiveCommit repo hash).defaultPolicy = s.defaultPolicy ∧
    (s.archiveCommit repo hash).archive.isSome = s.archive.isSome := by
  unfold KeydbStore.archiveCommit
  repeat' split
  all_goals simp_all

/-- Characterization of `archiveCommit`: either a no-op, or it stores the
content in the archive, flips `archived`, and deletes the hot blob. -/
theorem archiveCommit_spec (s : KeydbStore) (repo x : String) :
    s.archiveCommit repo x = s ∨
    ∃ ar c ct, s.archive = some ar ∧ s.getCommit repo x = .ok (c, ct) ∧ c.archived = false ∧
      s.archiveCommit repo x = { s with
        archive := some (ar.store repo x ct),
        commits := alSet s.commits (repo, x) { c with archived := true },
        contents := alDel s.contents (repo, x) } := by
  unfold KeydbStore.archiveCommit
  cases har : s.archive with
  | none => exact .inl rfl
  | some ar =>
    dsimp only
    cases hg : s.getCommit repo x with
    | error e => exact .inl rfl
    | ok pr =>
      obtain ⟨c, ct⟩ := pr
      dsimp only
      by_cases harch : c.archived = true
      · rw [if_pos harch]
        exact .inl rfl
      · rw [if_neg harch]
        exact .inr ⟨ar, c, ct, rfl, rfl, by simpa using harch, rfl⟩

/-- Field immutability of commits under `archiveCommit`. -/
theorem archiveCommit_evolves (s : KeydbStore) (repo' x repo hash : String) (c : Commit)
    (hc : alGet s.commits (repo, hash) = some c) :
    ∃ c', alGet (s.archiveCommit repo' x).commits (repo, hash) = some c' ∧ CommitEvolves c c' := by
  rcases archiveCommit_spec s repo' x with hid | ⟨ar, cc, ct, har, hg, harch, heq⟩
  · exact ⟨c, by rw [hid]; exact hc, commitEvolves_refl c⟩
  · rw [heq]
    by_cases hk : (repo, hash) = (repo', x)
    · have hcc := kvGetCommit_ok_commits s repo' x cc ct hg
      rw [← hk, hc] at hcc
      injection hcc with hcc
      refine ⟨{ cc with archived := true }, ?_, ?_⟩
      · show alGet (alSet s.commits (repo', x) _) (repo, hash) = _
        rw [hk]
        exact alGet_alSet_self ..
      · rw [hcc]
        simp [CommitEvolves]
    · refine ⟨c, ?_, commitEvolves_refl c⟩
      show alGet (alSet s.commits (repo', x) _) (repo, hash) = _
      rw [alGet_alSet_ne _ _ _ _ hk]
      exact hc

/-- `CommitReadable` is preserved by `archiveCommit`. -/
theorem archiveCommit_readable (s : KeydbStore) (repo' x repo hash content : String)
    (h : CommitReadable s repo hash content) :
    CommitReadable (s.archiveCommit repo' x) repo hash content := by
  obtain ⟨c, hc, hg⟩ := h
  rcases archiveCommit_spec s repo' x with hid | ⟨ar, cc, ct, har, hgc, harch, heq⟩
  · rw [hid]
    exact ⟨c, hc, hg⟩
  · by_cases hk : (repo, hash) = (repo', x)
    · injection hk with hr hx
      subst hr
      subst hx
      rw [hg] at hgc
      injection hgc with hgc
      injection hgc with h1 h2
      subst h1
      subst h2
      rw [heq]
      refine ⟨{ c with archived := true }, alGet_alSet_self .., ?_⟩
      unfold KeydbStore.getCommit
      dsimp only
      rw [alGet_alSet_self, alGet_alDel_self]
      dsimp only
      rw [fetch_store_self]
      rfl
    · rw [heq]
      refine ⟨c, ?_, ?_⟩
      · show alGet (alSet s.commits (repo', x) _) (repo, hash) = _
        rw [alGet_alSet_ne _ _ _ _ hk]
        exact hc
      · unfold KeydbStore.getCommit at hg ⊢
        dsimp only at hg ⊢
        rw [alGet_alSet_ne _ _ _ _ hk, alGet_alDel_ne _ _ _ hk, hc] at *
        rw [hc] at hg
        cases hct : alGet s.contents (repo, hash) with
        | some ct' =>
          rw [hct] at hg
          simpa using hg
        | none =>
          rw [hct] at hg
          rw [har] at hg
          dsimp only at hg ⊢
          rw [fetch_store_ne _ _ _ _ _ _ hk]
          exact hg


theorem foldArchive_evolves (repo' : String) (l : List String) (s : KeydbStore)
    (repo hash : String) (c : Commit) (hc : alGet s.commits (repo, hash) = some c) :
    ∃ c', alGet (l.foldl (fun acc h => acc.archiveCommit repo' h) s).commits (repo, hash) =
      some c' ∧ CommitEvolves c c' := by
  induction l generalizing s c with
  | nil => exact ⟨c, hc, commitEvolves_refl c⟩
  | cons x rest ih =>
    obtain ⟨c1, hc1, he1⟩ := archiveCommit_evolves s repo' x repo hash c hc
    obtain ⟨c2, hc2, he2⟩ := ih (s.archiveCommit repo' x) c1 hc1
    exact ⟨c2, hc2, commitEvolves_trans he1 he2⟩

theorem foldArchive_readable (repo' : String) (l : List String) (s : KeydbStore)
    (repo hash content : String) (h : CommitReadable s repo hash content) :
    CommitReadable (l.foldl (fun acc h => acc.archiveCommit repo' h) s) repo hash content := by
  induction l generalizing s with
  | nil => exact h
  | cons x rest ih => exact ih _ (archiveCommit_readable s repo' x repo hash content h)

theorem foldArchive_frame (repo' : String) (l : List String) (s : KeydbStore) :
    (l.foldl (fun acc h => acc.archiveCommit repo' h) s).branches = s.branches ∧
    (l.foldl (fun acc h => acc.archiveCommit repo' h) s).branchSets = s.branchSets ∧
    (l.foldl (fun acc h => acc.archiveCommit repo' h) s).tags = s.tags ∧
    (l.foldl (fun acc h => acc.archiveCommit repo' h) s).tagSets = s.tagSets ∧
    (l.foldl (fun acc h => acc.archiveCommit repo' h) s).zsets = s.zsets ∧
    (l.foldl (fun acc h => acc.archiveCommit repo' h) s).authors = s.authors ∧
    (l.foldl (fun acc h => acc.archiveCommit repo' h) s).policies = s.policies ∧
    (l.foldl (fun acc h => acc.archiveCommit repo' h) s).defaultPolicy = s.defaultPolicy := by
  induction l generalizing s with
  | nil => exact ⟨rfl, rfl, rfl, rfl, rfl, rfl, rfl, rfl⟩
  | cons x rest ih =>
    obtain ⟨f1, f2, f3, f4, f5, f6, f7, f8, _⟩ := archiveCommit_frame s repo' x
    obtain ⟨g1, g2, g3, g4, g5, g6, g7, g8⟩ := ih (s.archiveCommit repo' x)
    exact ⟨g1.trans f1, g2.trans f2, g3.trans f3, g4.trans f4, g5.trans f5, g6.trans f6,
      g7.trans f7, g8.trans f8⟩

theorem enforceRetention_evolves (s : KeydbStore) (repo' : String) (policy : RetentionPolicy)
    (now : Nat) (repo hash : String) (c : Commit) (hc : alGet s.commits (repo, hash) = some c) :
    ∃ c', alGet (s.enforceRetention repo' policy now).commits (repo, hash) = some c' ∧
      CommitEvolves c c' := by
  unfold KeydbStore.enforceRetention
  cases s.archive with
  | none => exact ⟨c, hc, commitEvolves_refl c⟩
  | some ar =>
    dsimp only
    split
    · exact ⟨c, hc, commitEvolves_refl c⟩
    · exact foldArchive_evolves repo' _ s repo hash c hc

theorem enforceRetention_readable (s : KeydbStore) (repo' : String) (policy : RetentionPolicy)
    (now : Nat) (repo hash content : String) (h : CommitReadable s repo hash content) :
    CommitReadable (s.enforceRetention repo' policy now) repo hash content := by
  unfold KeydbStore.enforceRetention
  cases s.archive with
  | none => exact h
  | some ar =>
    dsimp only
    split
    · exact h
    · exact foldArchive_readable repo' _ s repo hash content h

theorem enforceRetention_frame (s : KeydbStore) (repo' : String) (policy : RetentionPolicy)
    (now : Nat) :
    (s.enforceRetention repo' policy now).branches = s.branches ∧
    (s.enforceRetention repo' policy now).branchSets = s.branchSets ∧
    (s.enforceRetention repo' policy now).tags = s.tags ∧
    (s.enforceRetention repo' policy now).tagSets = s.tagSets ∧
    (s.enforceRetention repo' policy now).zsets = s.zsets ∧
    (s.enforceRetention repo' policy now).authors = s.authors ∧
    (s.enforceRetention repo' policy now).policies = s.policies ∧
    (s.enforceRetention repo' policy now).defaultPolicy = s.defaultPolicy := by
  unfold KeydbStore.enforceRetention
  cases s.archive with
  | none => exact ⟨rfl, rfl, rfl, rfl, rfl, rfl, rfl, rfl⟩
  | some ar =>
    dsimp only
    split
    · exact ⟨rfl, rfl, rfl, rfl, rfl, rfl, rfl, rfl⟩
    · exact foldArchive_frame repo' _ s


/-- Inversion of a successful `putTxn`: the returned result and the
post-pipeline state, plus the passed hash-collision guard. -/
theorem kvPutTxn_ok_inv (s : KeydbStore) (req : BlobWriteRequest) (branch : String) (now : Nat)
    (r : BlobCommitResult) (s1 : KeydbStore)
    (h : s.putTxn req branch now = .ok (r, s1)) :
    ∃ previousContent,
      r = ⟨computeCommitHash req.name branch req.content (s.branchHead req.name branch) now,
           branch, now, computeDiff previousContent req.content⟩ ∧
      alGet s.commits (req.name, r.commitHash) = none ∧
      s1 = { s with
        commits := alSet s.commits (req.name, r.commitHash)
          ⟨req.name, branch, r.commitHash, s.branchHead req.name branch, req.authorName,
           req.authorID, "auto commit", computeContentHash req.content, now, false⟩,
        contents := alSet s.contents (req.name, r.commitHash) req.content,
        branches := alSet s.branches (req.name, branch) ⟨req.name, branch, r.commitHash, now⟩,
        branchSets := alSet s.branchSets req.name
          (setAdd ((alGet s.branchSets req.name).getD []) branch),
        zsets := alSet s.zsets req.name
          (zsetAdd ((alGet s.zsets req.name).getD []) r.commitHash now),
        authors := alSet s.authors (req.name, req.authorID) req.authorName } := by
  unfold KeydbStore.putTxn at h
  dsimp only at h
  split at h
  next e => exact absurd h (by simp)
  next previousContent heq =>
    split at h
    next hac => exact absurd h (by simp)
    next hac =>
      split at h
      next hex => exact absurd h (by simp)
      next hex =>
        injection h with h
        injection h with hr hs
        subst hr
        exact ⟨previousContent, rfl, by simpa using hex, hs.symm⟩

/-- Inversion of a successful `PutBlobAndCommit`. -/
theorem kvPut_ok_inv (s : KeydbStore) (req : BlobWriteRequest) (now : Nat)
    (r : BlobCommitResult) (s' : KeydbStore)
    (h : s.putBlobAndCommit req now = (.ok r, s')) :
    ∃ s1, s.putTxn req (if req.branch = "" then defaultBranch else req.branch) now = .ok (r, s1) ∧
      s' = s1.enforceRetention req.name (s.getPolicyOrDefault req.name) now := by
  unfold KeydbStore.putBlobAndCommit at h
  by_cases h1 : req.name = ""
  · rw [if_pos h1] at h
    exact absurd h (by simp)
  rw [if_neg h1] at h
  by_cases h2 : req.content = ""
  · rw [if_pos h2] at h
    exact absurd h (by simp)
  rw [if_neg h2] at h
  by_cases h3 : req.authorName = "" ∨ req.authorID = ""
  · rw [if_pos h3] at h
    exact absurd h (by simp)
  rw [if_neg h3] at h
  dsimp only at h
  split at h
  next e heq => exact absurd h (by simp)
  next result s1 heq =>
    injection h with h1' h2'
    injection h1' with h1'
    subst h1'
    exact ⟨s1, heq, h2'.symm⟩


theorem kvPut_error_state_main (s : KeydbStore) (req : BlobWriteRequest) (now : Nat)
    (e : StoreError) (h : (s.putBlobAndCommit req now).1 = .error e) :
    (s.putBlobAndCommit req now).2 = s := by
  unfold KeydbStore.putBlobAndCommit at h ⊢
  by_cases h1 : req.name = ""
  · simp [h1]
  by_cases h2 : req.content = ""
  · simp [h1, h2]
  by_cases h3 : req.authorName = "" ∨ req.authorID = ""
  · simp [h1, h2, h3]
  rcases htx : s.putTxn req (if req.branch = "" then defaultBranch else req.branch) now with e' | pr
  · simp [h1, h2, h3, htx]
  · simp [h1, h2, h3, htx] at h

theorem kvUpsert_state (s : KeydbStore) (req : BranchRequest) (now : Nat) :
    (s.upsertBranch req now).2.commits = s.commits ∧
    (s.upsertBranch req now).2.contents = s.contents ∧
    (s.upsertBranch req now).2.zsets = s.zsets ∧
    (s.upsertBranch req now).2.authors = s.authors ∧
    (s.upsertBranch req now).2.policies = s.policies ∧
    (s.upsertBranch req now).2.archive = s.archive := by
  unfold KeydbStore.upsertBranch
  repeat' split
  all_goals exact ⟨rfl, rfl, rfl, rfl, rfl, rfl⟩

theorem kvCreateTag_state (s : KeydbStore) (req : TagRequest) (now : Nat) :
    (s.createTag req now).2.commits = s.commits ∧
    (s.createTag req now).2.contents = s.contents ∧
    (s.createTag req now).2.zsets = s.zsets ∧
    (s.createTag req now).2.authors = s.authors ∧
    (s.createTag req now).2.policies = s.policies ∧
    (s.createTag req now).2.archive = s.archive := by
  unfold KeydbStore.createTag
  repeat' split
  all_goals exact ⟨rfl, rfl, rfl, rfl, rfl, rfl⟩

theorem kvSetPolicy_state (s : KeydbStore) (policy : RetentionPolicy) (now : Nat) :
    (s.setPolicy policy now).2 = s ∨
    ∃ ps pol, (s.setPolicy policy now).2 =
      ({ s with policies := ps } : KeydbStore).enforceRetention policy.repo pol now := by
  unfold KeydbStore.setPolicy KeydbStore.setPolicyWrite
  repeat' first
    | exact .inl rfl
    | exact .inr ⟨_, _, rfl⟩
    | split
    | dsimp only

/-- **C1 (amended)**: on the KeyDB backend, every `PutBlobAndCommit` call
that returns an error (validation, parent-content NotFound, author-identity
Conflict, or commit-hash-collision Conflict) leaves the entire store state
exactly as it was: commit records, content blobs, branch pointers, history
index and author registry included. (The in-memory backend does not share
this property; see the counterexample.) -/
theorem c1_keydb_put_error_leaves_state_unchanged (s : KeydbStore) (req : BlobWriteRequest)
    (now : Nat) (e : StoreError) (h : (s.putBlobAndCommit req now).1 = .error e) :
    (s.putBlobAndCommit req now).2 = s :=
  kvPut_error_state_main s req now e h

/-- **C1 witness**: a concrete erroring call on a concrete store, with the
state-equality conclusion evaluated. -/
theorem c1_witness :
    ((KeydbStore.new none ⟨0, 0⟩).putBlobAndCommit ⟨"", "", "", "", ""⟩ 0).1 =
        .error (.validation "name is required") ∧
    ((KeydbStore.new none ⟨0, 0⟩).putBlobAndCommit ⟨"", "", "", "", ""⟩ 0).2 =
      KeydbStore.new none ⟨0, 0⟩ :=
  ⟨by decide,
   c1_keydb_put_error_leaves_state_unchanged (KeydbStore.new none ⟨0, 0⟩) ⟨"", "", "", "", ""⟩ 0
     (.validation "name is required") (by decide)⟩

/-- **C1 counterexample**: on the in-memory backend, a `putBlobAndCommit`
that fails with a commit-hash-collision Conflict has nonetheless changed
the author registry: a fresh author id is left registered. The collision is
staged by moving the branch pointer back with `upsertBranch` and repeating
a write at the same clock reading. -/
theorem c1_counterexample :
    (let m0 := MemoryStore.new none ⟨0, 0⟩
     let w1 := m0.putBlobAndCommit ⟨"r", "", "x", "A", "a1"⟩ 5
     let w2 := w1.2.putBlobAndCommit ⟨"r", "", "y", "A", "a1"⟩ 7
     let w3 := w2.2.upsertBranch ⟨"r", "main", computeCommitHash "r" "main" "x" "" 5⟩ 8
     let w4 := w3.2.putBlobAndCommit ⟨"r", "", "y", "Carol", "c9"⟩ 7
     w4.1 = .error (.conflict "commit"
       (computeCommitHash "r" "main" "y" (computeCommitHash "r" "main" "x" "" 5) 7)) ∧
     alGet ((alGet w4.2.authors "r").getD []) "c9" = some "Carol" ∧
     alGet ((alGet w3.2.authors "r").getD []) "c9" = none) := by
  refine ⟨?_, ?_, ?_⟩ <;> decide


/-- **C3**: immediately after a successful `PutBlobAndCommit` on the KeyDB
backend, the branch pointer of the effective branch equals the hash of the
commit just created, the commit record and its history-index entry exist,
and the content is retrievable through the read path (`CommitReadable`). -/
theorem c3_branch_pointer_after_write (s : KeydbStore) (req : BlobWriteRequest) (now : Nat)
    (r : BlobCommitResult) (s' : KeydbStore) (h : s.putBlobAndCommit req now = (.ok r, s')) :
    alGet s'.branches (req.name, r.branch) = some ⟨req.name, r.branch, r.commitHash, now⟩ ∧
    (∃ c, alGet s'.commits (req.name, r.commitHash) = some c ∧ c.repo = req.name ∧
      c.branch = r.branch ∧ c.hash = r.commitHash ∧ c.timestamp = now) ∧
    alGet ((alGet s'.zsets req.name).getD []) r.commitHash = some now ∧
    CommitReadable s' req.name r.commitHash req.content := by
  obtain ⟨s1, htx, hs'⟩ := kvPut_ok_inv s req now r s' h
  obtain ⟨pc, hr, hex, hs1⟩ := kvPutTxn_ok_inv s req _ now r s1 htx
  subst hs'
  obtain ⟨f1, f2, f3, f4, f5, f6, f7, f8⟩ :=
    enforceRetention_frame s1 req.name (s.getPolicyOrDefault req.name) now
  have hbr : r.branch = (if req.branch = "" then defaultBranch else req.branch) := by
    rw [hr]
  have hc1 : alGet s1.commits (req.name, r.commitHash) =
      some ⟨req.name, if req.branch = "" then defaultBranch else req.branch, r.commitHash,
        s.branchHead req.name (if req.branch = "" then defaultBranch else req.branch),
        req.authorName, req.authorID, "auto commit", computeContentHash req.content, now,
        false⟩ := by
    rw [hs1]
    exact alGet_alSet_self ..
  have hct : alGet s1.contents (req.name, r.commitHash) = some req.content := by
    rw [hs1]
    exact alGet_alSet_self ..
  refine ⟨?_, ?_, ?_, ?_⟩
  · rw [f1, hs1]
    dsimp only
    rw [hbr]
    exact alGet_alSet_self ..
  · obtain ⟨c', hc', he⟩ := enforceRetention_evolves s1 req.name _ now req.name r.commitHash _ hc1
    obtain ⟨e1, e2, e3, e4, e5, e6, e7, e8, e9, e10⟩ := he
    exact ⟨c', hc', by rw [e1], by rw [e2, hbr], by rw [e3], by rw [e9]⟩
  · rw [f5, hs1]
    dsimp only
    rw [alGet_alSet_self]
    dsimp only [Option.getD]
    exact alGet_alSet_self ..
  · apply enforceRetention_readable
    refine ⟨_, hc1, ?_⟩
    unfold KeydbStore.getCommit
    rw [hc1]
    dsimp only
    rw [hct]


/-- **C3 witness**: after one concrete successful write, the branch pointer
of the effective branch `"main"` is the hash of the new commit. -/
theorem c3_witness :
    alGet ((KeydbStore.new none ⟨0, 0⟩).putBlobAndCommit ⟨"r", "", "x", "A", "a1"⟩ 5).2.branches
      ("r", "main") =
    some ⟨"r", "main", computeCommitHash "r" "main" "x" "" 5, 5⟩ := by
  have h1 : ((KeydbStore.new none ⟨0, 0⟩).putBlobAndCommit ⟨"r", "", "x", "A", "a1"⟩ 5).1 =
      .ok ⟨computeCommitHash "r" "main" "x" "" 5, "main", 5, computeDiff "" "x"⟩ := by decide
  have h : (KeydbStore.new none ⟨0, 0⟩).putBlobAndCommit ⟨"r", "", "x", "A", "a1"⟩ 5 =
      (.ok ⟨computeCommitHash "r" "main" "x" "" 5, "main", 5, computeDiff "" "x"⟩,
       ((KeydbStore.new none ⟨0, 0⟩).putBlobAndCommit ⟨"r", "", "x", "A", "a1"⟩ 5).2) := by
    rw [← h1]
  exact (c3_branch_pointer_after_write _ _ 5 _ _ h).1

/-- **C9**: commit records on the KeyDB backend are immutable under every
store operation except for the `archived` flag, which only ever moves
`false → true`. -/
theorem c9_commit_fields_immutable (s : KeydbStore) (op : StoreOp) (now : Nat)
    (repo hash : String) (c : Commit) (hc : alGet s.commits (repo, hash) = some c) :
    ∃ c', alGet (s.applyOp op now).commits (repo, hash) = some c' ∧ CommitEvolves c c' := by
  cases op with
  | putBlobAndCommit req =>
    show ∃ c', alGet (s.putBlobAndCommit req now).2.commits (repo, hash) = some c' ∧ _
    rcases hput : s.putBlobAndCommit req now with ⟨res, s2⟩
    cases res with
    | error e =>
      have hst : s2 = s := by
        have h0 := kvPut_error_state_main s req now e (by rw [hput])
        rwa [hput] at h0
      exact ⟨c, by dsimp only; rw [hst]; exact hc, commitEvolves_refl c⟩
    | ok r =>
      obtain ⟨s1, htx, hs2⟩ := kvPut_ok_inv s req now r s2 hput
      obtain ⟨pc, hr, hex, hs1⟩ := kvPutTxn_ok_inv s req _ now r s1 htx
      have hkey : (repo, hash) ≠ (req.name, r.commitHash) := by
        intro hk
        rw [hk] at hc
        rw [hc] at hex
        cases hex
      have hc1 : alGet s1.commits (repo, hash) = some c := by
        rw [hs1]
        dsimp only
        rw [alGet_alSet_ne _ _ _ _ hkey]
        exact hc
      dsimp only
      rw [hs2]
      exact enforceRetention_evolves s1 req.name _ now repo hash c hc1
  | listCommits opts => exact ⟨c, hc, commitEvolves_refl c⟩
  | getCommit r h' => exact ⟨c, hc, commitEvolves_refl c⟩
  | upsertBranch req =>
    exact ⟨c, by
      show alGet (s.upsertBranch req now).2.commits (repo, hash) = some c
      rw [(kvUpsert_state s req now).1]; exact hc, commitEvolves_refl c⟩
  | listBranches r => exact ⟨c, hc, commitEvolves_refl c⟩
  | getBranch r n => exact ⟨c, hc, commitEvolves_refl c⟩
  | createTag req =>
    exact ⟨c, by
      show alGet (s.createTag req now).2.commits (repo, hash) = some c
      rw [(kvCreateTag_state s req now).1]; exact hc, commitEvolves_refl c⟩
  | listTags r => exact ⟨c, hc, commitEvolves_refl c⟩
  | getTag r n => exact ⟨c, hc, commitEvolves_refl c⟩
  | setPolicy policy =>
    show ∃ c', alGet (s.setPolicy policy now).2.commits (repo, hash) = some c' ∧ _
    rcases kvSetPolicy_state s policy now with hid | ⟨ps, pol, hst⟩
    · exact ⟨c, by rw [hid]; exact hc, commitEvolves_refl c⟩
    · rw [hst]
      exact enforceRetention_evolves _ policy.repo pol now repo hash c hc
  | getPolicy r => exact ⟨c, hc, commitEvolves_refl c⟩

/-- **C9 witness**: a concrete store with one commit, and a concrete
`setPolicy` operation; the commit's fields survive. -/
theorem c9_witness :
    (let w := (KeydbStore.new none ⟨0, 0⟩).putBlobAndCommit ⟨"r", "", "x", "A", "a1"⟩ 5
     ∃ c', alGet (w.2.applyOp (.setPolicy ⟨"r", 2, 0, false⟩) 6).commits
         ("r", computeCommitHash "r" "main" "x" "" 5) = some c' ∧
       CommitEvolves
         ⟨"r", "main", computeCommitHash "r" "main" "x" "" 5, "", "A", "a1", "auto commit",
          computeContentHash "x", 5, false⟩ c') := by
  apply c9_commit_fields_immutable
  decide

/-- **C10**: listing commits, branches and tags of a repository that has
never been written to returns the empty sequence on both backends — never
an error and never an absent value (the return type is a plain list). -/
theorem c10_unwritten_repo_lists_empty (s : KeydbStore) (m : MemoryStore) (repo : String)
    (desc : Bool) (limit : Int)
    (hz : alGet s.zsets repo = none) (hbs : alGet s.branchSets repo = none)
    (hts : alGet s.tagSets repo = none)
    (hm1 : alGet m.repoCommits repo = none) (hm2 : alGet m.branches repo = none)
    (hm3 : alGet m.tags repo = none) :
    s.listCommits ⟨repo, desc, limit⟩ = [] ∧ s.listBranches repo = [] ∧
    s.listTags repo = [] ∧ m.listCommits ⟨repo, desc, limit⟩ = [] ∧
    m.listBranches repo = [] ∧ m.listTags repo = [] := by
  refine ⟨?_, ?_, ?_, ?_, ?_, ?_⟩
  · unfold KeydbStore.listCommits
    split
    · rfl
    · rw [hz]
      simp [zrangeAll]
  · unfold KeydbStore.listBranches
    split
    · rfl
    · rw [hbs]
      simp [sortStrings]
  · unfold KeydbStore.listTags
    split
    · rfl
    · rw [hts]
      simp [sortStrings]
  · unfold MemoryStore.listCommits
    rw [hm1]
  · unfold MemoryStore.listBranches
    rw [hm2]
  · unfold MemoryStore.listTags
    rw [hm3]

/-- **C10 witness**: the empty stores on a concrete repository name. -/
theorem c10_witness :
    (KeydbStore.new none ⟨0, 0⟩).listCommits ⟨"ghost", true, 7⟩ = [] ∧
    (KeydbStore.new none ⟨0, 0⟩).listBranches "ghost" = [] ∧
    (KeydbStore.new none ⟨0, 0⟩).listTags "ghost" = [] ∧
    (MemoryStore.new none ⟨0, 0⟩).listCommits ⟨"ghost", true, 7⟩ = [] ∧
    (MemoryStore.new none ⟨0, 0⟩).listBranches "ghost" = [] ∧
    (MemoryStore.new none ⟨0, 0⟩).listTags "ghost" = [] :=
  c10_unwritten_repo_lists_empty (KeydbStore.new none ⟨0, 0⟩) (MemoryStore.new none ⟨0, 0⟩)
    "ghost" true 7 (by decide) (by decide) (by decide) (by decide) (by decide) (by decide)


/-- **C6 (amended)**: on the KeyDB backend a policy record, once stored, is
locked; a later `SetPolicy` for the repository fails with Conflict and
leaves the stored record unchanged exactly when the new (limit, duration)
pair differs from the stored one *with the duration truncated to whole
seconds*; otherwise it succeeds, returns the input policy locked, and the
stored record (and hence any later `GetPolicy`) is unchanged. A successful
`SetPolicy` always stores the locked record with the truncated duration. -/
theorem c6_policy_lock_second_granularity (s : KeydbStore) (rec : RetentionRecord)
    (pol : RetentionPolicy) (now : Nat) (hrepo : pol.repo ≠ "")
    (hlim : ¬pol.hotCommitLimit < 0) (hdur : ¬pol.hotDuration < 0) :
    ((s.setPolicy pol now).1.2 = none →
      alGet (s.setPolicy pol now).2.policies pol.repo =
        some ⟨pol.hotCommitLimit, pol.hotDuration.tdiv 1000000000, true⟩) ∧
    (alGet s.policies pol.repo = some rec → rec.locked = true →
      if rec.hotCommitLimit ≠ pol.hotCommitLimit ∨
          rec.hotDurationSeconds ≠ pol.hotDuration.tdiv 1000000000 then
        s.setPolicy pol now = ((rec.toPolicy pol.repo, some (.conflict "policy" pol.repo)), s)
      else
        (s.setPolicy pol now).1 = ({ pol with locked := true }, none) ∧
        alGet (s.setPolicy pol now).2.policies pol.repo = some rec) := by
  constructor
  · intro hok
    unfold KeydbStore.setPolicy at hok ⊢
    rw [if_neg hrepo, if_neg hlim, if_neg hdur] at hok ⊢
    dsimp only at hok ⊢
    cases heq : alGet s.policies pol.repo with
    | none =>
      unfold KeydbStore.setPolicyWrite
      dsimp only
      rw [(enforceRetention_frame _ _ _ _).2.2.2.2.2.2.1]
      exact alGet_alSet_self ..
    | some r =>
      rw [heq] at hok
      dsimp only at hok ⊢
      by_cases hcond : r.locked = true ∧ (r.hotCommitLimit ≠ pol.hotCommitLimit ∨
          r.hotDurationSeconds ≠ pol.hotDuration.tdiv 1000000000)
      · rw [if_pos hcond] at hok
        exact absurd hok (by simp)
      · rw [if_neg hcond]
        unfold KeydbStore.setPolicyWrite
        dsimp only
        rw [(enforceRetention_frame _ _ _ _).2.2.2.2.2.2.1]
        exact alGet_alSet_self ..
  · intro hrec hlock
    unfold KeydbStore.setPolicy
    rw [if_neg hrepo, if_neg hlim, if_neg hdur]
    dsimp only
    rw [hrec]
    dsimp only
    by_cases hcond : rec.hotCommitLimit ≠ pol.hotCommitLimit ∨
        rec.hotDurationSeconds ≠ pol.hotDuration.tdiv 1000000000
    · rw [if_pos hcond, if_pos ⟨hlock, hcond⟩]
    · rw [if_neg hcond, if_neg (fun hx => hcond hx.2)]
      push_neg at hcond
      obtain ⟨hc1, hc2⟩ := hcond
      have hrec_eq : rec = ⟨pol.hotCommitLimit, pol.hotDuration.tdiv 1000000000, true⟩ := by
        cases rec
        simp_all
      unfold KeydbStore.setPolicyWrite
      dsimp only
      refine ⟨rfl, ?_⟩
      rw [(enforceRetention_frame _ _ _ _).2.2.2.2.2.2.1, hrec_eq]
      exact alGet_alSet_self ..

/-- **C6 witness**: a stored locked record `(limit 1, 1s)` and a later
`SetPolicy` with limit 2 conflicts and leaves the state untouched. -/
theorem c6_witness :
    (let s1 := ((KeydbStore.new none ⟨0, 0⟩).setPolicy ⟨"r", 1, 1500000000, false⟩ 0).2
     s1.setPolicy ⟨"r", 2, 1500000000, false⟩ 1 =
       ((RetentionRecord.toPolicy ⟨1, 1, true⟩ "r", some (.conflict "policy" "r")), s1)) := by
  have h := (c6_policy_lock_second_granularity
    ((KeydbStore.new none ⟨0, 0⟩).setPolicy ⟨"r", 1, 1500000000, false⟩ 0).2
    ⟨1, 1, true⟩ ⟨"r", 2, 1500000000, false⟩ 1 (by decide) (by decide) (by decide)).2
    (by decide) (by decide)
  rw [if_pos (by decide)] at h
  exact h

/-- **C6 counterexample**: the claim as stated is false on the KeyDB
backend: after `setPolicy("r", limit 1, 1500ms)` succeeds, a later
`setPolicy("r", limit 1, 1900ms)` has a *different* (limit, duration) pair
yet succeeds (no Conflict), because the stored record only keeps whole
seconds (1500ms and 1900ms both truncate to 1s). -/
theorem c6_counterexample :
    (let w1 := (KeydbStore.new none ⟨0, 0⟩).setPolicy ⟨"r", 1, 1500000000, false⟩ 0
     let w2 := w1.2.setPolicy ⟨"r", 1, 1900000000, false⟩ 1
     w1.1.2 = none ∧ (1500000000 : Int) ≠ 1900000000 ∧ w2.1.2 = none ∧
       w2.1.1 = ⟨"r", 1, 1900000000, true⟩) := by
  refine ⟨?_, ?_, ?_, ?_⟩ <;> decide

/-- **C7 (amended)**: the hash returned by a successful write is exactly
`computeCommitHash` of (repository, effective branch, content, resolved
parent = prior branch head, timestamp), which is the hex SHA-256 of the
newline-joined tuple (repo, branch, parent, content, RFC3339Nano time); it
is a deterministic function of those five inputs. (Distinct input tuples do
*not* always give distinct hashes — see the counterexample.) -/
theorem c7_commit_hash_formula (s : KeydbStore) (req : BlobWriteRequest) (now : Nat)
    (r : BlobCommitResult) (s' : KeydbStore) (h : s.putBlobAndCommit req now = (.ok r, s')) :
    r.commitHash =
      computeCommitHash req.name r.branch req.content (s.branchHead req.name r.branch) now ∧
    (∀ repo branch content parent ts, computeCommitHash repo branch content parent ts =
      sha256hex (String.intercalate "\n" [repo, branch, parent, content,
        formatRFC3339Nano ts])) := by
  obtain ⟨s1, htx, _⟩ := kvPut_ok_inv s req now r s' h
  obtain ⟨pc, hr, _, _⟩ := kvPutTxn_ok_inv s req _ now r s1 htx
  constructor
  · rw [hr]
  · intro repo branch content parent ts
    rfl

/-- **C7 witness**: a concrete successful write returning exactly the
commit hash of the five-tuple. -/
theorem c7_witness :
    (((KeydbStore.new none ⟨0, 0⟩).putBlobAndCommit ⟨"r", "", "x", "A", "a1"⟩ 5).1.toOption.getD
        default).commitHash =
      computeCommitHash "r" "main" "x" "" 5 := by
  have h1 : ((KeydbStore.new none ⟨0, 0⟩).putBlobAndCommit ⟨"r", "", "x", "A", "a1"⟩ 5).1 =
      .ok ⟨computeCommitHash "r" "main" "x" "" 5, "main", 5, computeDiff "" "x"⟩ := by decide
  have h : (KeydbStore.new none ⟨0, 0⟩).putBlobAndCommit ⟨"r", "", "x", "A", "a1"⟩ 5 =
      (.ok ⟨computeCommitHash "r" "main" "x" "" 5, "main", 5, computeDiff "" "x"⟩,
       ((KeydbStore.new none ⟨0, 0⟩).putBlobAndCommit ⟨"r", "", "x", "A", "a1"⟩ 5).2) := by
    rw [← h1]
  have := (c7_commit_hash_formula _ _ 5 _ _ h).1
  rw [h1]
  exact this

/-- **C7 counterexample**: two writes that differ in their input tuples
(repository `"a\nb"`, branch `"c"` versus repository `"a"`, branch
`"b\nc"`) produce the *same* commit hash, because the tuple is joined with
newlines before hashing and field boundaries are lost. -/
theorem c7_counterexample :
    (let w1 := (KeydbStore.new none ⟨0, 0⟩).putBlobAndCommit ⟨"a\nb", "c", "x", "A", "i"⟩ 5
     let w2 := (KeydbStore.new none ⟨0, 0⟩).putBlobAndCommit ⟨"a", "b\nc", "x", "A", "i"⟩ 5
     w1.1 = .ok ⟨computeCommitHash "a\nb" "c" "x" "" 5, "c", 5, computeDiff "" "x"⟩ ∧
     w2.1 = .ok ⟨computeCommitHash "a" "b\nc" "x" "" 5, "b\nc", 5, computeDiff "" "x"⟩ ∧
     computeCommitHash "a\nb" "c" "x" "" 5 = computeCommitHash "a" "b\nc" "x" "" 5 ∧
     (("a\nb", "c") : String × String) ≠ ("a", "b\nc")) := by
  refine ⟨by decide, by decide, ?_, by decide⟩
  show sha256hex _ = sha256hex _
  have hpl : String.intercalate "\n" ["a\nb", "c", "", "x", formatRFC3339Nano 5] =
      String.intercalate "\n" ["a", "b\nc", "", "x", formatRFC3339Nano 5] := by decide
  rw [hpl]


theorem getCommit_congr (s s' : KeydbStore) (repo hash : String)
    (h1 : alGet s'.commits (repo, hash) = alGet s.commits (repo, hash))
    (h2 : alGet s'.contents (repo, hash) = alGet s.contents (repo, hash))
    (h3 : s'.archive = s.archive) : s'.getCommit repo hash = s.getCommit repo hash := by
  unfold KeydbStore.getCommit
  rw [h1, h2, h3]

theorem readable_applyOp (s : KeydbStore) (repo hash content : String) (op : StoreOp) (now : Nat)
    (h : CommitReadable s repo hash content) :
    CommitReadable (s.applyOp op now) repo hash content := by
  obtain ⟨c, hc, hg⟩ := h
  cases op with
  | putBlobAndCommit req =>
    show CommitReadable (s.putBlobAndCommit req now).2 repo hash content
    rcases hput : s.putBlobAndCommit req now with ⟨res, s2⟩
    cases res with
    | error e =>
      have hst : s2 = s := by
        have h0 := kvPut_error_state_main s req now e (by rw [hput])
        rwa [hput] at h0
      dsimp only
      rw [hst]
      exact ⟨c, hc, hg⟩
    | ok r =>
      obtain ⟨s1, htx, hs2⟩ := kvPut_ok_inv s req now r s2 hput
      obtain ⟨pc, hr, hex, hs1⟩ := kvPutTxn_ok_inv s req _ now r s1 htx
      have hkey : (repo, hash) ≠ (req.name, r.commitHash) := by
        intro hk
        rw [hk] at hc
        rw [hc] at hex
        cases hex
      have hro : CommitReadable s1 repo hash content := by
        refine ⟨c, ?_, ?_⟩
        · rw [hs1]
          dsimp only
          rw [alGet_alSet_ne _ _ _ _ hkey]
          exact hc
        · have e1 : alGet s1.commits (repo, hash) = alGet s.commits (repo, hash) := by
            rw [hs1]
            dsimp only
            rw [alGet_alSet_ne _ _ _ _ hkey]
          have e2 : alGet s1.contents (repo, hash) = alGet s.contents (repo, hash) := by
            rw [hs1]
            dsimp only
            rw [alGet_alSet_ne _ _ _ _ hkey]
          have e3 : s1.archive = s.archive := by rw [hs1]
          rw [getCommit_congr s s1 repo hash e1 e2 e3]
          exact hg
      dsimp only
      rw [hs2]
      exact enforceRetention_readable s1 req.name _ now repo hash content hro
  | listCommits opts => exact ⟨c, hc, hg⟩
  | getCommit r h' => exact ⟨c, hc, hg⟩
  | upsertBranch req =>
    show CommitReadable (s.upsertBranch req now).2 repo hash content
    obtain ⟨u1, u2, u3, u4, u5, u6⟩ := kvUpsert_state s req now
    refine ⟨c, by rw [u1]; exact hc, ?_⟩
    rw [getCommit_congr s (s.upsertBranch req now).2 repo hash (by rw [u1]) (by rw [u2]) u6]
    exact hg
  | listBranches r => exact ⟨c, hc, hg⟩
  | getBranch r n => exact ⟨c, hc, hg⟩
  | createTag req =>
    show CommitReadable (s.createTag req now).2 repo hash content
    obtain ⟨u1, u2, u3, u4, u5, u6⟩ := kvCreateTag_state s req now
    refine ⟨c, by rw [u1]; exact hc, ?_⟩
    rw [getCommit_congr s (s.createTag req now).2 repo hash (by rw [u1]) (by rw [u2]) u6]
    exact hg
  | listTags r => exact ⟨c, hc, hg⟩
  | getTag r n => exact ⟨c, hc, hg⟩
  | setPolicy policy =>
    show CommitReadable (s.setPolicy policy now).2 repo hash content
    rcases kvSetPolicy_state s policy now with hid | ⟨ps, pol, hst⟩
    · rw [hid]
      exact ⟨c, hc, hg⟩
    · rw [hst]
      apply enforceRetention_readable
      exact ⟨c, hc, by
        rw [getCommit_congr s ({ s with policies := ps } : KeydbStore) repo hash rfl rfl rfl]
        exact hg⟩
  | getPolicy r => exact ⟨c, hc, hg⟩

/-- **C4**: (i) after a successful write the created commit is readable with
the submitted content; (ii) readability with that exact content is
preserved by every later store operation (in particular across archival,
when the content is served from the archive); (iii) with the metadata
present, `GetCommit` returns a NotFound error exactly when the content is
in neither hot storage nor the archive. -/
theorem c4_get_commit_returns_original_content :
    (∀ (s : KeydbStore) (req : BlobWriteRequest) (now : Nat) (r : BlobCommitResult)
      (s' : KeydbStore), s.putBlobAndCommit req now = (.ok r, s') →
        CommitReadable s' req.name r.commitHash req.content) ∧
    (∀ (s : KeydbStore) (repo hash content : String) (op : StoreOp) (now : Nat),
      CommitReadable s repo hash content →
        CommitReadable (s.applyOp op now) repo hash content) ∧
    (∀ (s : KeydbStore) (repo hash : String) (c : Commit),
      alGet s.commits (repo, hash) = some c →
        ((∃ res key, s.getCommit repo hash = .error (.notFound res key)) ↔
          (alGet s.contents (repo, hash) = none ∧ s.archiveContent repo hash = none))) := by
  refine ⟨?_, readable_applyOp, ?_⟩
  · intro s req now r s' h
    obtain ⟨s1, htx, hs'⟩ := kvPut_ok_inv s req now r s' h
    obtain ⟨pc, hr, hex, hs1⟩ := kvPutTxn_ok_inv s req _ now r s1 htx
    subst hs'
    apply enforceRetention_readable
    have hc1 : alGet s1.commits (req.name, r.commitHash) =
        some ⟨req.name, if req.branch = "" then defaultBranch else req.branch, r.commitHash,
          s.branchHead req.name (if req.branch = "" then defaultBranch else req.branch),
          req.authorName, req.authorID, "auto commit", computeContentHash req.content, now,
          false⟩ := by
      rw [hs1]
      exact alGet_alSet_self ..
    have hct : alGet s1.contents (req.name, r.commitHash) = some req.content := by
      rw [hs1]
      exact alGet_alSet_self ..
    refine ⟨_, hc1, ?_⟩
    unfold KeydbStore.getCommit
    rw [hc1]
    dsimp only
    rw [hct]
  · intro s repo hash c hc
    unfold KeydbStore.getCommit KeydbStore.archiveContent
    rw [hc]
    dsimp only
    cases hct : alGet s.contents (repo, hash) with
    | some content => simp
    | none =>
      dsimp only
      cases har : s.archive with
      | none => simp
      | some ar =>
        dsimp only
        unfold MemoryArchive.fetch
        cases hd : alGet ar.data repo with
        | none => exact ⟨fun _ => ⟨rfl, rfl⟩, fun _ => ⟨"archive", hash, rfl⟩⟩
        | some rd =>
          dsimp only
          cases hh : alGet rd hash with
          | none => exact ⟨fun _ => ⟨rfl, rfl⟩, fun _ => ⟨"archive", hash, rfl⟩⟩
          | some payload => simp [Except.map]

/-- **C4 witness**: one concrete write, then a concrete later operation
(a tag creation); `GetCommit` still returns the submitted content. -/
theorem c4_witness :
    CommitReadable
      (((KeydbStore.new none ⟨0, 0⟩).putBlobAndCommit ⟨"r", "", "x", "A", "a1"⟩ 5).2.applyOp
        (.createTag ⟨"r", "v1", computeCommitHash "r" "main" "x" "" 5, ""⟩) 6)
      "r" (computeCommitHash "r" "main" "x" "" 5) "x" := by
  apply c4_get_commit_returns_original_content.2.1
  apply c4_get_commit_returns_original_content.1
    (KeydbStore.new none ⟨0, 0⟩) ⟨"r", "", "x", "A", "a1"⟩ 5
    ⟨computeCommitHash "r" "main" "x" "" 5, "main", 5, computeDiff "" "x"⟩
  have h1 : ((KeydbStore.new none ⟨0, 0⟩).putBlobAndCommit ⟨"r", "", "x", "A", "a1"⟩ 5).1 =
      .ok ⟨computeCommitHash "r" "main" "x" "" 5, "main", 5, computeDiff "" "x"⟩ := by decide
  rw [← h1]


/-- Looking up the key just consed onto an association list finds its value. -/
theorem alGet_cons_self {κ α : Type} [DecidableEq κ] {k : κ} {v : α} {rest : List (κ × α)} :
    alGet ((k, v) :: rest) k = some v := by
  simp [alGet]

/-- Lookup of a different key skips the head binding. -/
theorem alGet_cons_ne {κ α : Type} [DecidableEq κ] {k k' : κ} {v : α} {rest : List (κ × α)}
    (h : k' ≠ k) : alGet ((k, v) :: rest) k' = alGet rest k' := by
  simp [alGet, Ne.symm h]

/-- Lookup in the empty association list. -/
theorem alGet_nil {κ α : Type} [DecidableEq κ] {k : κ} : alGet ([] : List (κ × α)) k = none :=
  rfl

/-- `alSet` overwrites the head binding when the keys agree. -/
theorem alSet_cons_self {κ α : Type} [DecidableEq κ] {k : κ} {v v' : α} {rest : List (κ × α)} :
    alSet ((k, v') :: rest) k v = (k, v) :: rest := by
  simp [alSet]

/-- `alSet` with a different key keeps the head binding. -/
theorem alSet_cons_ne {κ α : Type} [DecidableEq κ] {k k' : κ} {v v' : α} {rest : List (κ × α)}
    (h : k' ≠ k) : alSet ((k, v) :: rest) k' v' = (k, v) :: alSet rest k' v' := by
  simp [alSet, Ne.symm h]

/-- `alDel` drops the head binding when the keys agree. -/
theorem alDel_cons_self {κ α : Type} [DecidableEq κ] {k : κ} {v : α} {rest : List (κ × α)} :
    alDel ((k, v) :: rest) k = alDel rest k := by
  simp [alDel]

/-- `alDel` with a different key keeps the head binding. -/
theorem alDel_cons_ne {κ α : Type} [DecidableEq κ] {k k' : κ} {v : α} {rest : List (κ × α)}
    (h : k' ≠ k) : alDel ((k, v) :: rest) k' = (k, v) :: alDel rest k' := by
  simp [alDel, Ne.symm h]

/-- C5 probe step 1: `SetPolicy {repo, 1, 0}` on the fresh store records the
locked one-commit policy and changes nothing else. -/
theorem c5_step_hA (defaults : RetentionDefaults) (repo : String) (t0 : Nat)
    (hrepo : repo ≠ "") :
    ((KeydbStore.new (some MemoryArchive.empty) defaults).setPolicy ⟨repo, 1, 0, false⟩ t0).2 =
      ⟨[], [], [], [], [], [], [], [], [(repo, ⟨1, 0, true⟩)],
       ⟨"", defaults.hotCommitLimit, defaults.hotDuration, false⟩,
       some MemoryArchive.empty⟩ := by
  unfold KeydbStore.setPolicy KeydbStore.setPolicyWrite KeydbStore.enforceRetention
  dsimp only
  rw [if_neg hrepo]
  rfl

theorem c5_step_hpol (defaults : RetentionDefaults) (repo : String)
    (commits : List ((String × String) × Commit))
    (contents : List ((String × String) × String))
    (branches : List ((String × String) × Branch))
    (branchSets : List (String × List String))
    (zsets : List (String × List (String × Nat)))
    (authors : List ((String × String) × String))
    (hrepo : repo ≠ "") :
    (KeydbStore.getPolicyOrDefault
      ⟨commits, contents, branches, branchSets, [], [], zsets, authors,
       [(repo, ⟨1, 0, true⟩)],
       ⟨"", defaults.hotCommitLimit, defaults.hotDuration, false⟩,
       some MemoryArchive.empty⟩ repo) = ⟨repo, 1, 0, true⟩ := by
  unfold KeydbStore.getPolicyOrDefault KeydbStore.getPolicy
  dsimp only
  rw [if_neg hrepo]
  rw [alGet_cons_self]
  rfl

theorem c5_step_htx1 (defaults : RetentionDefaults) (repo b content1 an aid eb : String)
    (t1 : Nat) :
    (KeydbStore.putTxn
      ⟨[], [], [], [], [], [], [], [], [(repo, ⟨1, 0, true⟩)],
       ⟨"", defaults.hotCommitLimit, defaults.hotDuration, false⟩,
       some MemoryArchive.empty⟩ ⟨repo, b, content1, an, aid⟩ eb t1) =
      .ok (⟨computeCommitHash repo eb content1 "" t1, eb, t1, computeDiff "" content1⟩,
        ⟨[((repo, computeCommitHash repo eb content1 "" t1),
           ⟨repo, eb, computeCommitHash repo eb content1 "" t1, "", an, aid, "auto commit",
            computeContentHash content1, t1, false⟩)],
         [((repo, computeCommitHash repo eb content1 "" t1), content1)],
         [((repo, eb), ⟨repo, eb, computeCommitHash repo eb content1 "" t1, t1⟩)],
         [(repo, [eb])],
         [], [],
         [(repo, [(computeCommitHash repo eb content1 "" t1, t1)])],
         [((repo, aid), an)],
         [(repo, ⟨1, 0, true⟩)],
         ⟨"", defaults.hotCommitLimit, defaults.hotDuration, false⟩,
         some MemoryArchive.empty⟩) := rfl

theorem c5_step_hretB (defaults : RetentionDefaults) (repo an aid eb h1 ch1 content1 : String)
    (t1 : Nat) (br1 : Branch) :
    (KeydbStore.enforceRetention
      ⟨[((repo, h1), ⟨repo, eb, h1, "", an, aid, "auto commit", ch1, t1, false⟩)],
       [((repo, h1), content1)], [((repo, eb), br1)], [(repo, [eb])],
       [], [], [(repo, [(h1, t1)])], [((repo, aid), an)], [(repo, ⟨1, 0, true⟩)],
       ⟨"", defaults.hotCommitLimit, defaults.hotDuration, false⟩,
       some MemoryArchive.empty⟩ repo ⟨repo, 1, 0, true⟩ t1) =
      ⟨[((repo, h1), ⟨repo, eb, h1, "", an, aid, "auto commit", ch1, t1, false⟩)],
       [((repo, h1), content1)], [((repo, eb), br1)], [(repo, [eb])],
       [], [], [(repo, [(h1, t1)])], [((repo, aid), an)], [(repo, ⟨1, 0, true⟩)],
       ⟨"", defaults.hotCommitLimit, defaults.hotDuration, false⟩,
       some MemoryArchive.empty⟩ := by
  unfold KeydbStore.enforceRetention
  dsimp only
  rw [if_neg (by decide : ¬((1 : Int) ≤ 0 ∧ (0 : Int) ≤ 0))]
  rw [alGet_cons_self]
  simp only [Option.getD_some, zrangeAll, List.foldl, insertSorted, List.map,
    List.filterMap, alGet_cons_self, Option.map_some]

theorem c5_step_htx2 (defaults : RetentionDefaults)
    (repo b content1 content2 an aid eb h1 h2 : String) (t1 t2 : Nat)
    (hne1 : h1 ≠ "")
    (hne : h2 ≠ h1)
    (hh2 : computeCommitHash repo eb content2 h1 t2 = h2) :
    (KeydbStore.putTxn
      ⟨[((repo, h1), ⟨repo, eb, h1, "", an, aid, "auto commit",
          computeContentHash content1, t1, false⟩)],
       [((repo, h1), content1)], [((repo, eb), ⟨repo, eb, h1, t1⟩)], [(repo, [eb])],
       [], [], [(repo, [(h1, t1)])], [((repo, aid), an)], [(repo, ⟨1, 0, true⟩)],
       ⟨"", defaults.hotCommitLimit, defaults.hotDuration, false⟩,
       some MemoryArchive.empty⟩ ⟨repo, b, content2, an, aid⟩ eb t2) =
      .ok (⟨h2, eb, t2, computeDiff content1 content2⟩,
        ⟨[((repo, h1), ⟨repo, eb, h1, "", an, aid, "auto commit",
            computeContentHash content1, t1, false⟩),
          ((repo, h2), ⟨repo, eb, h2, h1, an, aid, "auto commit",
            computeContentHash content2, t2, false⟩)],
         [((repo, h1), content1), ((repo, h2), content2)],
         [((repo, eb), ⟨repo, eb, h2, t2⟩)], [(repo, [eb])],
         [], [], [(repo, [(h1, t1), (h2, t2)])], [((repo, aid), an)],
         [(repo, ⟨1, 0, true⟩)],
         ⟨"", defaults.hotCommitLimit, defaults.hotDuration, false⟩,
         some MemoryArchive.empty⟩) := by
  have hpairne : ((repo, h2) : String × String) ≠ (repo, h1) :=
    fun hp => hne (congrArg Prod.snd hp)
  unfold KeydbStore.putTxn KeydbStore.branchHead
  dsimp only
  rw [alGet_cons_self]
  dsimp only
  rw [if_neg hne1]
  rw [alGet_cons_self]
  dsimp only
  rw [alGet_cons_self]
  dsimp only
  rw [bne_self_eq_false]
  rw [hh2]
  rw [alGet_cons_ne hpairne, alGet_nil]
  simp only [Bool.false_eq_true, if_false, Option.isSome_none,
    alGet_cons_self, Option.getD_some, alSet_cons_self, alSet_cons_ne hpairne,
    alSet_cons_ne hne, zsetAdd, setAdd, List.contains_cons, beq_self_eq_true,
    List.elem_nil, Bool.or_false, Bool.true_or, List.contains_nil, if_true]
  rfl

theorem alSet_nil {κ α : Type} [DecidableEq κ] {k : κ} {v : α} :
    alSet ([] : List (κ × α)) k v = [(k, v)] := rfl

theorem alDel_nil {κ α : Type} [DecidableEq κ] {k : κ} :
    alDel ([] : List (κ × α)) k = [] := rfl

theorem c5_step_hretC (defaults : RetentionDefaults)
    (repo content1 content2 an aid eb h1 h2 : String) (t1 t2 : Nat)
    (ht : t1 < t2) (hne : h2 ≠ h1) :
    (KeydbStore.enforceRetention
      ⟨[((repo, h1), ⟨repo, eb, h1, "", an, aid, "auto commit",
          computeContentHash content1, t1, false⟩),
        ((repo, h2), ⟨repo, eb, h2, h1, an, aid, "auto commit",
          computeContentHash content2, t2, false⟩)],
       [((repo, h1), content1), ((repo, h2), content2)],
       [((repo, eb), ⟨repo, eb, h2, t2⟩)], [(repo, [eb])],
       [], [], [(repo, [(h1, t1), (h2, t2)])], [((repo, aid), an)],
       [(repo, ⟨1, 0, true⟩)],
       ⟨"", defaults.hotCommitLimit, defaults.hotDuration, false⟩,
       some MemoryArchive.empty⟩ repo ⟨repo, 1, 0, true⟩ t2) =
      ⟨[((repo, h1), ⟨repo, eb, h1, "", an, aid, "auto commit",
          computeContentHash content1, t1, true⟩),
        ((repo, h2), ⟨repo, eb, h2, h1, an, aid, "auto commit",
          computeContentHash content2, t2, false⟩)],
       [((repo, h2), content2)],
       [((repo, eb), ⟨repo, eb, h2, t2⟩)], [(repo, [eb])],
       [], [], [(repo, [(h1, t1), (h2, t2)])], [((repo, aid), an)],
       [(repo, ⟨1, 0, true⟩)],
       ⟨"", defaults.hotCommitLimit, defaults.hotDuration, false⟩,
       some ⟨[(repo, [(h1, content1)])]⟩⟩ := by
  have hpairne : ((repo, h2) : String × String) ≠ (repo, h1) :=
    fun hp => hne (congrArg Prod.snd hp)
  have hpairne2 : ((repo, h1) : String × String) ≠ (repo, h2) :=
    fun hp => hne (congrArg Prod.snd hp).symm
  have hblt : Nat.blt t2 t1 = false := by
    rw [← Bool.not_eq_true, Nat.blt_eq]
    omega
  have hbeq : Nat.beq t2 t1 = false := by
    rw [← Bool.not_eq_true, Nat.beq_eq]
    omega
  unfold KeydbStore.enforceRetention
  dsimp only
  rw [if_neg (by decide : ¬((1 : Int) ≤ 0 ∧ (0 : Int) ≤ 0))]
  rw [alGet_cons_self]
  simp only [Option.getD_some, Option.getD_none, zrangeAll, List.foldl, insertSorted, zscoreLeB, hblt, hbeq,
    Bool.false_or, Bool.false_and, Bool.or_false, Bool.and_false, Bool.false_eq_true,
    if_false, List.map, List.filterMap, alGet_cons_self, alGet_cons_ne hpairne,
    Option.map_some, List.filter, Bool.not_false, List.contains_nil, Bool.and_true,
    Bool.true_and, Bool.and_self, List.take, KeydbStore.archiveCommit, KeydbStore.getCommit,
    MemoryArchive.store, MemoryArchive.empty, alSet_cons_self, alSet_nil, alGet_nil,
    alDel_cons_self, alDel_cons_ne hpairne2, alDel_nil]

/-- C5: with a configured archive and retention policy `{hotCommitLimit: 1}`
set on the repository, after two sequential successful writes to the same
branch the older commit is archived: its `archived` flag is true, its content
is deleted from hot storage and held by the archive, `GetCommit` on its hash
still returns the original content, and the newer commit stays unarchived
with its content in hot storage. -/
theorem c5_retention_archives_older_commit
    (defaults : RetentionDefaults) (repo b content1 content2 an aid eb h1 h2 : String)
    (t0 t1 t2 : Nat) (sA : KeydbStore)
    (w1 w2 : Except StoreError BlobCommitResult × KeydbStore)
    (hrepo : repo ≠ "") (hc1 : content1 ≠ "") (hc2 : content2 ≠ "")
    (han : an ≠ "") (haid : aid ≠ "")
    (ht : t1 < t2)
    (heb : eb = if b = "" then defaultBranch else b)
    (hh1 : computeCommitHash repo eb content1 "" t1 = h1)
    (hh2 : computeCommitHash repo eb content2 h1 t2 = h2)
    (hne1 : h1 ≠ "") (hne : h2 ≠ h1)
    (hsA : sA = ((KeydbStore.new (some MemoryArchive.empty) defaults).setPolicy
      ⟨repo, 1, 0, false⟩ t0).2)
    (hw1 : w1 = sA.putBlobAndCommit ⟨repo, b, content1, an, aid⟩ t1)
    (hw2 : w2 = w1.2.putBlobAndCommit ⟨repo, b, content2, an, aid⟩ t2) :
    w1.1 = .ok ⟨h1, eb, t1, computeDiff "" content1⟩ ∧
    w2.1 = .ok ⟨h2, eb, t2, computeDiff content1 content2⟩ ∧
    alGet w2.2.commits (repo, h1) = some ⟨repo, eb, h1, "", an, aid, "auto commit",
      computeContentHash content1, t1, true⟩ ∧
    alGet w2.2.contents (repo, h1) = none ∧
    w2.2.getCommit repo h1 = .ok (⟨repo, eb, h1, "", an, aid, "auto commit",
      computeContentHash content1, t1, true⟩, content1) ∧
    alGet w2.2.commits (repo, h2) = some ⟨repo, eb, h2, h1, an, aid, "auto commit",
      computeContentHash content2, t2, false⟩ ∧
    alGet w2.2.contents (repo, h2) = some content2 := by
  have hpairne : ((repo, h2) : String × String) ≠ (repo, h1) :=
    fun hp => hne (congrArg Prod.snd hp)
  have hpairne2 : ((repo, h1) : String × String) ≠ (repo, h2) :=
    fun hp => hne (congrArg Prod.snd hp).symm
  have hauthor : ¬(an = "" ∨ aid = "") := by rintro (h | h); exacts [han h, haid h]
  subst hsA hw1 hw2
  rw [c5_step_hA defaults repo t0 hrepo]
  have hB : (KeydbStore.putBlobAndCommit
      ⟨[], [], [], [], [], [], [], [], [(repo, ⟨1, 0, true⟩)],
       ⟨"", defaults.hotCommitLimit, defaults.hotDuration, false⟩,
       some MemoryArchive.empty⟩ ⟨repo, b, content1, an, aid⟩ t1) =
      (.ok ⟨h1, eb, t1, computeDiff "" content1⟩,
       ⟨[((repo, h1), ⟨repo, eb, h1, "", an, aid, "auto commit",
           computeContentHash content1, t1, false⟩)],
        [((repo, h1), content1)], [((repo, eb), ⟨repo, eb, h1, t1⟩)], [(repo, [eb])],
        [], [], [(repo, [(h1, t1)])], [((repo, aid), an)], [(repo, ⟨1, 0, true⟩)],
        ⟨"", defaults.hotCommitLimit, defaults.hotDuration, false⟩,
        some MemoryArchive.empty⟩) := by
    unfold KeydbStore.putBlobAndCommit
    dsimp only
    rw [if_neg hrepo, if_neg hc1, if_neg hauthor, ← heb]
    rw [c5_step_hpol defaults repo [] [] [] [] [] [] hrepo]
    rw [c5_step_htx1 defaults repo b content1 an aid eb t1]
    rw [hh1]
    dsimp only
    rw [c5_step_hretB defaults repo an aid eb h1 (computeContentHash content1) content1 t1
      ⟨repo, eb, h1, t1⟩]
  rw [hB]
  dsimp only
  have hC : (KeydbStore.putBlobAndCommit
      ⟨[((repo, h1), ⟨repo, eb, h1, "", an, aid, "auto commit",
          computeContentHash content1, t1, false⟩)],
       [((repo, h1), content1)], [((repo, eb), ⟨repo, eb, h1, t1⟩)], [(repo, [eb])],
       [], [], [(repo, [(h1, t1)])], [((repo, aid), an)], [(repo, ⟨1, 0, true⟩)],
       ⟨"", defaults.hotCommitLimit, defaults.hotDuration, false⟩,
       some MemoryArchive.empty⟩ ⟨repo, b, content2, an, aid⟩ t2) =
      (.ok ⟨h2, eb, t2, computeDiff content1 content2⟩,
       ⟨[((repo, h1), ⟨repo, eb, h1, "", an, aid, "auto commit",
           computeContentHash content1, t1, true⟩),
         ((repo, h2), ⟨repo, eb, h2, h1, an, aid, "auto commit",
           computeContentHash content2, t2, false⟩)],
        [((repo, h2), content2)],
        [((repo, eb), ⟨repo, eb, h2, t2⟩)], [(repo, [eb])],
        [], [], [(repo, [(h1, t1), (h2, t2)])], [((repo, aid), an)],
        [(repo, ⟨1, 0, true⟩)],
        ⟨"", defaults.hotCommitLimit, defaults.hotDuration, false⟩,
        some ⟨[(repo, [(h1, content1)])]⟩⟩) := by
    unfold KeydbStore.putBlobAndCommit
    dsimp only
    rw [if_neg hrepo, if_neg hc2, if_neg hauthor, ← heb]
    rw [c5_step_hpol defaults repo _ _ _ _ _ _ hrepo]
    rw [c5_step_htx2 defaults repo b content1 content2 an aid eb h1 h2 t1 t2 hne1 hne hh2]
    dsimp only
    rw [c5_step_hretC defaults repo content1 content2 an aid eb h1 h2 t1 t2 ht hne]
  rw [hC]
  dsimp only
  refine ⟨rfl, rfl, alGet_cons_self, ?_, ?_, ?_, alGet_cons_self⟩
  · rw [alGet_cons_ne hpairne2]
    rfl
  · simp only [KeydbStore.getCommit, MemoryArchive.fetch, alGet_cons_self,
      alGet_cons_ne hpairne2, alGet_nil]
    rfl
  · rw [alGet_cons_ne hpairne]
    exact alGet_cons_self


/-- C5 witness: the retention scenario evaluated at a concrete instance
(repository `r`, branch defaulted to `main`, contents `x` then `y`). -/
theorem c5_witness :
    (let sA := ((KeydbStore.new (some MemoryArchive.empty) ⟨0, 0⟩).setPolicy
        ⟨"r", 1, 0, false⟩ 0).2
     let w1 := sA.putBlobAndCommit ⟨"r", "", "x", "A", "a1"⟩ 5
     let w2 := w1.2.putBlobAndCommit ⟨"r", "", "y", "A", "a1"⟩ 7
     let h1 := computeCommitHash "r" "main" "x" "" 5
     let h2 := computeCommitHash "r" "main" "y" h1 7
     w1.1 = .ok ⟨h1, "main", 5, computeDiff "" "x"⟩ ∧
     w2.1 = .ok ⟨h2, "main", 7, computeDiff "x" "y"⟩ ∧
     alGet w2.2.commits ("r", h1) = some ⟨"r", "main", h1, "", "A", "a1", "auto commit",
       computeContentHash "x", 5, true⟩ ∧
     alGet w2.2.contents ("r", h1) = none ∧
     w2.2.getCommit "r" h1 = .ok (⟨"r", "main", h1, "", "A", "a1", "auto commit",
       computeContentHash "x", 5, true⟩, "x") ∧
     alGet w2.2.commits ("r", h2) = some ⟨"r", "main", h2, h1, "A", "a1", "auto commit",
       computeContentHash "y", 7, false⟩ ∧
     alGet w2.2.contents ("r", h2) = some "y") :=
  c5_retention_archives_older_commit ⟨0, 0⟩ "r" "" "x" "y" "A" "a1" "main"
    (computeCommitHash "r" "main" "x" "" 5)
    (computeCommitHash "r" "main" "y" (computeCommitHash "r" "main" "x" "" 5) 7)
    0 5 7 _ _ _
    (by decide) (by decide) (by decide) (by decide) (by decide) (by decide)
    rfl rfl rfl (by decide) (by decide) rfl rfl rfl



/-- C2 (amended): on the empty store, any single `Store` operation whose
required name arguments are non-empty observes identically on the memory
backend and the KeyDB backend: same returned values, same errors. -/
theorem c2_backends_agree_single_op_from_empty
    (ar : Option MemoryArchive) (d : RetentionDefaults) (op : StoreOp) (now : Nat)
    (hok : op.argsOK) :
    (MemoryStore.new ar d).obsOp op now = (KeydbStore.new ar d).obsOp op now := by
  cases op with
  | putBlobAndCommit req =>
    dsimp only [MemoryStore.obsOp, KeydbStore.obsOp]
    unfold MemoryStore.putBlobAndCommit KeydbStore.putBlobAndCommit
    by_cases h1 : req.name = ""
    · rw [if_pos h1, if_pos h1]
    · rw [if_neg h1, if_neg h1]
      by_cases h2 : req.content = ""
      · rw [if_pos h2, if_pos h2]
      · rw [if_neg h2, if_neg h2]
        by_cases h3 : req.authorName = "" ∨ req.authorID = ""
        · rw [if_pos h3, if_pos h3]
        · rw [if_neg h3, if_neg h3]
          rfl
  | listCommits opts =>
    dsimp only [MemoryStore.obsOp, KeydbStore.obsOp]
    unfold MemoryStore.listCommits KeydbStore.listCommits
    by_cases h : opts.repo = ""
    · rw [if_pos h]
      rfl
    · rw [if_neg h]
      dsimp only [MemoryStore.new, KeydbStore.new, alGet, zrangeAll, Option.getD,
        List.foldl, List.map]
      simp only [List.reverse_nil, ite_self, List.take_nil, List.filterMap_nil]
  | getCommit repo hash => rfl
  | upsertBranch req =>
    dsimp only [MemoryStore.obsOp, KeydbStore.obsOp]
    unfold MemoryStore.upsertBranch KeydbStore.upsertBranch
    by_cases h : req.repo = "" ∨ req.name = "" ∨ req.commit = ""
    · rw [if_pos h, if_pos h]
    · rw [if_neg h, if_neg h]
      rfl
  | listBranches repo =>
    dsimp only [MemoryStore.obsOp, KeydbStore.obsOp]
    unfold MemoryStore.listBranches KeydbStore.listBranches
    by_cases h : repo = ""
    · rw [if_pos h]
      rfl
    · rw [if_neg h]
      rfl
  | getBranch repo name =>
    dsimp only [MemoryStore.obsOp, KeydbStore.obsOp]
    unfold MemoryStore.getBranch KeydbStore.getBranch
    rw [if_neg (by rintro (h | h); exacts [hok.1 h, hok.2 h])]
    rfl
  | createTag req =>
    dsimp only [MemoryStore.obsOp, KeydbStore.obsOp]
    unfold MemoryStore.createTag KeydbStore.createTag
    by_cases h : req.repo = "" ∨ req.name = "" ∨ req.commit = ""
    · rw [if_pos h, if_pos h]
    · rw [if_neg h, if_neg h]
      rfl
  | listTags repo =>
    dsimp only [MemoryStore.obsOp, KeydbStore.obsOp]
    unfold MemoryStore.listTags KeydbStore.listTags
    by_cases h : repo = ""
    · rw [if_pos h]
      rfl
    · rw [if_neg h]
      rfl
  | getTag repo name =>
    dsimp only [MemoryStore.obsOp, KeydbStore.obsOp]
    unfold MemoryStore.getTag KeydbStore.getTag
    rw [if_neg (by rintro (h | h); exacts [hok.1 h, hok.2 h])]
    rfl
  | setPolicy policy =>
    dsimp only [MemoryStore.obsOp, KeydbStore.obsOp]
    unfold MemoryStore.setPolicy KeydbStore.setPolicy
    by_cases h1 : policy.repo = ""
    · rw [if_pos h1, if_pos h1]
    · rw [if_neg h1, if_neg h1]
      by_cases h2 : policy.hotCommitLimit < 0
      · rw [if_pos h2, if_pos h2]
      · rw [if_neg h2, if_neg h2]
        by_cases h3 : policy.hotDuration < 0
        · rw [if_pos h3, if_pos h3]
        · rw [if_neg h3, if_neg h3]
          rfl
  | getPolicy repo =>
    dsimp only [MemoryStore.obsOp, KeydbStore.obsOp]
    unfold MemoryStore.getPolicy KeydbStore.getPolicy
    by_cases h : repo = ""
    · rw [if_pos h, if_pos h]
    · rw [if_neg h, if_neg h]
      rfl

/-- C2 witness: a concrete single operation observes identically on both
empty backends. -/
theorem c2_witness :
    (MemoryStore.new none ⟨0, 0⟩).obsOp (.getBranch "r" "b") 0 =
      (KeydbStore.new none ⟨0, 0⟩).obsOp (.getBranch "r" "b") 0 :=
  c2_backends_agree_single_op_from_empty none ⟨0, 0⟩ (.getBranch "r" "b") 0 ⟨by decide, by decide⟩

/-- C2 counterexample: the backends' observable behaviour is not identical
on every operation sequence. Already the first operation can diverge:
`GetBranch("", "b")` on the empty store yields a not-found error on the
memory backend but a validation error on the KeyDB backend. -/
theorem c2_counterexample :
    (MemoryStore.new none ⟨0, 0⟩).obsOp (.getBranch "" "b") 0 =
      .branch (.error (.notFound "branch" "b")) ∧
    (KeydbStore.new none ⟨0, 0⟩).obsOp (.getBranch "" "b") 0 =
      .branch (.error (.validation "repo and name are required")) ∧
    (MemoryStore.new none ⟨0, 0⟩).obsOp (.getBranch "" "b") 0 ≠
      (KeydbStore.new none ⟨0, 0⟩).obsOp (.getBranch "" "b") 0 :=
  ⟨rfl, rfl, by decide⟩



/-- Concatenation of the split-lines parts recovers the input characters. -/
theorem splitAfterNlAux_flatten (l : List Char) :
    ∀ cur, (splitAfterNlAux cur l).flatten = cur.reverse ++ l := by
  induction l with
  | nil => intro cur; simp [splitAfterNlAux]
  | cons c rest ih =>
    intro cur
    by_cases hc : c = '\n'
    · rw [splitAfterNlAux, if_pos hc]
      simp [ih]
    · rw [splitAfterNlAux, if_neg hc]
      simp [ih]

/-- `splitAfterNlAux` never returns the empty list of parts. -/
theorem splitAfterNlAux_ne_nil (l : List Char) : ∀ cur, splitAfterNlAux cur l ≠ [] := by
  induction l with
  | nil => intro cur; simp [splitAfterNlAux]
  | cons c rest ih =>
    intro cur
    by_cases hc : c = '\n'
    · rw [splitAfterNlAux, if_pos hc]
      simp
    · rw [splitAfterNlAux, if_neg hc]
      exact ih _

/-- Joining the lines of `splitLines s` gives back `s` with one trailing
newline appended. -/
theorem splitLines_join (s : String) :
    String.mk (((splitLines s).map String.data).flatten) = s ++ "\n" := by
  unfold splitLines
  dsimp only
  cases hp : ((splitAfterNlAux [] s.data).map String.mk).reverse with
  | nil =>
    exact absurd (by simpa using congrArg List.reverse hp) (splitAfterNlAux_ne_nil s.data [])
  | cons lastPart revFront =>
    have hparts : (splitAfterNlAux [] s.data).map String.mk =
        revFront.reverse ++ [lastPart] := by
      have := congrArg List.reverse hp
      simpa using this
    try rw [hp]
    dsimp only
    have hflat : ((splitAfterNlAux [] s.data).map String.mk).map String.data =
        (splitAfterNlAux [] s.data) := by
      rw [List.map_map]
      exact List.map_id'' (fun l => rfl) _
    have h1 : ((revFront.reverse ++ [lastPart]).map String.data).flatten = s.data := by
      rw [← hparts, hflat]
      simpa using splitAfterNlAux_flatten s.data []
    have h2 : ((revFront.reverse ++ [lastPart ++ "\n"]).map String.data).flatten =
        s.data ++ ['\n'] := by
      rw [List.map_append, List.flatten_append] at h1 ⊢
      simp only [List.map_cons, List.map_nil, List.flatten_cons, List.flatten_nil] at h1 ⊢
      rw [← List.append_assoc]
      rw [show (lastPart ++ "\n").data = lastPart.data ++ ['\n'] from rfl]
      rw [← h1]
      simp
    have hrhs : s ++ "\n" = String.mk (s.data ++ ['\n']) := by cases s; rfl
    rw [hrhs]
    exact congrArg String.mk h2

/-- `SplitLines` is injective. -/
theorem splitLines_injective {a b : String} (h : splitLines a = splitLines b) : a = b := by
  have h1 := splitLines_join a
  have h2 := splitLines_join b
  rw [h] at h1
  have h3 : a ++ "\n" = b ++ "\n" := h1.symm.trans h2
  have h4 : a.data ++ "\n".data = b.data ++ "\n".data := by
    have := congrArg String.data h3
    simpa using this
  have h5 : a.data = b.data := List.append_cancel_right h4
  exact congrArg String.mk h5



/-- A successful association-list lookup is a member. -/
theorem alGet_mem {κ α : Type} [DecidableEq κ] {l : List (κ × α)} {k : κ} {v : α}
    (h : alGet l k = some v) : (k, v) ∈ l := by
  induction l with
  | nil => simp [alGet] at h
  | cons p rest ih =>
    obtain ⟨k', v'⟩ := p
    rw [alGet] at h
    by_cases he : k' = k
    · rw [if_pos he] at h
      cases h
      subst he
      exact List.mem_cons_self _ _
    · rw [if_neg he] at h
      exact List.mem_cons_of_mem _ (ih h)

/-- `alSet` only adds the new binding. -/
theorem alSet_subset {κ α : Type} [DecidableEq κ] {l : List (κ × α)} {k : κ} {v : α} :
    ∀ p ∈ alSet l k v, p = (k, v) ∨ p ∈ l := by
  induction l with
  | nil => intro p hp; simp [alSet] at hp; exact Or.inl hp
  | cons q rest ih =>
    obtain ⟨k', v'⟩ := q
    intro p hp
    rw [alSet] at hp
    by_cases he : k' = k
    · rw [if_pos he] at hp
      rcases List.mem_cons.mp hp with h | h
      · exact Or.inl h
      · exact Or.inr (List.mem_cons_of_mem _ h)
    · rw [if_neg he] at hp
      rcases List.mem_cons.mp hp with h | h
      · exact Or.inr (h ▸ List.mem_cons_self _ _)
      · rcases ih p h with h' | h'
        · exact Or.inl h'
        · exact Or.inr (List.mem_cons_of_mem _ h')

/-- Entries of the `b2j` index built by `chainB` point at occurrences of
their key in `b`. -/
theorem b2jBuild_sound (b : List String) :
    ∀ p ∈ b2jBuild b, ∀ j ∈ p.2, b.getD j "" = p.1 := by
  have haux : ∀ (l : List (Nat × String)) (m : List (String × List Nat)),
      (∀ q ∈ l, b.getD q.1 "" = q.2) →
      (∀ p ∈ m, ∀ j ∈ p.2, b.getD j "" = p.1) →
      ∀ p ∈ l.foldl (fun m p => alSet m p.2 ((alGet m p.2).getD [] ++ [p.1])) m,
        ∀ j ∈ p.2, b.getD j "" = p.1 := by
    intro l
    induction l with
    | nil => intro m _ hm; exact hm
    | cons q l ih =>
      intro m hl hm
      rw [List.foldl_cons]
      refine ih _ (fun x hx => hl x (List.mem_cons_of_mem _ hx)) ?_
      intro p hp j hj
      rcases alSet_subset p hp with h | h
      · subst h
        dsimp only at hj
        rcases List.mem_append.mp hj with h' | h'
        · cases hget : alGet m q.2 with
          | none => rw [hget] at h'; simp at h'
          | some js0 =>
            rw [hget] at h'
            exact hm _ (alGet_mem hget) j h'
        · have : j = q.1 := by simpa using h'
          subst this
          exact hl q (List.mem_cons_self _ _)
      · exact hm p h j hj
  intro p hp
  refine haux b.enum [] ?_ (by simp) p hp
  intro q hq
  have := List.mem_enum_iff_get?.mp hq
  rw [List.getD_eq_getElem?_getD]
  rw [show b[q.1]? = some q.2 from by simpa [List.get?_eq_getElem?] using this]
  rfl

/-- Soundness of the pruned index `chainB`. -/
theorem chainB_sound (b : List String) {x : String} {js : List Nat}
    (h : alGet (chainB b) x = some js) : ∀ j ∈ js, b.getD j "" = x := by
  unfold chainB at h
  by_cases hlen : 200 ≤ b.length
  · rw [if_pos hlen] at h
    have hmem := alGet_mem h
    have := List.mem_of_mem_filter hmem
    exact b2jBuild_sound b _ this
  · rw [if_neg hlen] at h
    exact b2jBuild_sound b _ (alGet_mem h)

theorem flmScanJ_sound (a b : List String) (alo ahi blo bhi i : Nat)
    (halo : alo ≤ i) (hahi : i < ahi) :
    ∀ (js : List Nat) (j2len newj2len : List (Nat × Nat)) (best : Nat × Nat × Nat),
    (∀ j ∈ js, b.getD j "" = a.getD i "") →
    J2LProp a b alo blo bhi i j2len →
    J2LProp a b alo blo bhi (i + 1) newj2len →
    BestProp a b alo ahi blo bhi best →
    J2LProp a b alo blo bhi (i + 1) (flmScanJ j2len blo bhi i js newj2len best).1 ∧
    BestProp a b alo ahi blo bhi (flmScanJ j2len blo bhi i js newj2len best).2 := by
  intro js
  induction js with
  | nil =>
    intro j2len newj2len best hjs hj2 hnew hbest
    exact ⟨hnew, hbest⟩
  | cons j js ih =>
    intro j2len newj2len best hjs hj2 hnew hbest
    rw [flmScanJ]
    by_cases h1 : j < blo
    · rw [if_pos h1]
      exact ih _ _ _ (fun x hx => hjs x (List.mem_cons_of_mem _ hx)) hj2 hnew hbest
    · rw [if_neg h1]
      by_cases h2 : bhi ≤ j
      · rw [if_pos h2]
        exact ⟨hnew, hbest⟩
      · rw [if_neg h2]
        dsimp only
        have hblo : blo ≤ j := Nat.le_of_not_lt h1
        have hbhi : j < bhi := Nat.lt_of_not_le h2
        have hab : b.getD j "" = a.getD i "" := hjs j (List.mem_cons_self _ _)
        generalize hgen : (if j = 0 then 0 else (alGet j2len (j - 1)).getD 0) = k0
        have hk : k0 + 1 ≤ i + 1 - alo ∧ k0 + 1 ≤ j + 1 - blo ∧
            MatchSpan a b (i + 1 - (k0 + 1)) (j + 1 - (k0 + 1)) (k0 + 1) := by
          by_cases hj0 : j = 0
          · rw [if_pos hj0] at hgen
            subst hgen
            refine ⟨by omega, by omega, ?_⟩
            intro d hd
            have hd0 : d = 0 := by omega
            subst hd0
            convert hab.symm using 2 <;> omega
          · rw [if_neg hj0] at hgen
            cases hget : alGet j2len (j - 1) with
            | none =>
              rw [hget] at hgen
              simp only [Option.getD_none] at hgen
              subst hgen
              refine ⟨by omega, by omega, ?_⟩
              intro d hd
              have hd0 : d = 0 := by omega
              subst hd0
              convert hab.symm using 2 <;> omega
            | some kp =>
              rw [hget] at hgen
              simp only [Option.getD_some] at hgen
              subst hgen
              obtain ⟨hb1, hb2, hb3, hb4, hb5, hspan⟩ := hj2 _ _ hget
              refine ⟨by omega, by omega, ?_⟩
              intro d hd
              by_cases hdk : d < kp
              · have hsp := hspan d hdk
                convert hsp using 2 <;> omega
              · have hdeq : d = kp := by omega
                subst hdeq
                convert hab.symm using 2 <;> omega
        obtain ⟨hka, hkb, hkspan⟩ := hk
        refine ih _ _ _ (fun x hx => hjs x (List.mem_cons_of_mem _ hx)) hj2 ?_ ?_
        · intro j' k' hget'
          by_cases hjj : j' = j
          · subst hjj
            rw [alGet_alSet_self] at hget'
            cases hget'
            exact ⟨hblo, hbhi, by omega, by omega, hkb, hkspan⟩
          · rw [alGet_alSet_ne _ _ _ _ hjj] at hget'
            exact hnew _ _ hget'
        · by_cases hlt : best.2.2 < k0 + 1
          · rw [if_pos hlt]
            refine ⟨?_, ?_, ?_, ?_, hkspan⟩
            · show alo ≤ i + 1 - (k0 + 1)
              omega
            · show blo ≤ j + 1 - (k0 + 1)
              omega
            · show i + 1 - (k0 + 1) + (k0 + 1) ≤ ahi
              omega
            · show j + 1 - (k0 + 1) + (k0 + 1) ≤ bhi
              omega
          · rw [if_neg hlt]
            exact hbest


theorem flmOuter_sound (a b : List String) (b2j : List (String × List Nat))
    (hb2j : ∀ x js, alGet b2j x = some js → ∀ j ∈ js, b.getD j "" = x)
    (alo ahi blo bhi : Nat) :
    ∀ (fuel i : Nat) (j2len : List (Nat × Nat)) (best : Nat × Nat × Nat),
    alo ≤ i → i + fuel ≤ ahi →
    J2LProp a b alo blo bhi i j2len →
    BestProp a b alo ahi blo bhi best →
    BestProp a b alo ahi blo bhi (flmOuter a b2j blo bhi fuel i j2len best) := by
  intro fuel
  induction fuel with
  | zero => intro i j2len best _ _ _ hbest; exact hbest
  | succ fuel ih =>
    intro i j2len best hi hfuel hj2 hbest
    rw [flmOuter]
    dsimp only
    have hjs : ∀ j ∈ ((alGet b2j (a.getD i "")).getD []), b.getD j "" = a.getD i "" := by
      cases hget : alGet b2j (a.getD i "") with
      | none => simp
      | some js => simpa using hb2j _ _ hget
    have hscan := flmScanJ_sound a b alo ahi blo bhi i hi (by omega)
      ((alGet b2j (a.getD i "")).getD []) j2len [] best hjs hj2
      (by intro j k h; simp [alGet] at h) hbest
    rcases hres : flmScanJ j2len blo bhi i ((alGet b2j (a.getD i "")).getD []) [] best with
      ⟨newj2len, best'⟩
    rw [hres] at hscan
    try rw [hres]
    dsimp only at hscan ⊢
    exact ih (i + 1) newj2len best' (by omega) (by omega) hscan.1 hscan.2

theorem flmExtendLo_sound (a b : List String) (alo ahi blo bhi : Nat) (junkSide : Bool) :
    ∀ (fuel : Nat) (best : Nat × Nat × Nat),
    BestProp a b alo ahi blo bhi best →
    BestProp a b alo ahi blo bhi (flmExtendLo a b alo blo junkSide fuel best) := by
  intro fuel
  induction fuel with
  | zero => intro best h; exact h
  | succ fuel ih =>
    intro best hbest
    obtain ⟨bi, bj, k⟩ := best
    rw [flmExtendLo]
    obtain ⟨h1, h2, h3, h4, h5⟩ := hbest
    have h5' : MatchSpan a b bi bj k := h5
    by_cases hc : alo < bi ∧ blo < bj ∧ isBJunk (b.getD (bj - 1) "") = junkSide ∧
        a.getD (bi - 1) "" = b.getD (bj - 1) ""
    · rw [if_pos hc]
      apply ih
      refine ⟨?_, ?_, ?_, ?_, ?_⟩
      · show alo ≤ bi - 1
        omega
      · show blo ≤ bj - 1
        omega
      · show bi - 1 + (k + 1) ≤ ahi
        have : bi + k ≤ ahi := h3
        omega
      · show bj - 1 + (k + 1) ≤ bhi
        have : bj + k ≤ bhi := h4
        omega
      · show MatchSpan a b (bi - 1) (bj - 1) (k + 1)
        intro d hd
        cases d with
        | zero =>
          have := hc.2.2.2
          convert this using 2 <;> omega
        | succ d' =>
          have hsp := h5' d' (by omega)
          convert hsp using 2 <;> omega
    · rw [if_neg hc]
      exact ⟨h1, h2, h3, h4, h5⟩

theorem flmExtendHi_sound (a b : List String) (alo ahi blo bhi : Nat) (junkSide : Bool) :
    ∀ (fuel : Nat) (best : Nat × Nat × Nat),
    BestProp a b alo ahi blo bhi best →
    BestProp a b alo ahi blo bhi (flmExtendHi a b ahi bhi junkSide fuel best) := by
  intro fuel
  induction fuel with
  | zero => intro best h; exact h
  | succ fuel ih =>
    intro best hbest
    obtain ⟨bi, bj, k⟩ := best
    rw [flmExtendHi]
    obtain ⟨h1, h2, h3, h4, h5⟩ := hbest
    have h5' : MatchSpan a b bi bj k := h5
    by_cases hc : bi + k < ahi ∧ bj + k < bhi ∧
        isBJunk (b.getD (bj + k) "") = junkSide ∧ a.getD (bi + k) "" = b.getD (bj + k) ""
    · rw [if_pos hc]
      apply ih
      refine ⟨h1, h2, ?_, ?_, ?_⟩
      · show bi + (k + 1) ≤ ahi
        omega
      · show bj + (k + 1) ≤ bhi
        omega
      · show MatchSpan a b bi bj (k + 1)
        intro d hd
        by_cases hdk : d < k
        · exact h5' d hdk
        · have hdeq : d = k := by omega
          subst hdeq
          exact hc.2.2.2
    · rw [if_neg hc]
      exact ⟨h1, h2, h3, h4, h5⟩

theorem findLongestMatch_sound (a b : List String) (b2j : List (String × List Nat))
    (hb2j : ∀ x js, alGet b2j x = some js → ∀ j ∈ js, b.getD j "" = x)
    (alo ahi blo bhi : Nat) (hab : alo ≤ ahi) (hbb : blo ≤ bhi) :
    BestProp a b alo ahi blo bhi (findLongestMatch a b b2j alo ahi blo bhi) := by
  unfold findLongestMatch
  dsimp only
  apply flmExtendHi_sound
  apply flmExtendLo_sound
  apply flmExtendHi_sound
  apply flmExtendLo_sound
  apply flmOuter_sound a b b2j hb2j alo ahi blo bhi (ahi - alo) alo [] _ (Nat.le_refl _)
    (by omega) (by intro j k h; simp [alGet] at h)
  refine ⟨Nat.le_refl _, Nat.le_refl _, ?_, ?_, ?_⟩
  · show alo + 0 ≤ ahi
    omega
  · show blo + 0 ≤ bhi
    omega
  · show MatchSpan a b alo blo 0
    intro d hd
    omega

theorem chainBW_mono : ∀ (blocks : List (Nat × Nat × Nat)) (lo1 lo2 lo1' lo2' hi1 hi2 : Nat),
    lo1' ≤ lo1 → lo2' ≤ lo2 → ChainBW lo1 lo2 hi1 hi2 blocks →
    ChainBW lo1' lo2' hi1 hi2 blocks := by
  intro blocks
  induction blocks with
  | nil =>
    intro lo1 lo2 lo1' lo2' hi1 hi2 h1 h2 h
    exact ⟨Nat.le_trans h1 h.1, Nat.le_trans h2 h.2⟩
  | cons blk rest ih =>
    obtain ⟨ai, bj, sz⟩ := blk
    intro lo1 lo2 lo1' lo2' hi1 hi2 h1 h2 h
    exact ⟨Nat.le_trans h1 h.1, Nat.le_trans h2 h.2.1, h.2.2⟩

theorem chainBW_append : ∀ (xs : List (Nat × Nat × Nat)) (lo1 lo2 mid1 mid2 hi1 hi2 : Nat)
    (ys : List (Nat × Nat × Nat)),
    ChainBW lo1 lo2 mid1 mid2 xs → ChainBW mid1 mid2 hi1 hi2 ys →
    ChainBW lo1 lo2 hi1 hi2 (xs ++ ys) := by
  intro xs
  induction xs with
  | nil =>
    intro lo1 lo2 mid1 mid2 hi1 hi2 ys hx hy
    exact chainBW_mono ys mid1 mid2 lo1 lo2 hi1 hi2 hx.1 hx.2 hy
  | cons blk rest ih =>
    obtain ⟨ai, bj, sz⟩ := blk
    intro lo1 lo2 mid1 mid2 hi1 hi2 ys hx hy
    exact ⟨hx.1, hx.2.1, ih _ _ _ _ _ _ _ hx.2.2 hy⟩

theorem matchBlocksRec_spec (a b : List String) (b2j : List (String × List Nat))
    (hb2j : ∀ x js, alGet b2j x = some js → ∀ j ∈ js, b.getD j "" = x) :
    ∀ (fuel alo ahi blo bhi : Nat) (matched : List (Nat × Nat × Nat)),
    alo ≤ ahi → blo ≤ bhi →
    ∃ rest, matchBlocksRec a b b2j fuel alo ahi blo bhi matched = matched ++ rest ∧
      ChainBW alo blo ahi bhi rest ∧ ∀ t ∈ rest, BlockSound a b t := by
  intro fuel
  induction fuel with
  | zero =>
    intro alo ahi blo bhi matched hab hbb
    exact ⟨[], by simp [matchBlocksRec], ⟨hab, hbb⟩, by simp⟩
  | succ fuel ih =>
    intro alo ahi blo bhi matched hab hbb
    rw [matchBlocksRec]
    dsimp only
    obtain ⟨hm1, hm2, hm3, hm4, hm5⟩ :=
      findLongestMatch_sound a b b2j hb2j alo ahi blo bhi hab hbb
    by_cases hk : 0 < (findLongestMatch a b b2j alo ahi blo bhi).2.2
    · rw [if_pos hk]
      have hleft : ∃ restL,
          (if alo < (findLongestMatch a b b2j alo ahi blo bhi).1 ∧
              blo < (findLongestMatch a b b2j alo ahi blo bhi).2.1 then
            matchBlocksRec a b b2j fuel alo (findLongestMatch a b b2j alo ahi blo bhi).1 blo
              (findLongestMatch a b b2j alo ahi blo bhi).2.1 matched
          else matched) = matched ++ restL ∧
          ChainBW alo blo (findLongestMatch a b b2j alo ahi blo bhi).1
            (findLongestMatch a b b2j alo ahi blo bhi).2.1 restL ∧
          ∀ t ∈ restL, BlockSound a b t := by
        by_cases hl : alo < (findLongestMatch a b b2j alo ahi blo bhi).1 ∧
            blo < (findLongestMatch a b b2j alo ahi blo bhi).2.1
        · rw [if_pos hl]
          exact ih _ _ _ _ _ (Nat.le_of_lt hl.1) (Nat.le_of_lt hl.2)
        · rw [if_neg hl]
          exact ⟨[], by simp, ⟨hm1, hm2⟩, by simp⟩
      obtain ⟨restL, heqL, hchainL, hsoundL⟩ := hleft
      rw [heqL]
      by_cases hr : (findLongestMatch a b b2j alo ahi blo bhi).1 +
            (findLongestMatch a b b2j alo ahi blo bhi).2.2 < ahi ∧
          (findLongestMatch a b b2j alo ahi blo bhi).2.1 +
            (findLongestMatch a b b2j alo ahi blo bhi).2.2 < bhi
      · rw [if_pos hr]
        obtain ⟨restR, heqR, hchainR, hsoundR⟩ :=
          ih ((findLongestMatch a b b2j alo ahi blo bhi).1 +
              (findLongestMatch a b b2j alo ahi blo bhi).2.2) ahi
            ((findLongestMatch a b b2j alo ahi blo bhi).2.1 +
              (findLongestMatch a b b2j alo ahi blo bhi).2.2) bhi
            (matched ++ restL ++ [findLongestMatch a b b2j alo ahi blo bhi])
            (Nat.le_of_lt hr.1) (Nat.le_of_lt hr.2)
        refine ⟨restL ++ [findLongestMatch a b b2j alo ahi blo bhi] ++ restR, ?_, ?_, ?_⟩
        · rw [heqR]
          simp [List.append_assoc]
        · rw [List.append_assoc]
          refine chainBW_append _ _ _ _ _ _ _ _ hchainL ?_
          refine ⟨Nat.le_refl _, Nat.le_refl _, ?_⟩
          exact hchainR
        · intro t ht
          rcases List.mem_append.mp ht with ht' | ht'
          · rcases List.mem_append.mp ht' with h | h
            · exact hsoundL t h
            · have : t = findLongestMatch a b b2j alo ahi blo bhi := by simpa using h
              subst this
              exact hm5
          · exact hsoundR t ht'
      · rw [if_neg hr]
        refine ⟨restL ++ [findLongestMatch a b b2j alo ahi blo bhi], ?_, ?_, ?_⟩
        · simp [List.append_assoc]
        · refine chainBW_append _ _ _ _ _ _ _ _ hchainL ?_
          exact ⟨Nat.le_refl _, Nat.le_refl _, hm3, hm4⟩
        · intro t ht
          rcases List.mem_append.mp ht with h | h
          · exact hsoundL t h
          · have : t = findLongestMatch a b b2j alo ahi blo bhi := by simpa using h
            subst this
            exact hm5
    · rw [if_neg hk]
      exact ⟨[], by simp, ⟨hab, hbb⟩, by simp⟩

theorem collapseBlocks_spec (a b : List String) (hi1 hi2 : Nat) :
    ∀ (blocks : List (Nat × Nat × Nat)) (i1 j1 k1 : Nat),
    BlockSound a b (i1, j1, k1) →
    ChainBW (i1 + k1) (j1 + k1) hi1 hi2 blocks →
    (∀ t ∈ blocks, BlockSound a b t) →
    ChainBW i1 j1 hi1 hi2 (collapseBlocks i1 j1 k1 blocks) ∧
    ∀ t ∈ collapseBlocks i1 j1 k1 blocks, BlockSound a b t := by
  intro blocks
  induction blocks with
  | nil =>
    intro i1 j1 k1 hs hchain _
    obtain ⟨hc1, hc2⟩ : i1 + k1 ≤ hi1 ∧ j1 + k1 ≤ hi2 := hchain
    rw [collapseBlocks]
    by_cases hk : k1 ≠ 0
    · rw [if_pos hk]
      refine ⟨⟨Nat.le_refl _, Nat.le_refl _, hc1, hc2⟩, ?_⟩
      intro t ht
      have : t = (i1, j1, k1) := by simpa using ht
      subst this
      exact hs
    · rw [if_neg hk]
      push_neg at hk
      exact ⟨⟨by omega, by omega⟩, by simp⟩
  | cons blk rest ih =>
    obtain ⟨i2, j2, k2⟩ := blk
    intro i1 j1 k1 hs hchain hsound
    obtain ⟨hc1, hc2, hc3⟩ := hchain
    rw [collapseBlocks]
    by_cases hmerge : i1 + k1 = i2 ∧ j1 + k1 = j2
    · rw [if_pos hmerge]
      refine ih i1 j1 (k1 + k2) ?_ ?_ ?_
      · show MatchSpan a b i1 j1 (k1 + k2)
        have hs' : MatchSpan a b i1 j1 k1 := hs
        have hb2 : MatchSpan a b i2 j2 k2 := hsound _ (List.mem_cons_self _ _)
        intro d hd
        by_cases hdk : d < k1
        · exact hs' d hdk
        · have hsp := hb2 (d - k1) (by omega)
          have e1 : i2 + (d - k1) = i1 + d := by omega
          have e2 : j2 + (d - k1) = j1 + d := by omega
          rw [e1, e2] at hsp
          exact hsp
      · have e1 : i1 + (k1 + k2) = i2 + k2 := by omega
        have e2 : j1 + (k1 + k2) = j2 + k2 := by omega
        rw [e1, e2]
        exact hc3
      · intro t ht
        exact hsound t (List.mem_cons_of_mem _ ht)
    · rw [if_neg hmerge]
      have hrec := ih i2 j2 k2 (hsound _ (List.mem_cons_self _ _)) hc3
        (fun t ht => hsound t (List.mem_cons_of_mem _ ht))
      by_cases hk : k1 ≠ 0
      · rw [if_pos hk]
        refine ⟨⟨Nat.le_refl _, Nat.le_refl _, ?_⟩, ?_⟩
        · exact chainBW_mono _ i2 j2 _ _ _ _ hc1 hc2 hrec.1
        · intro t ht
          rcases List.mem_cons.mp ht with h | h
          · subst h
            exact hs
          · exact hrec.2 t h
      · rw [if_neg hk]
        push_neg at hk
        refine ⟨?_, hrec.2⟩
        exact chainBW_mono _ i2 j2 i1 j1 _ _ (by omega) (by omega) hrec.1

theorem getMatchingBlocks_spec (a b : List String) :
    ChainBW 0 0 a.length b.length (getMatchingBlocks a b) ∧
    ∀ t ∈ getMatchingBlocks a b, BlockSound a b t := by
  unfold getMatchingBlocks
  dsimp only
  have hb2j : ∀ x js, alGet (chainB b) x = some js → ∀ j ∈ js, b.getD j "" = x :=
    fun x js h => chainB_sound b h
  obtain ⟨rest, heq, hchain, hsound⟩ := matchBlocksRec_spec a b (chainB b) hb2j
    (a.length + 1) 0 a.length 0 b.length [] (Nat.zero_le _) (Nat.zero_le _)
  rw [heq]
  rw [List.nil_append]
  have hcol := collapseBlocks_spec a b a.length b.length rest 0 0 0
    (by intro d hd; simp at hd) (by simpa using hchain) hsound
  constructor
  · refine chainBW_append _ _ _ _ _ _ _ _ hcol.1 ?_
    exact ⟨Nat.le_refl _, Nat.le_refl _, by omega, by omega⟩
  · intro t ht
    rcases List.mem_append.mp ht with h | h
    · exact hcol.2 t h
    · have : t = (a.length, b.length, 0) := by simpa using h
      subst this
      intro d hd
      simp at hd


theorem opsTile_append : ∀ (xs : List OpCode) (i j m1 m2 I J : Nat) (ys : List OpCode),
    OpsTile i j m1 m2 xs → OpsTile m1 m2 I J ys → OpsTile i j I J (xs ++ ys) := by
  intro xs
  induction xs with
  | nil =>
    intro i j m1 m2 I J ys hx hy
    obtain ⟨h1, h2⟩ : i = m1 ∧ j = m2 := hx
    subst h1; subst h2
    exact hy
  | cons c cs ih =>
    intro i j m1 m2 I J ys hx hy
    obtain ⟨h1, h2, h3, h4, h5⟩ := hx
    exact ⟨h1, h2, h3, h4, ih _ _ _ _ _ _ _ h5 hy⟩

theorem opCodesAux_spec (a b : List String) :
    ∀ (bl : List (Nat × Nat × Nat)) (i j : Nat),
    ChainBW i j a.length b.length (bl ++ [(a.length, b.length, 0)]) →
    (∀ t ∈ bl, BlockSound a b t) →
    OpsTile i j a.length b.length (opCodesAux i j (bl ++ [(a.length, b.length, 0)])) ∧
    ∀ c ∈ opCodesAux i j (bl ++ [(a.length, b.length, 0)]), OpOK a b c := by
  intro bl
  induction bl with
  | nil =>
    intro i j hchain _
    obtain ⟨hia, hjb, -⟩ := hchain
    rw [List.nil_append, opCodesAux]
    rw [if_neg (by decide : ¬ (0 : Nat) < 0)]
    rw [opCodesAux]
    by_cases h1 : i < a.length ∧ j < b.length
    · rw [if_pos h1]
      refine ⟨⟨rfl, rfl, hia, hjb, rfl, rfl⟩, ?_⟩
      intro c hc
      have : c = ⟨'r', i, a.length, j, b.length⟩ := by simpa using hc
      subst this
      exact ⟨by intro h; simp at h, by intro h; simp at h, by intro h; simp at h, Or.inl rfl,
        Or.inl h1.1⟩
    · rw [if_neg h1]
      by_cases h2 : i < a.length
      · rw [if_pos h2]
        have hj : j = b.length := by omega
        refine ⟨⟨rfl, rfl, hia, hjb, rfl, rfl⟩, ?_⟩
        intro c hc
        have : c = ⟨'d', i, a.length, j, b.length⟩ := by simpa using hc
        subst this
        refine ⟨by intro h; simp at h, by intro _; exact hj, by intro h; simp at h,
          Or.inr (Or.inl rfl), Or.inl h2⟩
      · rw [if_neg h2]
        by_cases h3 : j < b.length
        · rw [if_pos h3]
          have hi : i = a.length := by omega
          refine ⟨⟨rfl, rfl, hia, hjb, rfl, rfl⟩, ?_⟩
          intro c hc
          have : c = ⟨'i', i, a.length, j, b.length⟩ := by simpa using hc
          subst this
          refine ⟨by intro h; simp at h, by intro h; simp at h, by intro _; exact hi,
            Or.inr (Or.inr (Or.inl rfl)), Or.inr h3⟩
        · rw [if_neg h3]
          have hi : i = a.length := by omega
          have hj : j = b.length := by omega
          subst hi; subst hj
          exact ⟨⟨rfl, rfl⟩, by simp⟩
  | cons blk bl ih =>
    obtain ⟨ai, bj, sz⟩ := blk
    intro i j hchain hsound
    obtain ⟨hia, hjb, hrest⟩ := hchain
    have hblk : MatchSpan a b ai bj sz := hsound _ (List.mem_cons_self _ _)
    have hihres := ih (ai + sz) (bj + sz) hrest (fun t ht => hsound t (List.mem_cons_of_mem _ ht))
    rw [List.cons_append, opCodesAux]
    have htag : ∀ (tagOps : List OpCode),
        OpsTile i j ai bj tagOps → (∀ c ∈ tagOps, OpOK a b c) →
        OpsTile i j a.length b.length
          ((tagOps ++ (if 0 < sz then [⟨'e', ai, ai + sz, bj, bj + sz⟩] else []) ++
            opCodesAux (ai + sz) (bj + sz) (bl ++ [(a.length, b.length, 0)]))) ∧
        ∀ c ∈ (tagOps ++ (if 0 < sz then [⟨'e', ai, ai + sz, bj, bj + sz⟩] else []) ++
            opCodesAux (ai + sz) (bj + sz) (bl ++ [(a.length, b.length, 0)])), OpOK a b c := by
      intro tagOps htile hok
      have heq : OpsTile ai bj (ai + sz) (bj + sz)
          (if 0 < sz then [⟨'e', ai, ai + sz, bj, bj + sz⟩] else []) := by
        by_cases hsz : 0 < sz
        · rw [if_pos hsz]
          exact ⟨rfl, rfl, Nat.le_add_right ai sz, Nat.le_add_right bj sz, rfl, rfl⟩
        · rw [if_neg hsz]
          have : sz = 0 := by omega
          subst this
          exact ⟨rfl, rfl⟩
      constructor
      · rw [List.append_assoc]
        refine opsTile_append _ _ _ _ _ _ _ _ htile ?_
        exact opsTile_append _ _ _ _ _ _ _ _ heq hihres.1
      · intro c hc
        rcases List.mem_append.mp hc with hc' | hc'
        · rcases List.mem_append.mp hc' with h | h
          · exact hok c h
          · by_cases hsz : 0 < sz
            · rw [if_pos hsz] at h
              have : c = ⟨'e', ai, ai + sz, bj, bj + sz⟩ := by simpa using h
              subst this
              refine ⟨?_, by intro h'; simp at h', by intro h'; simp at h',
                Or.inr (Or.inr (Or.inr rfl)), Or.inl (show ai < ai + sz by omega)⟩
              intro _
              constructor
              · show ai + sz - ai = bj + sz - bj
                omega
              · show MatchSpan a b ai bj (ai + sz - ai)
                have e : ai + sz - ai = sz := by omega
                rw [e]
                exact hblk
            · rw [if_neg hsz] at h
              simp at h
        · exact hihres.2 c hc'
    by_cases h1 : i < ai ∧ j < bj
    · rw [if_pos h1]
      refine htag _ ⟨rfl, rfl, hia, hjb, rfl, rfl⟩ ?_
      intro c hc
      have : c = ⟨'r', i, ai, j, bj⟩ := by simpa using hc
      subst this
      exact ⟨by intro h; simp at h, by intro h; simp at h, by intro h; simp at h, Or.inl rfl,
        Or.inl h1.1⟩
    · rw [if_neg h1]
      by_cases h2 : i < ai
      · rw [if_pos h2]
        have hj : j = bj := by omega
        refine htag _ ⟨rfl, rfl, hia, hjb, rfl, rfl⟩ ?_
        intro c hc
        have : c = ⟨'d', i, ai, j, bj⟩ := by simpa using hc
        subst this
        exact ⟨by intro h; simp at h, by intro _; exact hj, by intro h; simp at h,
          Or.inr (Or.inl rfl), Or.inl h2⟩
      · rw [if_neg h2]
        by_cases h3 : j < bj
        · rw [if_pos h3]
          have hi : i = ai := by omega
          refine htag _ ⟨rfl, rfl, hia, hjb, rfl, rfl⟩ ?_
          intro c hc
          have : c = ⟨'i', i, ai, j, bj⟩ := by simpa using hc
          subst this
          exact ⟨by intro h; simp at h, by intro h; simp at h, by intro _; exact hi,
            Or.inr (Or.inr (Or.inl rfl)), Or.inr h3⟩
        · rw [if_neg h3]
          have hi : i = ai := by omega
          have hj : j = bj := by omega
          subst hi; subst hj
          exact htag [] ⟨rfl, rfl⟩ (by simp)

theorem getOpCodes_spec (a b : List String) :
    OpsTile 0 0 a.length b.length (getOpCodes a b) ∧
    ∀ c ∈ getOpCodes a b, OpOK a b c := by
  unfold getOpCodes
  obtain ⟨hchain, hsound⟩ := getMatchingBlocks_spec a b
  unfold getMatchingBlocks at hchain hsound ⊢
  dsimp only at hchain hsound ⊢
  exact opCodesAux_spec a b _ 0 0 hchain
    (fun t ht => hsound t (List.mem_append.mpr (Or.inl ht)))

theorem opsTile_alle (a b : List String) :
    ∀ (ops : List OpCode) (i j : Nat),
    OpsTile i j a.length b.length ops → (∀ c ∈ ops, OpOK a b c) →
    (∀ c ∈ ops, c.tag = 'e') →
    a.length - i = b.length - j ∧ i ≤ a.length ∧ j ≤ b.length ∧
      MatchSpan a b i j (a.length - i) := by
  intro ops
  induction ops with
  | nil =>
    intro i j htile _ _
    obtain ⟨h1, h2⟩ : i = a.length ∧ j = b.length := htile
    subst h1; subst h2
    exact ⟨by omega, Nat.le_refl _, Nat.le_refl _, fun d hd => by omega⟩
  | cons c cs ih =>
    intro i j htile hok halle
    obtain ⟨h1, h2, h3, h4, h5⟩ := htile
    have hce := halle c (List.mem_cons_self _ _)
    have hcok := (hok c (List.mem_cons_self _ _)).1 hce
    obtain ⟨hdiff, hspan⟩ := hcok
    obtain ⟨ih1, ih2, ih3, ih4⟩ := ih c.i2 c.j2 h5
      (fun x hx => hok x (List.mem_cons_of_mem _ hx))
      (fun x hx => halle x (List.mem_cons_of_mem _ hx))
    subst h1; subst h2
    refine ⟨by omega, by omega, by omega, ?_⟩
    intro d hd
    by_cases hdk : d < c.i2 - c.i1
    · exact hspan d hdk
    · have hsp := ih4 (d - (c.i2 - c.i1)) (by omega)
      have e1 : c.i2 + (d - (c.i2 - c.i1)) = c.i1 + d := by omega
      have e2 : c.j2 + (d - (c.i2 - c.i1)) = c.j1 + d := by omega
      rw [e1, e2] at hsp
      exact hsp

/-- Lists with a full-length match are equal. -/
theorem list_eq_of_matchSpan {a b : List String} (hlen : a.length = b.length)
    (hspan : MatchSpan a b 0 0 a.length) : a = b := by
  apply List.ext_getElem hlen
  intro n h1 h2
  have hsp := hspan n h1
  rw [Nat.zero_add] at hsp
  rw [List.getD_eq_getElem?_getD, List.getD_eq_getElem?_getD] at hsp
  rw [List.getElem?_eq_getElem h1, List.getElem?_eq_getElem h2] at hsp
  simpa using hsp

/-- If every opcode is an equality, the two line lists are equal. -/
theorem getOpCodes_alle (a b : List String)
    (h : ∀ c ∈ getOpCodes a b, c.tag = 'e') : a = b := by
  obtain ⟨htile, hok⟩ := getOpCodes_spec a b
  obtain ⟨h1, _, _, h4⟩ := opsTile_alle a b _ 0 0 htile hok h
  have hlen : a.length = b.length := by omega
  have hsp : MatchSpan a b 0 0 a.length := by
    intro d hd
    exact h4 d (by omega)
  exact list_eq_of_matchSpan hlen hsp



theorem groupLoop_ne_nil_of_groups (n nn : Nat) :
    ∀ (codes group : List OpCode) (groups : List (List OpCode)),
    groups ≠ [] → groupLoop n nn codes group groups ≠ [] := by
  intro codes
  induction codes with
  | nil =>
    intro group groups hg
    rw [groupLoop]
    by_cases hc : group ≠ [] ∧ ¬(group.length = 1 ∧ (group.headD default).tag = 'e')
    · rw [if_pos hc]
      simp
    · rw [if_neg hc]
      exact hg
  | cons c rest ih =>
    intro group groups hg
    rw [groupLoop]
    by_cases hc : c.tag = 'e' ∧ nn < c.i2 - c.i1
    · rw [if_pos hc]
      exact ih _ _ (by simp)
    · rw [if_neg hc]
      exact ih _ _ hg

theorem groupLoop_ne_nil_of_group (n nn : Nat) :
    ∀ (codes group : List OpCode) (groups : List (List OpCode)),
    (∃ c ∈ group, c.tag ≠ 'e') → groupLoop n nn codes group groups ≠ [] := by
  intro codes
  induction codes with
  | nil =>
    intro group groups hex
    obtain ⟨c0, hm, ht⟩ := hex
    rw [groupLoop]
    have hcond : group ≠ [] ∧ ¬(group.length = 1 ∧ (group.headD default).tag = 'e') := by
      constructor
      · intro h
        rw [h] at hm
        simp at hm
      · rintro ⟨hlen, hhead⟩
        cases group with
        | nil => simp at hlen
        | cons g gs =>
          have hgs : gs = [] := by
            cases gs with
            | nil => rfl
            | cons _ _ => simp at hlen
          subst hgs
          have : c0 = g := by simpa using hm
          subst this
          exact ht (by simpa using hhead)
    rw [if_pos hcond]
    simp
  | cons c rest ih =>
    intro group groups hex
    rw [groupLoop]
    by_cases hc : c.tag = 'e' ∧ nn < c.i2 - c.i1
    · rw [if_pos hc]
      exact groupLoop_ne_nil_of_groups n nn _ _ _ (by simp)
    · rw [if_neg hc]
      refine ih _ _ ?_
      obtain ⟨c0, hm, ht⟩ := hex
      exact ⟨c0, List.mem_append.mpr (Or.inl hm), ht⟩

theorem groupLoop_ne_nil (n nn : Nat) :
    ∀ (codes : List OpCode), (∃ c ∈ codes, c.tag ≠ 'e') →
    ∀ (group : List OpCode) (groups : List (List OpCode)),
    groupLoop n nn codes group groups ≠ [] := by
  intro codes
  induction codes with
  | nil =>
    intro hex
    simp at hex
  | cons c rest ih =>
    intro hex group groups
    rw [groupLoop]
    by_cases hc : c.tag = 'e' ∧ nn < c.i2 - c.i1
    · rw [if_pos hc]
      exact groupLoop_ne_nil_of_groups n nn _ _ _ (by simp)
    · rw [if_neg hc]
      obtain ⟨c0, hm, ht⟩ := hex
      rcases List.mem_cons.mp hm with h | h
      · subst h
        exact groupLoop_ne_nil_of_group n nn _ _ _
          ⟨c0, List.mem_append.mpr (Or.inr (by simp)), ht⟩
      · exact ih ⟨c0, h, ht⟩ _ _

theorem getGroupedOpCodes_ne_nil (a b : List String) (n : Nat) (hne : a ≠ b) :
    getGroupedOpCodes a b n ≠ [] := by
  have hex : ∃ c ∈ getOpCodes a b, c.tag ≠ 'e' := by
    by_contra hall
    push_neg at hall
    exact hne (getOpCodes_alle a b hall)
  unfold getGroupedOpCodes
  cases hcodes : getOpCodes a b with
  | nil =>
    rw [hcodes] at hex
    simp at hex
  | cons c rest =>
    rw [hcodes] at hex
    dsimp only
    rw [if_neg (List.cons_ne_nil c rest)]
    dsimp only
    by_cases hc : c.tag = 'e'
    · rw [if_pos hc]
      have hex2 : ∃ c0 ∈ (⟨c.tag, max c.i1 (c.i2 - n), c.i2, max c.j1 (c.j2 - n), c.j2⟩ :
          OpCode) :: rest, c0.tag ≠ 'e' := by
        obtain ⟨c0, hm, ht⟩ := hex
        rcases List.mem_cons.mp hm with h | h
        · subst h
          exact absurd hc ht
        · exact ⟨c0, List.mem_cons_of_mem _ h, ht⟩
      generalize hc2v : (⟨c.tag, max c.i1 (c.i2 - n), c.i2, max c.j1 (c.j2 - n), c.j2⟩ :
          OpCode) :: rest = codes2 at hex2 ⊢
      cases hrev : codes2.reverse with
      | nil =>
        rw [← hc2v] at hrev
        exact absurd (congrArg List.length hrev) (by simp)
      | cons cl revFront =>
        dsimp only
        have hc2 : codes2 = revFront.reverse ++ [cl] := by
          have := congrArg List.reverse hrev
          simpa using this
        rw [hc2] at hex2
        obtain ⟨c0, hm, ht⟩ := hex2
        by_cases hcl : cl.tag = 'e'
        · rw [if_pos hcl]
          apply groupLoop_ne_nil
          rcases List.mem_append.mp hm with h | h
          · exact ⟨c0, List.mem_append.mpr (Or.inl h), ht⟩
          · have : c0 = cl := by simpa using h
            subst this
            exact absurd hcl ht
        · rw [if_neg hcl]
          apply groupLoop_ne_nil
          exact ⟨c0, hm, ht⟩
    · rw [if_neg hc]
      generalize hc2v : c :: rest = codes2 at hex ⊢
      cases hrev : codes2.reverse with
      | nil =>
        rw [← hc2v] at hrev
        exact absurd (congrArg List.length hrev) (by simp)
      | cons cl revFront =>
        dsimp only
        have hc2 : codes2 = revFront.reverse ++ [cl] := by
          have := congrArg List.reverse hrev
          simpa using this
        rw [hc2] at hex
        obtain ⟨c0, hm, ht⟩ := hex
        by_cases hcl : cl.tag = 'e'
        · rw [if_pos hcl]
          apply groupLoop_ne_nil
          rcases List.mem_append.mp hm with h | h
          · exact ⟨c0, List.mem_append.mpr (Or.inl h), ht⟩
          · have : c0 = cl := by simpa using h
            subst this
            exact absurd hcl ht
        · rw [if_neg hcl]
          apply groupLoop_ne_nil
          exact ⟨c0, hm, ht⟩

theorem mem_dropWhile {α : Type} (p : α → Bool) :
    ∀ (l : List α) (c : α), c ∈ l → p c = false → c ∈ l.dropWhile p := by
  intro l
  induction l with
  | nil => intro c hc _; simp at hc
  | cons x rest ih =>
    intro c hc hp
    rw [List.dropWhile_cons]
    by_cases hx : p x = true
    · rw [if_pos hx]
      rcases List.mem_cons.mp hc with h | h
      · subst h
        rw [hp] at hx
        cases hx
      · exact ih c h hp
    · rw [if_neg hx]
      exact hc

theorem trimSpace_ne_empty (s : String) (c : Char) (hc : c ∈ s.data)
    (hs : isGoSpace c = false) : trimSpace s ≠ "" := by
  unfold trimSpace
  intro h
  have hdata := congrArg String.data h
  have h1 : c ∈ s.data.dropWhile isGoSpace := mem_dropWhile _ _ _ hc hs
  have h2 : c ∈ (s.data.dropWhile isGoSpace).reverse := List.mem_reverse.mpr h1
  have h3 : c ∈ (s.data.dropWhile isGoSpace).reverse.dropWhile isGoSpace :=
    mem_dropWhile _ _ _ h2 hs
  have h4 : c ∈ ((s.data.dropWhile isGoSpace).reverse.dropWhile isGoSpace).reverse :=
    List.mem_reverse.mpr h3
  rw [show (String.mk (((s.data.dropWhile isGoSpace).reverse.dropWhile isGoSpace).reverse)).data
      = ((s.data.dropWhile isGoSpace).reverse.dropWhile isGoSpace).reverse from rfl] at hdata
  rw [hdata] at h4
  simp at h4

theorem string_join_data : ∀ (l : List String), (String.join l).data = (l.map String.data).flatten := by
  have haux : ∀ (l : List String) (acc : String),
      (l.foldl (fun r s => r ++ s) acc).data = acc.data ++ (l.map String.data).flatten := by
    intro l
    induction l with
    | nil => intro acc; simp
    | cons x rest ih =>
      intro acc
      rw [List.foldl_cons, ih]
      simp
  intro l
  have := haux l ""
  simpa using this

/-- The diff of different inputs is non-empty even after the whitespace
trim: it starts with the `--- previous` header. -/
theorem computeDiff_ne_empty {previous current : String} (hne : previous ≠ current) :
    computeDiff previous current ≠ "" := by
  unfold computeDiff
  rw [if_neg hne]
  have hlne : splitLines previous ≠ splitLines current :=
    fun h => hne (splitLines_injective h)
  have hgroups := getGroupedOpCodes_ne_nil (splitLines previous) (splitLines current) 3 hlne
  unfold getUnifiedDiffString unifiedDiffLines
  cases hg : getGroupedOpCodes (splitLines previous) (splitLines current) 3 with
  | nil => exact absurd hg hgroups
  | cons g gs =>
    dsimp only
    apply trimSpace_ne_empty _ '-'
    · rw [string_join_data]
      simp only [List.map_cons, List.flatten_cons]
      exact List.mem_append.mpr (Or.inl (by decide))
    · decide

/-- C8 part 1: the stored diff is empty exactly for equal contents. -/
theorem computeDiff_empty_iff (previous current : String) :
    computeDiff previous current = "" ↔ previous = current := by
  constructor
  · intro h
    by_contra hne
    exact computeDiff_ne_empty hne h
  · intro h
    rw [computeDiff, if_pos h]



theorem digitVal_digitChar : ∀ d, d < 10 → digitVal (digitChar d) = some d := by decide

theorem digitChar_ne_newline : ∀ d, d < 10 → digitChar d ≠ '\n' := by decide

theorem natDigsAux_digits : ∀ (fuel n : Nat), n < fuel →
    natDigsAux fuel n ≠ [] ∧ ∀ c ∈ natDigsAux fuel n, ∃ d, d < 10 ∧ c = digitChar d := by
  intro fuel
  induction fuel with
  | zero => intro n h; omega
  | succ fuel ih =>
    intro n h
    rw [natDigsAux]
    by_cases hn : n < 10
    · rw [if_pos hn]
      exact ⟨by simp, by intro c hc; exact ⟨n, hn, by simpa using hc⟩⟩
    · rw [if_neg hn]
      obtain ⟨hne, hdig⟩ := ih (n / 10) (by omega)
      refine ⟨by simp [hne], ?_⟩
      intro c hc
      rcases List.mem_append.mp hc with h' | h'
      · exact hdig c h'
      · exact ⟨n % 10, by omega, by simpa using h'⟩

theorem parseNatLoop_stop : ∀ (rest : List Char) (v : Nat),
    (∀ c', rest.head? = some c' → digitVal c' = none) →
    parseNatLoop rest v = (v, rest) := by
  intro rest v h
  cases rest with
  | nil => rfl
  | cons c cs =>
    rw [parseNatLoop]
    rw [h c rfl]

theorem parseNatLoop_digits : ∀ (fuel n : Nat), n < fuel → ∀ (rest : List Char) (acc : Nat),
    parseNatLoop (natDigsAux fuel n ++ rest) acc =
      parseNatLoop rest (acc * 10 ^ (natDigsAux fuel n).length + n) := by
  intro fuel
  induction fuel with
  | zero => intro n h; omega
  | succ fuel ih =>
    intro n h rest acc
    rw [natDigsAux]
    by_cases hn : n < 10
    · rw [if_pos hn]
      rw [List.cons_append, parseNatLoop, digitVal_digitChar n hn]
      simp
    · rw [if_neg hn]
      rw [List.append_assoc, ih (n / 10) (by omega)]
      rw [List.cons_append, parseNatLoop, digitVal_digitChar (n % 10) (by omega)]
      dsimp only
      have harith : (acc * 10 ^ (natDigsAux fuel (n / 10)).length + n / 10) * 10 + n % 10 =
          acc * 10 ^ (natDigsAux fuel (n / 10) ++ [digitChar (n % 10)]).length + n := by
        rw [List.length_append, List.length_singleton, pow_succ]
        have := Nat.div_add_mod n 10
        ring_nf
        omega
      rw [harith, List.nil_append]

theorem parseNat_natStr (n : Nat) (rest : List Char)
    (hrest : ∀ c', rest.head? = some c' → digitVal c' = none) :
    parseNat ((natStr n).data ++ rest) = some (n, rest) := by
  have hd := natDigsAux_digits (n + 1) n (by omega)
  have hdata : (natStr n).data = natDigsAux (n + 1) n := rfl
  rw [hdata]
  cases hds : natDigsAux (n + 1) n with
  | nil => exact absurd hds hd.1
  | cons c0 tl =>
    rw [List.cons_append]
    rw [parseNat]
    obtain ⟨d0, hd0, hc0⟩ := hd.2 c0 (by rw [hds]; exact List.mem_cons_self _ _)
    rw [hc0, digitVal_digitChar d0 hd0]
    dsimp only
    have hloop := parseNatLoop_digits (n + 1) n (by omega) rest 0
    rw [hds, hc0, List.cons_append] at hloop
    rw [hloop]
    rw [parseNatLoop_stop rest _ hrest]
    simp


theorem parseRange_format (start stop : Nat) (rest : List Char)
    (hss : start ≤ stop)
    (hrest : ∀ c', rest.head? = some c' → digitVal c' = none ∧ c' ≠ ',') :
    parseRange ((formatRangeUnified start stop).data ++ rest) = some (start, stop, rest) := by
  unfold formatRangeUnified
  try dsimp only
  by_cases h1 : stop - start = 1
  · rw [if_pos h1]
    unfold parseRange
    rw [parseNat_natStr (start + 1) rest (fun c' hc' => (hrest c' hc').1)]
    try dsimp only
    rw [if_neg ?hcomma]
    case hcomma =>
      intro h
      cases hr : rest with
      | nil => rw [hr] at h; simp at h
      | cons c' cs =>
        rw [hr] at h
        simp at h
        exact (hrest c' (by rw [hr]; rfl)).2 h
    have e1 : start + 1 - 1 = start := by omega
    have e2 : start + 1 = stop := by omega
    rw [e1, e2]
  · rw [if_neg h1]
    unfold parseRange
    have hdata : (natStr (if stop - start = 0 then start + 1 - 1 else start + 1) ++ "," ++
        natStr (stop - start)).data =
        (natStr (if stop - start = 0 then start + 1 - 1 else start + 1)).data ++
          (',' :: (natStr (stop - start)).data) := by
      simp [String.data_append]
    rw [hdata, List.append_assoc, List.cons_append]
    rw [parseNat_natStr _ _ (by intro c' hc'; simp at hc'; subst hc'; rfl)]
    try dsimp only
    rw [if_pos (by rfl)]
    rw [List.tail_cons]
    rw [parseNat_natStr _ _ (fun c' hc' => (hrest c' hc').1)]
    try dsimp only
    by_cases h0 : stop - start = 0
    · rw [if_pos h0]
      try dsimp only
      rw [if_pos h0]
      have e1 : start + 1 - 1 = start := by omega
      have e2 : start + (stop - start) = stop := by omega
      rw [e1, e2]
    · rw [if_neg h0]
      try dsimp only
      rw [if_neg h0]
      have e1 : start + 1 - 1 = start := by omega
      have e2 : start + (stop - start) = stop := by omega
      rw [e1, e2]

theorem parseHunkHeader_format (i1 i2 j1 j2 : Nat) (hi : i1 ≤ i2) (hj : j1 ≤ j2) :
    parseHunkHeader ("@@ -" ++ formatRangeUnified i1 i2 ++ " +" ++
      formatRangeUnified j1 j2 ++ " @@" ++ "\n") = some (i1, i2, j1, j2) := by
  have hdata : ("@@ -" ++ formatRangeUnified i1 i2 ++ " +" ++
      formatRangeUnified j1 j2 ++ " @@" ++ "\n").data =
      '@' :: '@' :: ' ' :: '-' :: ((formatRangeUnified i1 i2).data ++
        (' ' :: '+' :: ((formatRangeUnified j1 j2).data ++ [' ', '@', '@', '\n']))) := by
    simp [String.data_append]
  unfold parseHunkHeader
  rw [hdata]
  dsimp only
  rw [if_pos (by exact ⟨rfl, rfl, rfl, rfl⟩)]
  rw [parseRange_format i1 i2 _ hi
    (by intro c' hc'; simp at hc'; subst hc'; exact ⟨rfl, by decide⟩)]
  try dsimp only
  rw [if_pos (by exact ⟨rfl, rfl⟩)]
  rw [parseRange_format j1 j2 _ hj
    (by intro c' hc'; simp at hc'; subst hc'; exact ⟨rfl, by decide⟩)]
  try dsimp only
  rw [if_pos rfl]


theorem splitAfterNlAux_struct : ∀ (l cur : List Char), '\n' ∉ cur →
    ∃ front lastp, splitAfterNlAux cur l = front ++ [lastp] ∧
      (∀ p ∈ front, ∃ pre, p = pre ++ ['\n'] ∧ '\n' ∉ pre) ∧ '\n' ∉ lastp := by
  intro l
  induction l with
  | nil =>
    intro cur hcur
    exact ⟨[], cur.reverse, by simp [splitAfterNlAux], by simp, by simpa using hcur⟩
  | cons c rest ih =>
    intro cur hcur
    by_cases hc : c = '\n'
    · rw [splitAfterNlAux, if_pos hc]
      obtain ⟨front, lastp, heq, hfront, hlast⟩ := ih [] (by simp)
      refine ⟨(c :: cur).reverse :: front, lastp, by rw [heq]; rfl, ?_, hlast⟩
      intro p hp
      rcases List.mem_cons.mp hp with h | h
      · subst h
        subst hc
        exact ⟨cur.reverse, by simp, by simpa using hcur⟩
      · exact hfront p h
    · rw [splitAfterNlAux, if_neg hc]
      exact ih (c :: cur) (by simp [hcur, Ne.symm hc])

theorem splitLines_shape (s : String) : ∀ x ∈ splitLines s, LineShape x := by
  obtain ⟨front, lastp, heq, hfront, hlast⟩ := splitAfterNlAux_struct s.data [] (by simp)
  intro x hx
  unfold splitLines at hx
  rw [heq] at hx
  dsimp only at hx
  have hrev : ((front ++ [lastp]).map String.mk).reverse =
      String.mk lastp :: (front.map String.mk).reverse := by
    simp
  rw [hrev] at hx
  dsimp only at hx
  rw [List.reverse_reverse] at hx
  rcases List.mem_append.mp hx with h | h
  · obtain ⟨p, hp, hpx⟩ := List.mem_map.mp h
    obtain ⟨pre, hpre, hnin⟩ := hfront p hp
    exact ⟨pre, by rw [← hpx]; exact hpre, hnin⟩
  · have hx' : x = String.mk lastp ++ "\n" := by simpa using h
    subst hx'
    exact ⟨lastp, by simp [String.data_append], hlast⟩

theorem natStr_no_newline (n : Nat) : '\n' ∉ (natStr n).data := by
  intro h
  have hd := natDigsAux_digits (n + 1) n (by omega)
  obtain ⟨d, hd10, hdc⟩ := hd.2 '\n' h
  exact digitChar_ne_newline d hd10 hdc.symm

theorem formatRangeUnified_no_newline (s t : Nat) :
    '\n' ∉ (formatRangeUnified s t).data := by
  unfold formatRangeUnified
  dsimp only
  by_cases h1 : t - s = 1
  · rw [if_pos h1]
    exact natStr_no_newline _
  · rw [if_neg h1]
    intro h
    rw [show (natStr (if t - s = 0 then s + 1 - 1 else s + 1) ++ "," ++
        natStr (t - s)).data = (natStr (if t - s = 0 then s + 1 - 1 else s + 1)).data ++
        (',' :: (natStr (t - s)).data) from by simp [String.data_append]] at h
    rcases List.mem_append.mp h with h' | h'
    · exact natStr_no_newline _ h'
    · rcases List.mem_cons.mp h' with h'' | h''
      · cases h''
      · exact natStr_no_newline _ h''

theorem lineShape_prefixed (p : Char) (hp : p ≠ '\n') (x : String) (hx : LineShape x) :
    LineShape (String.mk [p] ++ x) := by
  obtain ⟨pre, hpre, hnin⟩ := hx
  refine ⟨p :: pre, ?_, ?_⟩
  · rw [String.data_append, hpre]
    rfl
  · intro h
    rcases List.mem_cons.mp h with h' | h'
    · exact hp h'.symm
    · exact hnin h'

theorem renderGroup_shape (a b : List String) (g : List OpCode)
    (ha : ∀ x ∈ a, LineShape x) (hb : ∀ x ∈ b, LineShape x) :
    ∀ ln ∈ renderGroup a b g, LineShape ln := by
  intro ln hln
  unfold renderGroup at hln
  cases g with
  | nil => simp at hln
  | cons first grest =>
    dsimp only at hln
    rcases List.mem_cons.mp hln with h | h
    · subst h
      refine ⟨("@@ -" ++ formatRangeUnified first.i1 ((first :: grest).getLastD default).i2 ++
        " +" ++ formatRangeUnified first.j1 ((first :: grest).getLastD default).j2 ++
        " @@").data, ?_, ?_⟩
      · simp [String.data_append]
      · intro hmem
        simp only [String.data_append] at hmem
        rcases List.mem_append.mp hmem with h' | h'
        · rcases List.mem_append.mp h' with h'' | h''
          · rcases List.mem_append.mp h'' with h3 | h3
            · rcases List.mem_append.mp h3 with h4 | h4
              · simp at h4
              · exact formatRangeUnified_no_newline _ _ h4
            · simp at h3
          · exact formatRangeUnified_no_newline _ _ h''
        · simp at h'
    · obtain ⟨lns, hlns, hmem⟩ := List.mem_flatten.mp h
      obtain ⟨c, hc, hcl⟩ := List.mem_map.mp hlns
      subst hcl
      by_cases hce : c.tag = 'e'
      · rw [if_pos hce] at hmem
        obtain ⟨x, hx, hxe⟩ := List.mem_map.mp hmem
        subst hxe
        have hxa : x ∈ a := List.mem_of_mem_drop (List.mem_of_mem_take hx)
        exact lineShape_prefixed ' ' (by decide) x (ha x hxa)
      · rw [if_neg hce] at hmem
        rcases List.mem_append.mp hmem with h' | h'
        · by_cases hcrd : c.tag = 'r' ∨ c.tag = 'd'
          · rw [if_pos hcrd] at h'
            obtain ⟨x, hx, hxe⟩ := List.mem_map.mp h'
            subst hxe
            have hxa : x ∈ a := List.mem_of_mem_drop (List.mem_of_mem_take hx)
            exact lineShape_prefixed '-' (by decide) x (ha x hxa)
          · rw [if_neg hcrd] at h'
            simp at h'
        · by_cases hcri : c.tag = 'r' ∨ c.tag = 'i'
          · rw [if_pos hcri] at h'
            obtain ⟨x, hx, hxe⟩ := List.mem_map.mp h'
            subst hxe
            have hxb : x ∈ b := List.mem_of_mem_drop (List.mem_of_mem_take hx)
            exact lineShape_prefixed '+' (by decide) x (hb x hxb)
          · rw [if_neg hcri] at h'
            simp at h'

theorem splitAfterNlAux_append_line : ∀ (pre : List Char), '\n' ∉ pre →
    ∀ (rest cur : List Char),
    splitAfterNlAux cur (pre ++ '\n' :: rest) =
      (cur.reverse ++ (pre ++ ['\n'])) :: splitAfterNlAux [] rest := by
  intro pre
  induction pre with
  | nil =>
    intro _ rest cur
    rw [List.nil_append, splitAfterNlAux, if_pos rfl]
    simp
  | cons c pre ih =>
    intro hnin rest cur
    have hc : c ≠ '\n' := fun h => hnin (h ▸ List.mem_cons_self _ _)
    rw [List.cons_append, splitAfterNlAux, if_neg hc]
    rw [ih (fun h => hnin (List.mem_cons_of_mem _ h)) rest (c :: cur)]
    simp

theorem diffLines_join (lines : List String) (h : ∀ x ∈ lines, LineShape x) :
    diffLines (String.join lines) = lines ++ [""] := by
  unfold diffLines
  rw [string_join_data]
  have haux : ∀ (ls : List String), (∀ x ∈ ls, LineShape x) →
      splitAfterNlAux [] ((ls.map String.data).flatten) = ls.map String.data ++ [[]] := by
    intro ls
    induction ls with
    | nil => intro _; rfl
    | cons x rest ih =>
      intro hsh
      obtain ⟨pre, hpre, hnin⟩ := hsh x (List.mem_cons_self _ _)
      rw [List.map_cons, List.flatten_cons, hpre, List.append_assoc, List.singleton_append]
      rw [splitAfterNlAux_append_line pre hnin _ []]
      rw [ih (fun y hy => hsh y (List.mem_cons_of_mem _ hy))]
      rw [List.reverse_nil, List.nil_append, ← hpre]
      rw [List.cons_append]
  rw [haux lines h, List.map_append, List.map_map]
  have hid : lines.map (String.mk ∘ String.data) = lines := List.map_id'' (fun l => rfl) lines
  rw [hid]
  rfl

theorem sliceL_length {α : Type} (l : List α) (i j : Nat) (hij : i ≤ j) (hj : j ≤ l.length) :
    (sliceL l i j).length = j - i := by
  unfold sliceL
  rw [List.length_take, List.length_drop]
  omega

theorem drop_eq_sliceL_append {α : Type} (l : List α) (i j : Nat) (hij : i ≤ j) :
    l.drop i = sliceL l i j ++ l.drop j := by
  unfold sliceL
  conv_lhs => rw [← List.take_append_drop (j - i) (l.drop i)]
  congr 1
  rw [List.drop_drop]
  congr 1
  omega

theorem sliceL_glue {α : Type} (l : List α) (i j k : Nat) (h1 : i ≤ j) (h2 : j ≤ k) :
    sliceL l i j ++ sliceL l j k = sliceL l i k := by
  unfold sliceL
  rw [show k - i = (j - i) + (k - j) from by omega, List.take_add]
  congr 1
  rw [List.drop_drop]
  congr 2
  omega

theorem sliceL_eq_of_matchSpan {a b : List String} {i j k : Nat}
    (hspan : MatchSpan a b i j k) (ha : i + k ≤ a.length) (hb : j + k ≤ b.length) :
    sliceL a i (i + k) = sliceL b j (j + k) := by
  apply List.ext_getElem
  · rw [sliceL_length a i (i + k) (by omega) ha, sliceL_length b j (j + k) (by omega) hb]
    omega
  · intro d hd1 hd2
    rw [sliceL_length a i (i + k) (by omega) ha] at hd1
    have hdk : d < k := by omega
    have hsp := hspan d hdk
    rw [List.getD_eq_getElem?_getD, List.getD_eq_getElem?_getD] at hsp
    rw [List.getElem?_eq_getElem (by omega : i + d < a.length)] at hsp
    rw [List.getElem?_eq_getElem (by omega : j + d < b.length)] at hsp
    simp only [Option.getD_some] at hsp
    unfold sliceL
    rw [List.getElem_take, List.getElem_drop]
    rw [List.getElem_take, List.getElem_drop]
    exact hsp

theorem applyHunkBody_context : ∀ (sl dls file : List String) (ar br : Nat) (out : List String),
    applyHunkBody ((sl.map (fun ln => " " ++ ln)) ++ dls) (sl ++ file)
      (sl.length + ar) (sl.length + br) out =
    applyHunkBody dls file ar br (out ++ sl) := by
  intro sl
  induction sl with
  | nil =>
    intro dls file ar br out
    simp
  | cons s sl ih =>
    intro dls file ar br out
    rw [List.map_cons, List.cons_append, List.cons_append]
    rw [applyHunkBody]
    rw [if_neg (by rintro ⟨h1, -⟩; simp at h1)]
    try dsimp only
    rw [show (" " ++ s).data = ' ' :: s.data from by simp [String.data_append]]
    try dsimp only
    rw [if_pos (rfl : (' ' : Char) = ' ')]
    rw [show (s :: sl).length + ar = (sl.length + ar) + 1 from by simp; omega]
    rw [show (s :: sl).length + br = (sl.length + br) + 1 from by simp; omega]
    try dsimp only
    rw [if_pos rfl]
    rw [ih dls file ar br (out ++ [s])]
    rw [List.append_assoc, List.singleton_append]

theorem applyHunkBody_delete : ∀ (sl dls file : List String) (ar br : Nat) (out : List String),
    applyHunkBody ((sl.map (fun ln => "-" ++ ln)) ++ dls) (sl ++ file)
      (sl.length + ar) br out =
    applyHunkBody dls file ar br out := by
  intro sl
  induction sl with
  | nil =>
    intro dls file ar br out
    simp
  | cons s sl ih =>
    intro dls file ar br out
    rw [List.map_cons, List.cons_append, List.cons_append]
    rw [applyHunkBody]
    rw [if_neg (by rintro ⟨h1, -⟩; simp at h1)]
    try dsimp only
    rw [show ("-" ++ s).data = '-' :: s.data from by simp [String.data_append]]
    try dsimp only
    rw [if_neg (by decide : ¬('-' : Char) = ' '), if_pos (rfl : ('-' : Char) = '-')]
    rw [show (s :: sl).length + ar = (sl.length + ar) + 1 from by simp; omega]
    try dsimp only
    rw [if_pos rfl]
    exact ih dls file ar br out

theorem applyHunkBody_insert : ∀ (sl dls file : List String) (ar br : Nat) (out : List String),
    applyHunkBody ((sl.map (fun ln => "+" ++ ln)) ++ dls) file
      ar (sl.length + br) out =
    applyHunkBody dls file ar br (out ++ sl) := by
  intro sl
  induction sl with
  | nil =>
    intro dls file ar br out
    simp
  | cons s sl ih =>
    intro dls file ar br out
    rw [List.map_cons, List.cons_append]
    rw [applyHunkBody]
    rw [if_neg (by rintro ⟨-, h2⟩; simp at h2)]
    try dsimp only
    rw [show ("+" ++ s).data = '+' :: s.data from by simp [String.data_append]]
    try dsimp only
    rw [if_neg (by decide : ¬('+' : Char) = ' '), if_neg (by decide : ¬('+' : Char) = '-'),
      if_pos (rfl : ('+' : Char) = '+')]
    rw [show (s :: sl).length + br = (sl.length + br) + 1 from by simp; omega]
    try dsimp only
    rw [show String.mk s.data = s from rfl]
    rw [ih dls file ar br (out ++ [s])]
    rw [List.append_assoc, List.singleton_append]


theorem renderGroup_eq (a b : List String) (first : OpCode) (gs : List OpCode) :
    renderGroup a b (first :: gs) =
    ("@@ -" ++ formatRangeUnified first.i1 (((first :: gs).getLastD default).i2) ++ " +" ++
       formatRangeUnified first.j1 (((first :: gs).getLastD default).j2) ++ " @@" ++ "\n") ::
    ((first :: gs).map (opBody a b)).flatten := rfl

theorem opsTile_le : ∀ (g : List OpCode) (i j I J : Nat), OpsTile i j I J g → i ≤ I ∧ j ≤ J := by
  intro g
  induction g with
  | nil =>
    intro i j I J h
    obtain ⟨h1, h2⟩ := h
    omega
  | cons c cs ih =>
    intro i j I J h
    obtain ⟨h1, h2, h3, h4, h5⟩ := h
    have := ih c.i2 c.j2 I J h5
    omega

theorem applyHunkBody_op (a b : List String) (c : OpCode)
    (hok : OpOK a b c) (hi : c.i1 ≤ c.i2) (hj : c.j1 ≤ c.j2)
    (hA : c.i2 ≤ a.length) (hB : c.j2 ≤ b.length)
    (dls file : List String) (ar br : Nat) (out : List String) :
    applyHunkBody (opBody a b c ++ dls) (sliceL a c.i1 c.i2 ++ file)
      ((c.i2 - c.i1) + ar) ((c.j2 - c.j1) + br) out =
    applyHunkBody dls file ar br (out ++ sliceL b c.j1 c.j2) := by
  have hK : (sliceL a c.i1 c.i2).length = c.i2 - c.i1 := sliceL_length a _ _ hi hA
  have hL : (sliceL b c.j1 c.j2).length = c.j2 - c.j1 := sliceL_length b _ _ hj hB
  obtain ⟨he, hd, hins, htag, hnz⟩ := hok
  rcases htag with h | h | h | h
  · unfold opBody
    rw [if_neg (by rw [h]; decide), if_pos (Or.inl h), if_pos (Or.inl h)]
    rw [List.append_assoc]
    rw [show c.i2 - c.i1 = (sliceL a c.i1 c.i2).length from hK.symm]
    rw [applyHunkBody_delete]
    rw [show c.j2 - c.j1 = (sliceL b c.j1 c.j2).length from hL.symm]
    rw [applyHunkBody_insert]
  · unfold opBody
    have hjj := hd h
    rw [if_neg (by rw [h]; decide), if_pos (Or.inr h),
      if_neg (by rw [h]; decide)]
    rw [List.append_nil]
    rw [show c.j2 - c.j1 = 0 from by omega, Nat.zero_add]
    rw [show c.i2 - c.i1 = (sliceL a c.i1 c.i2).length from hK.symm]
    rw [applyHunkBody_delete]
    rw [show sliceL b c.j1 c.j2 = [] from by rw [← hjj]; simp [sliceL], List.append_nil]
  · unfold opBody
    have hii := hins h
    rw [if_neg (by rw [h]; decide), if_neg (by rw [h]; decide),
      if_pos (Or.inr h)]
    rw [List.nil_append]
    rw [show sliceL a c.i1 c.i2 = [] from by rw [← hii]; simp [sliceL], List.nil_append]
    rw [show c.i2 - c.i1 = 0 from by omega, Nat.zero_add]
    rw [show c.j2 - c.j1 = (sliceL b c.j1 c.j2).length from hL.symm]
    rw [applyHunkBody_insert]
  · obtain ⟨hlen, hspan⟩ := he h
    have hKL : sliceL a c.i1 c.i2 = sliceL b c.j1 c.j2 := by
      have hx := sliceL_eq_of_matchSpan hspan
        (by omega : c.i1 + (c.i2 - c.i1) ≤ a.length)
        (by omega : c.j1 + (c.i2 - c.i1) ≤ b.length)
      rw [show c.i1 + (c.i2 - c.i1) = c.i2 from by omega] at hx
      rw [show c.j1 + (c.i2 - c.i1) = c.j2 from by omega] at hx
      exact hx
    unfold opBody
    rw [if_pos h]
    rw [show c.j2 - c.j1 = (sliceL a c.i1 c.i2).length from by omega]
    rw [show c.i2 - c.i1 = (sliceL a c.i1 c.i2).length from hK.symm]
    rw [applyHunkBody_context]
    rw [hKL]

theorem applyHunkBody_group (a b : List String) : ∀ (g : List OpCode) (i j I J : Nat)
    (dls file out : List String),
    (∀ c ∈ g, OpOK a b c) → OpsTile i j I J g → I ≤ a.length → J ≤ b.length →
    applyHunkBody ((g.map (opBody a b)).flatten ++ dls) (sliceL a i I ++ file)
      (I - i) (J - j) out =
    some (dls, file, out ++ sliceL b j J) := by
  intro g
  induction g with
  | nil =>
    intro i j I J dls file out hok htile hA hB
    obtain ⟨hiI, hjJ⟩ := htile
    subst hiI; subst hjJ
    rw [List.map_nil, List.flatten_nil, List.nil_append]
    rw [applyHunkBody.eq_def]
    dsimp only
    rw [if_pos ⟨(by omega : i - i = 0), (by omega : j - j = 0)⟩]
    rw [show sliceL a i i = [] from by simp [sliceL], List.nil_append]
    rw [show sliceL b j j = [] from by simp [sliceL], List.append_nil]
  | cons c cs ih =>
    intro i j I J dls file out hok htile hA hB
    obtain ⟨hc1, hc2, hle1, hle2, htile'⟩ := htile
    have hbnd := opsTile_le cs c.i2 c.j2 I J htile'
    rw [List.map_cons, List.flatten_cons, List.append_assoc]
    rw [show sliceL a i I = sliceL a i c.i2 ++ sliceL a c.i2 I from
      (sliceL_glue a i c.i2 I hle1 hbnd.1).symm]
    rw [List.append_assoc]
    rw [show I - i = (c.i2 - c.i1) + (I - c.i2) from by omega]
    rw [show J - j = (c.j2 - c.j1) + (J - c.j2) from by omega]
    rw [show sliceL a i c.i2 = sliceL a c.i1 c.i2 from by rw [hc1]]
    rw [applyHunkBody_op a b c (hok c (List.mem_cons_self c cs)) (by omega) (by omega)
      (by omega) (by omega)]
    rw [ih c.i2 c.j2 I J dls file (out ++ sliceL b c.j1 c.j2)
      (fun x hx => hok x (List.mem_cons_of_mem c hx)) htile' hA hB]
    rw [show sliceL b c.j1 c.j2 = sliceL b j c.j2 from by rw [hc2]]
    rw [List.append_assoc, sliceL_glue b j c.j2 J hle2 hbnd.2]


theorem matchSpan_sub (a b : List String) (i j k d k' : Nat) (h : MatchSpan a b i j k)
    (hle : d + k' ≤ k) : MatchSpan a b (i + d) (j + d) k' := by
  intro e he
  have hx := h (d + e) (by omega)
  rw [show i + (d + e) = i + d + e from by omega,
    show j + (d + e) = j + d + e from by omega] at hx
  exact hx

theorem matchSpan_glue (a b : List String) (i j k k' : Nat)
    (h1 : MatchSpan a b i j k) (h2 : MatchSpan a b (i + k) (j + k) k') :
    MatchSpan a b i j (k + k') := by
  intro d hd
  by_cases hc : d < k
  · exact h1 d hc
  · have hx := h2 (d - k) (by omega)
    rw [show i + k + (d - k) = i + d from by omega,
      show j + k + (d - k) = j + d from by omega] at hx
    exact hx

theorem opsTile_snoc (gi gj i j : Nat) (group : List OpCode) (c : OpCode)
    (h : OpsTile gi gj i j group) (h1 : c.i1 = i) (h2 : c.j1 = j)
    (h3 : i ≤ c.i2) (h4 : j ≤ c.j2) :
    OpsTile gi gj c.i2 c.j2 (group ++ [c]) :=
  opsTile_append group gi gj i j c.i2 c.j2 [c] h ⟨h1, h2, h3, h4, rfl, rfl⟩

theorem opsTile_unsnoc : ∀ (front : List OpCode) (c : OpCode) (s t I J : Nat),
    OpsTile s t I J (front ++ [c]) →
    OpsTile s t c.i1 c.j1 front ∧ c.i1 ≤ c.i2 ∧ c.j1 ≤ c.j2 ∧ c.i2 = I ∧ c.j2 = J := by
  intro front
  induction front with
  | nil =>
    intro c s t I J h
    obtain ⟨h1, h2, h3, h4, h5, h6⟩ := h
    exact ⟨⟨h1.symm, h2.symm⟩, by omega, by omega, h5, h6⟩
  | cons d front ih =>
    intro c s t I J h
    rw [List.cons_append] at h
    obtain ⟨h1, h2, h3, h4, h5⟩ := h
    obtain ⟨ht, r1, r2, r3, r4⟩ := ih c d.i2 d.j2 I J h5
    exact ⟨⟨h1, h2, h3, h4, ht⟩, r1, r2, r3, r4⟩

theorem opsTile_getLast : ∀ (g : List OpCode) (c : OpCode) (i j I J : Nat),
    OpsTile i j I J (c :: g) →
    ((c :: g).getLastD default).i2 = I ∧ ((c :: g).getLastD default).j2 = J := by
  intro g
  induction g with
  | nil =>
    intro c i j I J h
    obtain ⟨h1, h2, h3, h4, h5, h6⟩ := h
    simpa using ⟨h5, h6⟩
  | cons d g ih =>
    intro c i j I J h
    obtain ⟨h1, h2, h3, h4, h5⟩ := h
    have hx := ih d c.i2 c.j2 I J h5
    simpa using hx

theorem groupLoop_acc : ∀ (n nn : Nat) (ops group : List OpCode)
    (groups : List (List OpCode)),
    groupLoop n nn ops group groups = groups ++ groupLoop n nn ops group [] := by
  intro n nn ops
  induction ops with
  | nil =>
    intro group groups
    rw [groupLoop, groupLoop]
    by_cases h : group ≠ [] ∧ ¬(group.length = 1 ∧ (group.headD default).tag = 'e')
    · rw [if_pos h, if_pos h]
      simp
    · rw [if_neg h, if_neg h]
      simp
  | cons c rest ih =>
    intro group groups
    rw [groupLoop, groupLoop]
    by_cases h : c.tag = 'e' ∧ nn < c.i2 - c.i1
    · rw [if_pos h, if_pos h]
      rw [ih _ (groups ++ _), ih _ ([] ++ _)]
      simp
    · rw [if_neg h, if_neg h]
      exact ih (group ++ [c]) groups

theorem groupLoop_spec (a b : List String) (n : Nat) (hn : 0 < n) (E1 E2 : Nat)
    (hE1 : E1 ≤ a.length) (hE2 : E2 ≤ b.length)
    (hEeq : a.length - E1 = b.length - E2)
    (hEspan : MatchSpan a b E1 E2 (a.length - E1)) :
    ∀ (ops : List OpCode), ∀ (group : List OpCode) (i j gi gj p q : Nat),
    (∀ c ∈ ops, OpOK a b c) → OpsTile i j E1 E2 ops →
    (∀ c ∈ group, OpOK a b c) → OpsTile gi gj i j group →
    p ≤ gi → q ≤ gj → gi - p = gj - q → MatchSpan a b p q (gi - p) →
    GroupsOK a b p q (groupLoop n (n + n) ops group []) := by
  intro ops
  induction ops with
  | nil =>
    intro group i j gi gj p q hopsOK hopsT hgOK hgT hpgi hqgj hgapEq hgapSpan
    obtain ⟨hiE, hjE⟩ : i = E1 ∧ j = E2 := hopsT
    subst hiE; subst hjE
    have hbnd := opsTile_le group gi gj i j hgT
    rw [groupLoop]
    by_cases hcond : group ≠ [] ∧ ¬(group.length = 1 ∧ (group.headD default).tag = 'e')
    · rw [if_pos hcond]
      rw [List.nil_append]
      exact ⟨gi, gj, i, j, hcond.1, hgOK, hgT, hpgi, hqgj, hgapEq, hgapSpan,
        hE1, hE2, hEeq, hE1, hE2, hEspan⟩
    · rw [if_neg hcond]
      cases group with
      | nil =>
        obtain ⟨hgi, hgj⟩ : gi = i ∧ gj = j := hgT
        refine ⟨by omega, by omega, by omega, ?_⟩
        have hx := matchSpan_glue a b p q (gi - p) (a.length - i) hgapSpan
          (by rw [show p + (gi - p) = i from by omega,
                show q + (gi - p) = j from by omega]
              exact hEspan)
        rw [show a.length - p = (gi - p) + (a.length - i) from by omega]
        exact hx
      | cons c0 rest0 =>
        have h1 : (c0 :: rest0).length = 1 ∧ ((c0 :: rest0).headD default).tag = 'e' := by
          by_contra hne
          exact hcond ⟨by simp, hne⟩
        obtain ⟨hlen, hhead⟩ := h1
        have hr0 : rest0 = [] := by
          cases rest0 with
          | nil => rfl
          | cons x xs => simp at hlen
        subst hr0
        have hc0e : c0.tag = 'e' := by simpa using hhead
        obtain ⟨ht1, ht2, ht3, ht4, ht5, ht6⟩ := hgT
        obtain ⟨hlen0, hspan0⟩ := (hgOK c0 (List.mem_cons_self _ _)).1 hc0e
        refine ⟨by omega, by omega, by omega, ?_⟩
        have hmid : MatchSpan a b gi gj (i - gi) := by
          intro d hd
          rw [← ht1, ← ht2]
          exact hspan0 d (by omega)
        have hglue1 := matchSpan_glue a b gi gj (i - gi) (a.length - i) hmid
          (by rw [show gi + (i - gi) = i from by omega,
                show gj + (i - gi) = j from by omega]
              exact hEspan)
        have hglue2 := matchSpan_glue a b p q (gi - p) ((i - gi) + (a.length - i))
          hgapSpan
          (by rw [show p + (gi - p) = gi from by omega,
                show q + (gi - p) = gj from by omega]
              exact hglue1)
        rw [show a.length - p = (gi - p) + ((i - gi) + (a.length - i)) from by omega]
        exact hglue2
  | cons c rest ih =>
    intro group i j gi gj p q hopsOK hopsT hgOK hgT hpgi hqgj hgapEq hgapSpan
    have hcOK := hopsOK c (List.mem_cons_self _ _)
    obtain ⟨hci1, hcj1, hci2, hcj2, hrestT⟩ := hopsT
    have hrestBnd := opsTile_le rest c.i2 c.j2 E1 E2 hrestT
    rw [groupLoop]
    by_cases hcut : c.tag = 'e' ∧ n + n < c.i2 - c.i1
    · rw [if_pos hcut]
      obtain ⟨heq2, hespan⟩ := hcOK.1 hcut.1
      rw [groupLoop_acc]
      rw [List.nil_append, List.singleton_append]
      have hcutOK : OpOK a b ⟨c.tag, c.i1, min c.i2 (c.i1 + n), c.j1, min c.j2 (c.j1 + n)⟩ := by
        unfold OpOK
        dsimp only
        refine ⟨fun _ => ⟨by omega, fun d hd => hespan d (by omega)⟩,
          fun hh => absurd (hcut.1.symm.trans hh) (by decide),
          fun hh => absurd (hcut.1.symm.trans hh) (by decide),
          Or.inr (Or.inr (Or.inr hcut.1)), by omega⟩
      have hcontSpan : MatchSpan a b (max c.i1 (c.i2 - n)) (max c.j1 (c.j2 - n))
          (c.i2 - max c.i1 (c.i2 - n)) := by
        have hx := matchSpan_sub a b c.i1 c.j1 (c.i2 - c.i1) (c.i2 - n - c.i1)
          (c.i2 - max c.i1 (c.i2 - n)) hespan (by omega)
        rw [show c.i1 + (c.i2 - n - c.i1) = max c.i1 (c.i2 - n) from by omega,
          show c.j1 + (c.i2 - n - c.i1) = max c.j1 (c.j2 - n) from by omega] at hx
        exact hx
      have hcontOK : OpOK a b ⟨c.tag, max c.i1 (c.i2 - n), c.i2, max c.j1 (c.j2 - n), c.j2⟩ := by
        unfold OpOK
        dsimp only
        refine ⟨fun _ => ⟨by omega, hcontSpan⟩,
          fun hh => absurd (hcut.1.symm.trans hh) (by decide),
          fun hh => absurd (hcut.1.symm.trans hh) (by decide),
          Or.inr (Or.inr (Or.inr hcut.1)), by omega⟩
      refine ⟨gi, gj, min c.i2 (c.i1 + n), min c.j2 (c.j1 + n), by simp, ?_, ?_,
        hpgi, hqgj, hgapEq, hgapSpan, by omega, by omega, ?_⟩
      · intro x hx
        rcases List.mem_append.mp hx with h | h
        · exact hgOK x h
        · rw [List.mem_singleton.mp h]
          exact hcutOK
      · exact opsTile_snoc gi gj i j group
          ⟨c.tag, c.i1, min c.i2 (c.i1 + n), c.j1, min c.j2 (c.j1 + n)⟩ hgT hci1 hcj1
          (by show i ≤ min c.i2 (c.i1 + n); omega) (by show j ≤ min c.j2 (c.j1 + n); omega)
      · refine ih [⟨c.tag, max c.i1 (c.i2 - n), c.i2, max c.j1 (c.j2 - n), c.j2⟩]
          c.i2 c.j2 (max c.i1 (c.i2 - n)) (max c.j1 (c.j2 - n))
          (min c.i2 (c.i1 + n)) (min c.j2 (c.j1 + n))
          (fun x hx => hopsOK x (List.mem_cons_of_mem _ hx)) hrestT
          (fun x hx => by rw [List.mem_singleton.mp hx]; exact hcontOK)
          ⟨rfl, rfl, by show max c.i1 (c.i2 - n) ≤ c.i2; omega,
            by show max c.j1 (c.j2 - n) ≤ c.j2; omega, rfl, rfl⟩
          (by omega) (by omega) (by omega) ?_
        have hx := matchSpan_sub a b c.i1 c.j1 (c.i2 - c.i1) n
          (max c.i1 (c.i2 - n) - min c.i2 (c.i1 + n)) hespan (by omega)
        intro d hd
        convert hx d hd using 2 <;> omega
    · rw [if_neg hcut]
      refine ih (group ++ [c]) c.i2 c.j2 gi gj p q
        (fun x hx => hopsOK x (List.mem_cons_of_mem _ hx)) hrestT
        ?_ (opsTile_snoc gi gj i j group c hgT hci1 hcj1 hci2 hcj2)
        hpgi hqgj hgapEq hgapSpan
      intro x hx
      rcases List.mem_append.mp hx with h | h
      · exact hgOK x h
      · rw [List.mem_singleton.mp h]
        exact hcOK

theorem drop_eq_of_matchSpan (a b : List String) (p q : Nat)
    (hlen : a.length - p = b.length - q) (hp : p ≤ a.length) (hq : q ≤ b.length)
    (hspan : MatchSpan a b p q (a.length - p)) : a.drop p = b.drop q := by
  have hx := sliceL_eq_of_matchSpan hspan (by omega) (by omega)
  unfold sliceL at hx
  rw [show p + (a.length - p) - p = a.length - p from by omega] at hx
  rw [show q + (a.length - p) - q = a.length - p from by omega] at hx
  rw [List.take_of_length_le (by simp [List.length_drop])] at hx
  rw [List.take_of_length_le (by simp [List.length_drop]; omega)] at hx
  exact hx

theorem groupsOK_flatten_len (a b : List String) : ∀ (groups : List (List OpCode)) (p q : Nat),
    GroupsOK a b p q groups →
    groups.length ≤ ((groups.map (renderGroup a b)).flatten).length := by
  intro groups
  induction groups with
  | nil => simp
  | cons g gs ih =>
    intro p q h
    obtain ⟨i1, j1, i2, j2, hne, h2, h3, h4, h5, h6, h7, h8, h9, hrec⟩ := h
    rw [List.map_cons, List.flatten_cons, List.length_append, List.length_cons]
    have h1 : 1 ≤ (renderGroup a b g).length := by
      cases g with
      | nil => exact absurd rfl hne
      | cons first grest =>
        rw [renderGroup_eq]
        simp
    have hx := ih i2 j2 hrec
    omega

theorem applyHunks_spec (a b : List String) : ∀ (groups : List (List OpCode)) (fuel p q : Nat)
    (out : List String),
    GroupsOK a b p q groups → groups.length < fuel →
    applyHunks fuel ((groups.map (renderGroup a b)).flatten ++ [""]) (a.drop p) p out =
    some (out ++ b.drop q) := by
  intro groups
  induction groups with
  | nil =>
    intro fuel p q out hok hfuel
    obtain ⟨heq, hp, hq, hspan⟩ := hok
    rw [List.map_nil, List.flatten_nil, List.nil_append]
    rw [applyHunks.eq_def]
    dsimp only
    rw [if_pos ⟨rfl, rfl⟩]
    rw [drop_eq_of_matchSpan a b p q heq hp hq hspan]
  | cons g gs ih =>
    intro fuel p q out hok hfuel
    obtain ⟨i1, j1, i2, j2, hgne, hgok, hgtile, hpi1, hqj1, hgapEq, hgapSpan, hi2, hj2, hrec⟩ := hok
    cases g with
    | nil => exact absurd rfl hgne
    | cons first grest =>
      have hlast := opsTile_getLast grest first i1 j1 i2 j2 hgtile
      have hgle := opsTile_le (first :: grest) i1 j1 i2 j2 hgtile
      obtain ⟨hf1, hf2, hf3, hf4, hgrest⟩ := hgtile
      rw [List.map_cons, List.flatten_cons, renderGroup_eq, List.append_assoc,
        List.cons_append]
      rw [applyHunks.eq_def]
      dsimp only
      rw [if_neg (by
        rintro ⟨h1, -⟩
        have hdata := congrArg String.data h1
        simp [String.data_append] at hdata)]
      cases fuel with
      | zero => omega
      | succ fuel' =>
        dsimp only
        rw [hlast.1, hlast.2]
        rw [parseHunkHeader_format first.i1 i2 first.j1 j2 (by omega) (by omega)]
        dsimp only
        rw [if_neg (by
          rw [List.length_drop]
          omega)]
        rw [List.drop_drop, show p + (first.i1 - p) = i1 from by omega]
        rw [drop_eq_sliceL_append a i1 i2 (by omega)]
        rw [show i2 - first.i1 = i2 - i1 from by omega,
          show j2 - first.j1 = j2 - j1 from by omega]
        rw [applyHunkBody_group a b (first :: grest) i1 j1 i2 j2 _ _ [] hgok
          ⟨hf1, hf2, hf3, hf4, hgrest⟩ hi2 hj2]
        dsimp only
        have htake : (a.drop p).take (first.i1 - p) = sliceL b q j1 := by
          have hx := sliceL_eq_of_matchSpan hgapSpan (by omega) (by omega)
          rw [show p + (i1 - p) = i1 from by omega,
            show q + (i1 - p) = j1 from by omega] at hx
          rw [show first.i1 - p = i1 - p from by omega]
          exact hx
        rw [htake, List.nil_append]
        rw [ih fuel' i2 j2 _ hrec (by simp at hfuel; omega)]
        rw [List.append_assoc, List.append_assoc]
        rw [show sliceL b q j1 ++ (sliceL b j1 j2 ++ b.drop j2) = b.drop q from by
          rw [← List.append_assoc, sliceL_glue b q j1 j2 (by omega) (by omega)]
          exact (drop_eq_sliceL_append b q j2 (by omega)).symm]

theorem trimTail_groupsOK (a b : List String) (n : Nat) (hn : 0 < n)
    (codes2 : List OpCode) (s1 s2 : Nat)
    (htile : OpsTile s1 s2 a.length b.length codes2)
    (hok : ∀ x ∈ codes2, OpOK a b x)
    (hs : s1 = s2) (hgap : MatchSpan a b 0 0 s1) (hne : codes2 ≠ []) :
    GroupsOK a b 0 0 (groupLoop n (n + n)
      (match codes2.reverse with
        | c :: revFront =>
          if c.tag = 'e' then
            revFront.reverse ++
              [(⟨c.tag, c.i1, min c.i2 (c.i1 + n), c.j1, min c.j2 (c.j1 + n)⟩ : OpCode)]
          else revFront.reverse ++ [c]
        | [] => []) [] []) := by
  cases hrev : codes2.reverse with
  | nil =>
    exfalso
    apply hne
    have hx := congrArg List.reverse hrev
    rwa [List.reverse_reverse, List.reverse_nil] at hx
  | cons lastc revFront =>
    have hc2 : codes2 = revFront.reverse ++ [lastc] := by
      have hx := congrArg List.reverse hrev
      rwa [List.reverse_reverse, List.reverse_cons] at hx
    rw [hc2] at htile hok
    obtain ⟨hfront, hl1, hl2, hl3, hl4⟩ :=
      opsTile_unsnoc revFront.reverse lastc s1 s2 a.length b.length htile
    have hlOK := hok lastc (List.mem_append.mpr (Or.inr (List.mem_singleton.mpr rfl)))
    dsimp only
    by_cases hlt : lastc.tag = 'e'
    · rw [if_pos hlt]
      obtain ⟨hleq, hlspan⟩ := hlOK.1 hlt
      have hlnz : lastc.i1 < lastc.i2 := by
        rcases hlOK.2.2.2.2 with h5 | h5 <;> omega
      have hEspan : MatchSpan a b (min lastc.i2 (lastc.i1 + n)) (min lastc.j2 (lastc.j1 + n))
          (a.length - min lastc.i2 (lastc.i1 + n)) := by
        have hx := matchSpan_sub a b lastc.i1 lastc.j1 (lastc.i2 - lastc.i1)
          (min lastc.i2 (lastc.i1 + n) - lastc.i1)
          (a.length - min lastc.i2 (lastc.i1 + n)) hlspan (by omega)
        rw [show lastc.i1 + (min lastc.i2 (lastc.i1 + n) - lastc.i1) =
            min lastc.i2 (lastc.i1 + n) from by omega,
          show lastc.j1 + (min lastc.i2 (lastc.i1 + n) - lastc.i1) =
            min lastc.j2 (lastc.j1 + n) from by omega] at hx
        exact hx
      have htrimOK : OpOK a b
          ⟨lastc.tag, lastc.i1, min lastc.i2 (lastc.i1 + n),
            lastc.j1, min lastc.j2 (lastc.j1 + n)⟩ := by
        unfold OpOK
        dsimp only
        refine ⟨fun _ => ⟨by omega, fun d hd => hlspan d (by omega)⟩,
          fun hh => absurd (hlt.symm.trans hh) (by decide),
          fun hh => absurd (hlt.symm.trans hh) (by decide),
          Or.inr (Or.inr (Or.inr hlt)), by omega⟩
      refine groupLoop_spec a b n hn (min lastc.i2 (lastc.i1 + n))
        (min lastc.j2 (lastc.j1 + n)) (by omega) (by omega) (by omega) hEspan
        (revFront.reverse ++
          [⟨lastc.tag, lastc.i1, min lastc.i2 (lastc.i1 + n),
            lastc.j1, min lastc.j2 (lastc.j1 + n)⟩]) [] s1 s2 s1 s2 0 0
        ?_ ?_ (by simp) ⟨rfl, rfl⟩ (by omega) (by omega) (by omega)
        (fun d hd => hgap d (by omega))
      · intro x hx
        rcases List.mem_append.mp hx with h | h
        · exact hok x (List.mem_append.mpr (Or.inl h))
        · rw [List.mem_singleton.mp h]
          exact htrimOK
      · exact opsTile_snoc s1 s2 lastc.i1 lastc.j1 revFront.reverse
          ⟨lastc.tag, lastc.i1, min lastc.i2 (lastc.i1 + n),
            lastc.j1, min lastc.j2 (lastc.j1 + n)⟩ hfront rfl rfl
          (by show lastc.i1 ≤ min lastc.i2 (lastc.i1 + n); omega)
          (by show lastc.j1 ≤ min lastc.j2 (lastc.j1 + n); omega)
    · rw [if_neg hlt]
      exact groupLoop_spec a b n hn a.length b.length (Nat.le_refl _) (Nat.le_refl _)
        (by omega) (fun d hd => absurd hd (by omega))
        (revFront.reverse ++ [lastc]) [] s1 s2 s1 s2 0 0 hok htile (by simp) ⟨rfl, rfl⟩
        (by omega) (by omega) (by omega) (fun d hd => hgap d (by omega))

theorem getGroupedOpCodes_groupsOK (a b : List String) (n : Nat) (hn : 0 < n)
    (ha : a ≠ []) : GroupsOK a b 0 0 (getGroupedOpCodes a b n) := by
  obtain ⟨htile, hok⟩ := getOpCodes_spec a b
  have hnil : getOpCodes a b ≠ [] := by
    intro h
    rw [h] at htile
    obtain ⟨h1, h2⟩ := htile
    exact ha (List.length_eq_zero.mp h1.symm)
  unfold getGroupedOpCodes
  dsimp only
  rw [if_neg hnil]
  cases hc0 : getOpCodes a b with
  | nil => exact absurd hc0 hnil
  | cons c rest =>
    rw [hc0] at htile hok
    obtain ⟨hci1, hcj1, hci2, hcj2, hrestT⟩ := htile
    have hcOK := hok c (List.mem_cons_self _ _)
    dsimp only
    by_cases hct : c.tag = 'e'
    · rw [if_pos hct]
      obtain ⟨hceq, hcspan⟩ := hcOK.1 hct
      have hcnz : c.i1 < c.i2 := by
        rcases hcOK.2.2.2.2 with h5 | h5 <;> omega
      have hspan2 : MatchSpan a b (max c.i1 (c.i2 - n)) (max c.j1 (c.j2 - n))
          (c.i2 - max c.i1 (c.i2 - n)) := by
        have hx := matchSpan_sub a b c.i1 c.j1 (c.i2 - c.i1) (c.i2 - n - c.i1)
          (c.i2 - max c.i1 (c.i2 - n)) hcspan (by omega)
        rw [show c.i1 + (c.i2 - n - c.i1) = max c.i1 (c.i2 - n) from by omega,
          show c.j1 + (c.i2 - n - c.i1) = max c.j1 (c.j2 - n) from by omega] at hx
        exact hx
      refine trimTail_groupsOK a b n hn
        (⟨c.tag, max c.i1 (c.i2 - n), c.i2, max c.j1 (c.j2 - n), c.j2⟩ :: rest)
        (max c.i1 (c.i2 - n)) (max c.j1 (c.j2 - n))
        ⟨rfl, rfl, by show max c.i1 (c.i2 - n) ≤ c.i2; omega,
          by show max c.j1 (c.j2 - n) ≤ c.j2; omega, hrestT⟩
        ?_ (by omega) ?_ (by simp)
      · intro x hx
        rcases List.mem_cons.mp hx with h | h
        · rw [h]
          unfold OpOK
          dsimp only
          refine ⟨fun _ => ⟨by omega, hspan2⟩,
            fun hh => absurd (hct.symm.trans hh) (by decide),
            fun hh => absurd (hct.symm.trans hh) (by decide),
            Or.inr (Or.inr (Or.inr hct)), by omega⟩
        · exact hok x (List.mem_cons_of_mem _ h)
      · intro d hd
        have hx := hcspan d (by omega)
        rw [hci1, hcj1] at hx
        exact hx
    · rw [if_neg hct]
      refine trimTail_groupsOK a b n hn (c :: rest) 0 0
        ⟨hci1, hcj1, hci2, hcj2, hrestT⟩ hok rfl ?_ (by simp)
      intro d hd
      exact absurd hd (by omega)

theorem splitLines_ne_nil (s : String) : splitLines s ≠ [] := by
  unfold splitLines
  dsimp only
  cases hp : ((splitAfterNlAux [] s.data).map String.mk).reverse with
  | nil =>
    have hx := congrArg List.reverse hp
    rw [List.reverse_reverse, List.reverse_nil] at hx
    have hy : splitAfterNlAux [] s.data = [] := by
      cases hz : splitAfterNlAux [] s.data with
      | nil => rfl
      | cons u us => rw [hz] at hx; simp at hx
    exact absurd hy (splitAfterNlAux_ne_nil s.data [])
  | cons lastPart revFront =>
    simp

theorem unSplitLines_splitLines (s : String) : unSplitLines (splitLines s) = s := by
  have h2 : ((splitLines s).map String.data).flatten = s.data ++ ['\n'] := by
    have h := congrArg String.data (splitLines_join s)
    rw [String.data_append] at h
    exact h
  unfold unSplitLines
  rw [h2]
  rw [List.dropLast_concat]

theorem getUnifiedDiffString_applies (previous current : String) (hne : previous ≠ current) :
    applyUnified previous (getUnifiedDiffString previous current) = some current := by
  have hlne : splitLines previous ≠ splitLines current :=
    fun h => hne (splitLines_injective h)
  have hgroups := getGroupedOpCodes_ne_nil (splitLines previous) (splitLines current) 3 hlne
  unfold applyUnified getUnifiedDiffString
  cases hg : getGroupedOpCodes (splitLines previous) (splitLines current) 3 with
  | nil => exact absurd hg hgroups
  | cons g0 gs =>
    have hlines : unifiedDiffLines (splitLines previous) (splitLines current) 3 =
        ("--- previous" ++ "\n") :: ("+++ current" ++ "\n") ::
        (((g0 :: gs).map (renderGroup (splitLines previous) (splitLines current))).flatten) := by
      unfold unifiedDiffLines
      rw [hg]
    rw [hlines]
    have hshapeL : ∀ x ∈ ("--- previous" ++ "\n") :: ("+++ current" ++ "\n") ::
        (((g0 :: gs).map (renderGroup (splitLines previous) (splitLines current))).flatten),
        LineShape x := by
      intro x hx
      rcases List.mem_cons.mp hx with h | hx2
      · rw [h]
        exact ⟨"--- previous".data, rfl, by decide⟩
      · rcases List.mem_cons.mp hx2 with h | hx3
        · rw [h]
          exact ⟨"+++ current".data, rfl, by decide⟩
        · obtain ⟨l, hl, hxl⟩ := List.mem_flatten.mp hx3
          obtain ⟨g, hgmem, hgl⟩ := List.mem_map.mp hl
          rw [← hgl] at hxl
          exact renderGroup_shape _ _ g (splitLines_shape previous) (splitLines_shape current)
            x hxl
    rw [diffLines_join _ hshapeL]
    rw [List.cons_append, List.cons_append]
    dsimp only
    rw [if_pos ⟨by decide, by decide⟩]
    have hOK := getGroupedOpCodes_groupsOK (splitLines previous) (splitLines current) 3
      (by omega) (splitLines_ne_nil previous)
    rw [hg] at hOK
    have hflen := groupsOK_flatten_len (splitLines previous) (splitLines current)
      (g0 :: gs) 0 0 hOK
    have hspec := applyHunks_spec (splitLines previous) (splitLines current) (g0 :: gs)
      ((((g0 :: gs).map (renderGroup (splitLines previous) (splitLines current))).flatten
        ++ [""]).length + 1) 0 0 [] hOK
      (by rw [List.length_append]; simp only [List.length_singleton]; omega)
    simp only [List.drop_zero] at hspec
    rw [hspec]
    dsimp only
    rw [List.nil_append]
    rw [unSplitLines_splitLines]

/-- C8: `computeDiff` returns the empty string exactly when the two contents
are equal; for different contents it returns the whitespace-trimmed rendering
of the unified diff with 3 lines of context, which is non-empty, and the
untrimmed rendering is a valid unified diff: replaying it against `previous`
with a strict reader reconstructs `current` exactly. -/
theorem c8_computeDiff_correct (previous current : String) :
    (computeDiff previous current = "" ↔ previous = current) ∧
    (previous ≠ current →
      computeDiff previous current = trimSpace (getUnifiedDiffString previous current) ∧
      computeDiff previous current ≠ "" ∧
      applyUnified previous (getUnifiedDiffString previous current) = some current) := by
  refine ⟨computeDiff_empty_iff previous current, fun hne => ⟨?_, ?_, ?_⟩⟩
  · unfold computeDiff
    rw [if_neg hne]
  · exact computeDiff_ne_empty hne
  · exact getUnifiedDiffString_applies previous current hne

/-- Witness: the C8 theorem applied at concrete contents `"a\n"`, `"b\n"`. -/
theorem c8_witness :
    (computeDiff "a\n" "b\n" = "" ↔ "a\n" = "b\n") ∧
    ("a\n" ≠ "b\n" →
      computeDiff "a\n" "b\n" = trimSpace (getUnifiedDiffString "a\n" "b\n") ∧
      computeDiff "a\n" "b\n" ≠ "" ∧
      applyUnified "a\n" (getUnifiedDiffString "a\n" "b\n") = some "b\n") :=
  c8_computeDiff_correct "a\n" "b\n"

/-- Counterexample to the claim as stated: the string `computeDiff` actually
returns is the *trimmed* rendering, and trimming can strip trailing
whitespace-only context lines, so the returned string itself is not always
a valid unified diff against the inputs — the untrimmed rendering is. -/
theorem c8_counterexample :
    "a\n\n" ≠ "b\n\n" ∧
    computeDiff "a\n\n" "b\n\n" ≠ "" ∧
    applyUnified "a\n\n" (computeDiff "a\n\n" "b\n\n") = none ∧
    applyUnified "a\n\n" (getUnifiedDiffString "a\n\n" "b\n\n") = some "b\n\n" :=
  ⟨by decide, by decide, by decide, by decide⟩

end KvVs
